import Mathlib

/-!
A shallow embedding of the core of the ashier repository
(ashierlib/utils.py, ashierlib/linebuf.py, ashierlib/directive.py,
ashierlib/reactive.py) together with proofs about the embedded code.

Python strings are modelled as lists of characters (`Str`).  Python
operations that can raise uncaught exceptions are modelled with `Option`
(returning `none` where the Python code would crash).  Error reporting
through the process-global queue in utils.py is modelled by explicitly
returning the list of reported error messages; the "file:lineno" header
and the "Error: " tag that utils.ReportError attaches are elided, so an
error value here is the bare message string passed to ReportError.
-/

namespace Ashier

abbrev Str := List Char

/-- Python str.isspace / the regex class backslash-s for byte strings:
space, tab, newline, carriage return, vertical tab, form feed. -/
def isPySpace (c : Char) : Bool :=
  c = ' ' ∨ c = '\t' ∨ c = '\n' ∨ c = '\r' ∨ c = '\x0b' ∨ c = '\x0c'

/-- Python regex word characters (the backslash-w class without re.UNICODE):
ASCII letters, digits and underscore.  Also the set of characters that
re.escape leaves unescaped. -/
def isWordCh (c : Char) : Bool :=
  ('a' ≤ c ∧ c ≤ 'z') ∨ ('A' ≤ c ∧ c ≤ 'Z') ∨ ('0' ≤ c ∧ c ≤ '9') ∨ c = '_'

/-- re.escape applied to a single character (Python 2.7 semantics):
word characters unchanged, NUL becomes backslash-000, anything else
gets a leading backslash. -/
def reEscapeChar (c : Char) : Str :=
  if isWordCh c then [c]
  else if c = '\x00' then ['\\', '0', '0', '0']
  else ['\\', c]

/-- Prepend a character to the first element of a list of strings
(used by the line and regex splitters). -/
def consHead (c : Char) : List Str → List Str
  | [] => [[c]]
  | x :: xs => (c :: x) :: xs

/-- Python rstrip applied with a single strip character. -/
def rstripOf (strip : Char) (s : Str) : Str :=
  (s.reverse.dropWhile (· = strip)).reverse

/-- The slice s[a:b] of a Python string (for 0 ≤ a ≤ b). -/
def sliceStr (s : Str) (a b : Nat) : Str := (s.drop a).take (b - a)

/-- The Python slice l[:k] where k may be negative. -/
def pyTake {α : Type} (l : List α) (k : Int) : List α :=
  if 0 ≤ k then l.take k.toNat else l.take (l.length - k.natAbs)

/-- Pop elements from the end of a list while they satisfy p
(the while-pop loop over the nesting stack in Reactive.__init__). -/
def dropLastWhile {α : Type} (p : α → Bool) (l : List α) : List α :=
  (l.reverse.dropWhile p).reverse

/- ## utils.py -/

/-- The loop body state of utils.RemoveRegexBindingGroups: the escaped
flag tracks whether the current character is preceded by an odd number
of consecutive backslashes. -/
def removeAux : Bool → Str → Str
  | _, [] => []
  | escaped, ch :: rest =>
    (if ch = '(' ∧ ¬escaped then ['(', '?', ':'] else [ch]) ++
      removeAux (if ch = '\\' then !escaped else false) rest

/-- utils.RemoveRegexBindingGroups: rewrite every unescaped open
parenthesis to an open parenthesis followed by question mark and colon. -/
def RemoveRegexBindingGroups (regex : Str) : Str :=
  removeAux false regex

/-- Helper predicate: every open parenthesis in the string is escaped
(preceded by an odd number of consecutive backslashes), threading the
same escaped flag as removeAux. -/
def noBindingParen : Bool → Str → Bool
  | _, [] => true
  | escaped, ch :: rest =>
    (ch ≠ '(' ∨ escaped) ∧ noBindingParen (if ch = '\\' then !escaped else false) rest

/- ## linebuf.py -/

/-- Python split on a single newline character: always returns a
non-empty list; the last element is the text after the final newline. -/
def splitNL : Str → List Str
  | [] => [[]]
  | c :: rest => if c = '\n' then [] :: splitNL rest else consHead c (splitNL rest)

/-- linebuf.Buffer: baseline plus the internal _lines list.  The last
element of lines is the partial line; the element at position 0 is the
inaccessible slot below the baseline. -/
structure Buffer where
  baseline : Nat
  lines : List Str
deriving DecidableEq, Repr

/-- Buffer.__init__: baseline 1 and two empty line slots. -/
def Buffer.init : Buffer := ⟨1, [[], []]⟩

/-- Buffer.GetBound. -/
def Buffer.GetBound (b : Buffer) : Nat := b.baseline + b.lines.length - 1

/-- Buffer.AppendRawData: split the partial tail extended with the new
content on newlines, strip carriage returns from the end of every
segment except the last, and splice the result in place of the tail. -/
def Buffer.AppendRawData (b : Buffer) (content : Str) : Buffer :=
  let segs := splitNL (b.lines.getLastD [] ++ content)
  ⟨b.baseline, b.lines.dropLast ++ (segs.dropLast.map (rstripOf '\r') ++ [segs.getLastD []])⟩

/-- Buffer.GetLine (the in-range assertions are assumed at call sites;
out-of-range access returns the empty string here where Python would
raise). -/
def Buffer.GetLine (b : Buffer) (lineno : Nat) : Str :=
  b.lines.getD (lineno - b.baseline + 1) []

/-- Buffer.UpdateBaseline (the range assertions are assumed at call
sites). -/
def Buffer.UpdateBaseline (b : Buffer) (newBaseline : Nat) : Buffer :=
  ⟨newBaseline, b.lines.drop (newBaseline - b.baseline)⟩

/-- The ordered list of completed lines currently retrievable from the
buffer: GetLine at every index from baseline up to (but not including)
GetBound - 1.  This is exactly what the drain loop in the repository
test suite reads out of the buffer. -/
def Buffer.drained (b : Buffer) : List Str :=
  (List.range (b.GetBound - 1 - b.baseline)).map fun i => b.GetLine (b.baseline + i)

/-- The current partial tail line of the buffer. -/
def Buffer.tailLine (b : Buffer) : Str := b.lines.getLastD []

/-- Prepend a string to the first element of a list of strings. -/
def consHeadAll (x : Str) : List Str → List Str
  | [] => [x]
  | h :: t => (x ++ h) :: t

/-- The scanner behind splitCRLF: pend counts carriage returns that
have been read but not yet attributed.  A newline turns the pending run
into (part of) a separator; any other character makes the pending run
literal text of the current segment. -/
def scAux (pend : Nat) : Str → List Str
  | [] => [List.replicate pend '\r']
  | c :: rest =>
    if c = '\n' then [] :: scAux 0 rest
    else if c = '\r' then scAux (pend + 1) rest
    else consHeadAll (List.replicate pend '\r' ++ [c]) (scAux 0 rest)

/-- Modelled from the spec: splitting a byte string on the regular
expression backslash-r-star backslash-n (a maximal run of carriage
returns followed by a newline), keeping the text after the last
separator as the final element.  This is the reference splitter the
specification compares AppendRawData against; it is written from the
words of the spec, independently of the Buffer code. -/
def splitCRLF (s : Str) : List Str := scAux 0 s

/- ## A model of the Python re module on the dialect of regular
expressions that ashier generates and matches.

The dialect covers: escaped literal characters, the whitespace class,
character classes (possibly negated), the dot, capturing and
non-capturing groups, the plus and star quantifiers on single-character
atoms, and the end-of-line anchor.  Matching is anchored at the start
(re.match) and follows the Python backtracking preference order: a
greedy quantifier offers its longest munch first, and alternatives are
explored left to right, so the first parse in the enumeration below is
the match Python reports. -/

/-- An item of a character class. -/
inductive CItem where
  | ch (c : Char)
  | wsc
deriving DecidableEq, Repr

/-- A single-character atom. -/
inductive PAtom where
  | lit (c : Char)
  | cls (neg : Bool) (items : List CItem)
  | dot
deriving DecidableEq, Repr

/-- A quantifier on a single-character atom. -/
inductive Quant where
  | one
  | plus
  | star
deriving DecidableEq, Repr

mutual

/-- An element of a compiled regular expression. -/
inductive RAtom where
  | pat (a : PAtom) (q : Quant)
  | grp (capturing : Bool) (inner : RSeq)
  | eol
deriving DecidableEq, Repr

/-- A sequence of regex elements (a custom list, so that recursion
over the regex tree stays structural). -/
inductive RSeq where
  | nil
  | cons (a : RAtom) (rest : RSeq)
deriving DecidableEq, Repr

end

/-- Concatenation of regex element sequences. -/
def rcat : RSeq → RSeq → RSeq
  | .nil, r => r
  | .cons a rest, r => .cons a (rcat rest r)

/-- Convert a list of regex elements to a sequence. -/
def toRSeq : List RAtom → RSeq
  | [] => .nil
  | a :: rest => .cons a (toRSeq rest)

/-- Does a class item accept the character? -/
def citemMatch : CItem → Char → Bool
  | .ch c, x => x = c
  | .wsc, x => isPySpace x

/-- Does a single-character atom accept the character? -/
def pmatch : PAtom → Char → Bool
  | .lit c, x => x = c
  | .cls neg items, x =>
    let m := items.any fun it => citemMatch it x
    if neg then !m else m
  | .dot, x => x ≠ '\n'

/-- Length of the maximal run of characters accepted by p starting at
position pos of s. -/
def runLen (p : Char → Bool) (s : Str) (pos : Nat) : Nat :=
  ((s.drop pos).takeWhile p).length

/-- The end positions a quantified single-character atom can reach from
pos, in backtracking preference order (greedy: longest first). -/
def quantEnds (p : Char → Bool) (q : Quant) (s : Str) (pos : Nat) : List Nat :=
  match q with
  | .one => match s.get? pos with
    | some c => if p c then [pos + 1] else []
    | none => []
  | .plus => (List.range (runLen p s pos)).reverse.map fun k => pos + k + 1
  | .star => (List.range (runLen p s pos + 1)).reverse.map fun k => pos + k

/-- Does the end-of-line anchor hold at pos (Python: end of string, or
just before a final newline)? -/
def atEol (s : Str) (pos : Nat) : Bool :=
  pos = s.length ∨ (pos + 1 = s.length ∧ s.get? pos = some '\n')

mutual

/-- All ways a sequence of regex elements can match a prefix of s
starting at pos, as (end position, captured group texts in group
order), listed in Python backtracking preference order. -/
def seqParses : RSeq → Str → Nat → List (Nat × List Str)
  | .nil, _, pos => [(pos, [])]
  | .cons a rest, s, pos =>
    (atomParses a s pos).flatMap fun pr =>
      (seqParses rest s pr.1).map fun qr => (qr.1, pr.2 ++ qr.2)

/-- All ways a single regex element can match at pos, in preference
order. -/
def atomParses : RAtom → Str → Nat → List (Nat × List Str)
  | .pat a q, s, pos => (quantEnds (pmatch a) q s pos).map fun e => (e, [])
  | .grp capturing inner, s, pos =>
    (seqParses inner s pos).map fun pr =>
      (pr.1, (if capturing then [sliceStr s pos pr.1] else []) ++ pr.2)
  | .eol, s, pos => if atEol s pos then [(pos, [])] else []

end

/-- re.match of a compiled regex against a string: the first parse in
preference order, if any, giving the match end and the captured
groups. -/
def reMatch (re : RSeq) (s : Str) : Option (Nat × List Str) :=
  (seqParses re s 0).head?

/- ### Parsing regex strings into the dialect (the model of re.compile).

Strings outside the dialect are rejected; for the regex strings ashier
itself generates this parser is proved below to succeed, and a rejected
user-supplied string corresponds to a regex this model cannot
interpret, which the embedding treats like an ill-formed one. -/

/-- A regex token. -/
inductive Tok where
  | tLit (c : Char)
  | tWs
  | tClass (neg : Bool) (items : List CItem)
  | tDot
  | tOpen (capturing : Bool)
  | tClose
  | tPlus
  | tStar
  | tEol
deriving DecidableEq, Repr

/-- Cons an item onto the items of a class-parse result. -/
def consIt (it : CItem) (pr : List CItem × Str) : List CItem × Str :=
  (it :: pr.1, pr.2)

/-- Read the items of a character class up to the closing bracket.  The
flag records whether we are at the first position of the class, where a
closing bracket is a literal member (Python semantics).  A dash is
accepted only first or last in the class, where Python also treats it
as a literal. -/
def takeClass : Bool → Str → Option (List CItem × Str)
  | _, [] => none
  | first, c :: rest =>
    if c = ']' then
      if first then (takeClass false rest).map (consIt (.ch ']')) else some ([], rest)
    else if c = '\\' then
      match rest with
      | [] => none
      | d :: rest2 =>
        if d = 's' then (takeClass false rest2).map (consIt .wsc)
        else if isWordCh d then none
        else (takeClass false rest2).map (consIt (.ch d))
    else if c = '-' then
      if first ∨ rest.head? = some ']' then (takeClass false rest).map (consIt (.ch '-'))
      else none
    else (takeClass false rest).map (consIt (.ch c))

/-- Read one token from the head of a regex string. -/
def nextTok : Str → Option (Tok × Str)
  | [] => none
  | c :: rest =>
    if c = '\\' then
      if rest.head? = some 's' then some (.tWs, rest.tail)
      else if rest.take 3 = ['0', '0', '0'] then some (.tLit '\x00', rest.drop 3)
      else if rest = [] then none
      else if isWordCh (rest.headD ' ') then none
      else some (.tLit (rest.headD ' '), rest.tail)
    else if c = '(' then
      if rest.take 2 = ['?', ':'] then some (.tOpen false, rest.drop 2)
      else if rest.head? = some '?' then none
      else some (.tOpen true, rest)
    else if c = ')' then some (.tClose, rest)
    else if c = '[' then
      if rest.head? = some '^' then
        (takeClass true rest.tail).map fun pr => (.tClass true pr.1, pr.2)
      else (takeClass true rest).map fun pr => (.tClass false pr.1, pr.2)
    else if c = '.' then some (.tDot, rest)
    else if c = '+' then some (.tPlus, rest)
    else if c = '*' then some (.tStar, rest)
    else if c = '$' then some (.tEol, rest)
    else if c = '|' ∨ c = '?' ∨ c = '^' ∨ c = '{' ∨ c = '}' then none
    else some (.tLit c, rest)

/-- The fuel-indexed tokenizer loop: one unit of fuel per token.  Every
token consumes at least one character, so fuel equal to the length of
the input always suffices (proved below). -/
def lexF : Nat → Str → Option (List Tok)
  | _, [] => some []
  | 0, _ :: _ => none
  | fuel + 1, c :: rest =>
    match nextTok (c :: rest) with
    | none => none
    | some pr => (lexF fuel pr.2).map (pr.1 :: ·)

/-- Tokenize a regex string. -/
def lex (s : Str) : Option (List Tok) := lexF s.length s

/-- Is the head of a token list a quantifier token? -/
def headQuant : List Tok → Bool
  | .tPlus :: _ => true
  | .tStar :: _ => true
  | _ => false

/-- Convert a single-character-atom token to its atom, if it is one. -/
def tokAtom : Tok → Option PAtom
  | .tLit c => some (.lit c)
  | .tWs => some (.cls false [.wsc])
  | .tClass neg items => some (.cls neg items)
  | .tDot => some .dot
  | _ => none

/-- Parse a token list into a compiled regex: a single pass with a
stack of open groups; cur holds the atoms of the current group in
reverse order.  A quantifier directly after a group, after the anchor,
or with nothing to repeat is rejected as outside the dialect. -/
def parseLoop : List Tok → List RAtom → List (Bool × List RAtom) → Option RSeq
  | [], cur, [] => some (toRSeq cur.reverse)
  | [], _, _ :: _ => none
  | t :: rest, cur, stk =>
    match tokAtom t with
    | some a =>
      match rest with
      | .tPlus :: rest2 => parseLoop rest2 (.pat a .plus :: cur) stk
      | .tStar :: rest2 => parseLoop rest2 (.pat a .star :: cur) stk
      | other => parseLoop other (.pat a .one :: cur) stk
    | none =>
      match t with
      | .tOpen capturing => parseLoop rest [] ((capturing, cur) :: stk)
      | .tClose =>
        match stk with
        | [] => none
        | (capturing, outer) :: stk2 =>
          if headQuant rest then none
          else parseLoop rest (.grp capturing (toRSeq cur.reverse) :: outer) stk2
      | .tEol => if headQuant rest then none else parseLoop rest (.eol :: cur) stk
      | _ => none

/-- The model of re.compile: tokenize, then parse.  A none result
corresponds to re.error (or a regex outside the modelled dialect). -/
def reCompile (s : Str) : Option RSeq :=
  (lex s).bind fun toks => parseLoop toks [] []

/- ## directive.py -/

/-- directive.Line: the line number and raw content of a configuration
line (the file name only feeds error headers, which are elided). -/
structure Line where
  lineno : Nat
  content : Str
deriving DecidableEq, Repr

/-- Python str.expandtabs(8): replace each tab with spaces up to the
next multiple-of-8 column, resetting the column on line breaks. -/
def expandTabs : Nat → Str → Str
  | _, [] => []
  | col, c :: rest =>
    if c = '\t' then
      let n := 8 - col % 8
      List.replicate n ' ' ++ expandTabs (col + n) rest
    else c :: expandTabs (if c = '\n' ∨ c = '\r' then 0 else col + 1) rest

/-- Line.GetIndent: the number of leading whitespace characters after
tab expansion. -/
def Line.GetIndent (l : Line) : Nat :=
  let e := expandTabs 0 l.content
  e.length - (e.dropWhile isPySpace).length

/-- directive.Template. -/
structure Template where
  line : Line
  sample : Str
deriving DecidableEq, Repr

/-- directive.Marker.  The regex field holds the stored value
(self._regex); the constructor mkMarker below applies the capture-group
neutralisation that Marker.__init__ performs. -/
structure Marker where
  line : Line
  start : Nat
  finish : Nat
  name : Option Str
  regex : Str
deriving DecidableEq, Repr

/-- Marker.__init__: stores the user regex with binding groups
removed. -/
def mkMarker (line : Line) (start finish : Nat) (name : Option Str) (regex : Str) :
    Marker :=
  ⟨line, start, finish, name, RemoveRegexBindingGroups regex⟩

/-- directive.Send. -/
structure Send where
  line : Line
  channel : Str
  message : Str
deriving DecidableEq, Repr

/-- The sum of the three directive kinds. -/
inductive Directive where
  | tmpl (t : Template)
  | mark (m : Marker)
  | send (s : Send)
deriving DecidableEq, Repr

def Directive.line : Directive → Line
  | .tmpl t => t.line
  | .mark m => m.line
  | .send s => s.line

def Directive.isMarker : Directive → Bool
  | .mark _ => true
  | _ => false

def Directive.isSend : Directive → Bool
  | .send _ => true
  | _ => false

def Directive.asMarker : Directive → Option Marker
  | .mark m => some m
  | _ => none

def Directive.asSend : Directive → Option Send
  | .send s => some s
  | _ => none

/-- The scanner behind collapseWs: the flag records whether the
previous character was whitespace (so a continuing run adds nothing). -/
def collapseWsAux : Bool → Str → Str
  | _, [] => []
  | inWs, c :: rest =>
    if isPySpace c then (if inWs then [] else [' ']) ++ collapseWsAux true rest
    else c :: collapseWsAux false rest

/-- re.sub of whitespace runs by a single space, as used by
Template.InferSkip. -/
def collapseWs (s : Str) : Str := collapseWsAux false s

/-- Template.InferSkip: build a regex for the fixed slice
sample[start:finish] (whitespace runs generalised to one-or-more
whitespace, other characters escaped), then validate it against
sample[start:].  The two assertions of the source (the inferred regex
compiles, and matches at least finish - start characters) are proved as
theorems below rather than modelled as crashes; the user-level boundary
error is returned. -/
def Template.InferSkip (t : Template) (start finish : Nat) : Str × List Str :=
  let regex := (collapseWs (sliceStr t.sample start finish)).flatMap
    fun ch => if ch = ' ' then ['\\', 's', '+'] else reEscapeChar ch
  let errs :=
    match reCompile regex with
    | some re =>
      match reMatch re (t.sample.drop start) with
      | some pr =>
        if pr.1 > finish - start then
          ["invalid boundary at column ".toList ++ Nat.toDigits 10 finish]
        else []
      | none => []
    | none => []
  (regex, errs)

/-- The inference part of Marker.InferRegex: the stored user regex if
non-empty, otherwise dot-plus at the end of the sample, otherwise a
negated class of the delimiter character just past the marker (with the
delimiter-occurs-in-marker error), paired with the errors reported by
this part. -/
def inferRegexRaw (m : Marker) (t : Template) : Str × List Str :=
  if m.regex ≠ [] then (m.regex, [])
  else if t.sample.length = m.finish then (['.', '+'], [])
  else if t.sample.length > m.finish then
    let d := t.sample.getD m.finish ' '
    if (sliceStr t.sample m.start m.finish).count d = 0 then
      (['[', '^'] ++ (if isPySpace d then ['\\', 's'] else [d]) ++ [']', '+'], [])
    else ([], ["delimiter appears in the marker".toList])
  else (m.regex, [])

/-- The validation part of Marker.InferRegex: a non-empty regex must
compile and match exactly the marked slice length when applied to the
sample from the marker start. -/
def inferRegexValidate (r : Str) (startText : Str) (want : Int) : List Str :=
  if r ≠ [] then
    match reCompile r with
    | some re =>
      match reMatch re startText with
      | some pr =>
        if (pr.1 : Int) ≠ want then ["regex does not match marker".toList] else []
      | none => ["regex does not match marker".toList]
    | none => ["ill-formed regular expression".toList]
  else []

/-- Marker.InferRegex: infer or take the user regex, then validate it.
Returns the regex and the reported errors. -/
def Marker.InferRegex (m : Marker) (t : Template) : Str × List Str :=
  let pr := inferRegexRaw m t
  (pr.1,
    pr.2 ++ inferRegexValidate pr.1 (t.sample.drop m.start)
      ((m.finish : Int) - (m.start : Int)))

mutual

/-- The literal-segment state of the variable-reference splitter: the
head of the result is the literal segment currently being read.  A
dollar sign followed by a word character closes the literal and starts
a dollar token. -/
def sdLit : Str → List Str
  | [] => [[]]
  | c :: rest =>
    if c = '$' ∧ isWordCh (rest.headD ' ') then [] :: consHead '$' (sdTok rest)
    else consHead c (sdLit rest)

/-- The token state of the variable-reference splitter: the head of the
result is the remainder of the dollar token being read; it ends at the
first non-word character, after which a literal segment (or directly a
new token) begins. -/
def sdTok : Str → List Str
  | [] => [[], []]
  | c :: rest =>
    if isWordCh c then consHead c (sdTok rest)
    else
      [] :: (if c = '$' ∧ isWordCh (rest.headD ' ') then [] :: consHead '$' (sdTok rest)
             else consHead c (sdLit rest))

end

/-- Variable-reference splitting: re.split with the pattern
dollar-word-run as a captured group, so the returned parts alternate
literal segments and dollar tokens (either may be empty). -/
def splitDollar (s : Str) : List Str := sdLit s

/-- Send.References: the set of names (tails of dollar-initial
segments) referenced in the message, as a duplicate-free list. -/
def Send.References (s : Send) : List Str :=
  ((splitDollar s.message).filterMap
    fun seg => if seg.headD ' ' = '$' then some seg.tail else none).dedup

/-- Assoc-list lookup modelling Python dict indexing (a missing key
raises KeyError in Python; this total model returns the empty string,
and the free-name check makes that case unreachable). -/
def dictGet (bs : List (Str × Str)) (k : Str) : Str :=
  match bs.find? fun pr => pr.1 = k with
  | some pr => pr.2
  | none => []

/-- Assoc-list update modelling Python dict assignment. -/
def dictSet : List (Str × Str) → Str → Str → List (Str × Str)
  | [], k, v => [(k, v)]
  | (a, b) :: rest, k, v =>
    if a = k then (k, v) :: rest else (a, b) :: dictSet rest k v

/-- Send.ExpandVariables: replace every dollar token by the bound
value. -/
def Send.ExpandVariables (s : Send) (bindings : List (Str × Str)) : Str :=
  (splitDollar s.message).flatMap
    fun part => if part.headD ' ' = '$' then dictGet bindings part.tail else part

/- ## reactive.py -/

/-- reactive.Pattern: the regex source string, the ordered marker names
for its capturing groups, and the compiled regex (none where re.compile
would raise). -/
structure Pattern where
  pattern : Str
  bound_names : List (Option Str)
  ast : Option RSeq
deriving DecidableEq

/-- The state of the marker loop in Pattern.__init__. -/
structure PatSt where
  regex : Str
  index : Nat
  names : List (Option Str)
  errs : List Str

/-- The skip-insertion part of one iteration of the marker loop in
Pattern.__init__ (the if index < m.start block). -/
def patSkip (t : Template) (st : PatSt) (m : Marker) : PatSt :=
  if st.index < m.start then
    { st with regex := st.regex ++ (t.InferSkip st.index m.start).1,
              index := m.start,
              errs := st.errs ++ (t.InferSkip st.index m.start).2 }
  else st

/-- One iteration of the marker loop in Pattern.__init__. -/
def patStep (t : Template) (st : PatSt) (m : Marker) : PatSt :=
  if m.finish > t.sample.length then
    { st with errs := st.errs ++ ["marker extends beyond template".toList] }
  else if (patSkip t st m).index = m.start then
    { regex := (patSkip t st m).regex ++ ['('] ++ (m.InferRegex t).1 ++ [')'],
      index := m.finish,
      names := (patSkip t st m).names ++ [m.name],
      errs := (patSkip t st m).errs ++ (m.InferRegex t).2 }
  else
    { patSkip t st m with
      index := m.finish,
      errs := (patSkip t st m).errs ++ ["overlap with another marker".toList] }

/-- Stable insertion of a marker into a start-sorted list (insert
before the first marker with a greater-or-equal start). -/
def insertByStart (m : Marker) : List Marker → List Marker
  | [] => [m]
  | x :: xs => if x.start < m.start then x :: insertByStart m xs else m :: x :: xs

/-- The Python sorted builtin with the start key: stable ascending
sort. -/
def sortByStart (ms : List Marker) : List Marker := ms.foldr insertByStart []

/-- Pattern.__init__: walk the start-sorted markers, fill the gaps with
inferred skip regexes and wrap each marker regex in a capturing group,
append a final skip for the text after the last marker, and compile.
Returns the pattern and the reported errors. -/
def patFinish (t : Template) (st : PatSt) : PatSt :=
  if st.index < t.sample.length then
    { st with regex := st.regex ++ (t.InferSkip st.index t.sample.length).1,
              errs := st.errs ++ (t.InferSkip st.index t.sample.length).2 }
  else st

def mkPattern (t : Template) (ms : List Marker) : Pattern × List Str :=
  let fin := patFinish t ((sortByStart ms).foldl (patStep t) ⟨[], 0, [], []⟩)
  (⟨fin.regex, fin.names, reCompile fin.regex⟩, fin.errs)

/-- Pattern.AttachEOLMarker: append the end-of-line anchor and
recompile. -/
def Pattern.AttachEOLMarker (p : Pattern) : Pattern :=
  ⟨p.pattern ++ ['$'], p.bound_names, reCompile (p.pattern ++ ['$'])⟩

/-- Update the bindings dictionary from the captured groups: the i-th
bound name (when truthy, i.e. present and non-empty) receives the i-th
group. -/
def bindNames : List (Str × Str) → List (Option Str) → List Str → List (Str × Str)
  | bs, [], _ => bs
  | bs, name :: ns, caps =>
    match name with
    | some n =>
      if n = [] then bindNames bs ns (caps.drop 1)
      else bindNames (dictSet bs n (caps.headD [])) ns (caps.drop 1)
    | none => bindNames bs ns (caps.drop 1)

/-- Pattern.Match: anchored match of the compiled regex against the
text; on success the named groups are written into the bindings.  none
models the crash when the pattern failed to compile. -/
def Pattern.MatchB (p : Pattern) (text : Str) (bindings : List (Str × Str)) :
    Option (Bool × List (Str × Str)) :=
  match p.ast with
  | none => none
  | some re =>
    match reMatch re text with
    | some pr => some (true, bindNames bindings p.bound_names pr.2)
    | none => some (false, bindings)

/-- reactive.Reactive: the nesting vector, the patterns and the send
actions. -/
structure Reactive where
  nesting : List (Nat × Nat)
  patterns : List Pattern
  actions : List Send
deriving DecidableEq

/-- The marker-collecting state of the template-scanning loop of
Reactive.__init__: t is the current template and ms the markers read
for it so far; the pattern is closed at the first directive that is not
a marker (or at the end of the group). -/
def bpAux (t : Template) (ms : List Marker) :
    List Directive → List Pattern × List Directive × List Str
  | .mark m :: rest => bpAux t (ms ++ [m]) rest
  | .tmpl t2 :: rest =>
    let pr := mkPattern t ms
    let more := bpAux t2 [] rest
    (pr.1 :: more.1, more.2.1, pr.2 ++ more.2.2)
  | l =>
    let pr := mkPattern t ms
    ([pr.1], l, pr.2)

/-- The template-scanning loop of Reactive.__init__: each leading
template takes the run of markers after it; returns the patterns, the
remaining directives and the errors. -/
def buildPatterns : List Directive → List Pattern × List Directive × List Str
  | .tmpl t :: rest => bpAux t [] rest
  | l => ([], l, [])

/-- Attach the end-of-line anchor to every pattern except the last. -/
def attachAllButLast : List Pattern → List Pattern
  | [] => []
  | [p] => [p]
  | p :: rest => p.AttachEOLMarker :: attachAllButLast rest

/-- Reactive.__init__: check indent uniformity, update the shared
nesting stack, build the patterns and actions, anchor all but the last
pattern, and check the free names of every send.  Returns the reactive,
the updated nesting stack and the reported errors; none models the
assertion failure on an empty group. -/
def mkReactive (nesting : List (Nat × Nat)) (spec : List Directive) :
    Option (Reactive × List (Nat × Nat) × List Str) :=
  match spec with
  | [] => none
  | d0 :: rest =>
    let indent := d0.line.GetIndent
    let indentErrs :=
      match rest.find? fun e => e.line.GetIndent ≠ indent with
      | some _ => ["indentation change in a group".toList]
      | none => ([] : List Str)
    let nest2 := dropLastWhile (fun pr => pr.1 ≥ indent) nesting ++ [(indent, d0.line.lineno)]
    let built := buildPatterns (d0 :: rest)
    let patterns := attachAllButLast built.1
    let rem := built.2.1
    let perrs := built.2.2
    let actions := (rem.takeWhile Directive.isSend).filterMap Directive.asSend
    let noTemplErrs :=
      if patterns.isEmpty then ["group has no templates".toList] else ([] : List Str)
    let afterErrs :=
      if actions.length < rem.length then ["template/marker after action".toList]
      else ([] : List Str)
    let boundNames := patterns.flatMap Pattern.bound_names
    let unboundErrs := actions.flatMap fun s =>
      ((Send.References s).filter fun n => ¬ boundNames.contains (some n)).map
        fun n => "unbound name: ".toList ++ n
    some (⟨nest2, patterns, actions⟩, nest2,
      indentErrs ++ perrs ++ noTemplErrs ++ afterErrs ++ unboundErrs)

/-- The pattern-matching loop of Reactive.React: match the patterns
against consecutive buffer lines starting at the given index, threading
the bindings; returns the index of the first mismatch (or none when all
matched) and the bindings, or none for a crash. -/
def walkMatch (buf : Buffer) : List Pattern → Nat → List (Str × Str) →
    Option (Option Nat × List (Str × Str))
  | [], _, bs => some (none, bs)
  | p :: ps, i, bs =>
    match p.MatchB (buf.GetLine i) bs with
    | none => none
    | some (true, bs2) => walkMatch buf ps (i + 1) bs2
    | some (false, bs2) => some (some i, bs2)

/-- Reactive.React.  The channels dictionary is modelled by returning
the list of (channel, written bytes) events the sends would produce in
order; the result triple is (advance directive, nesting state after the
call, send events).  none models an uncaught Python exception (a
pattern that failed to compile, or indexing the final pattern of an
empty pattern list). -/
def Reactive.React (r : Reactive) (nesting : List (Nat × Nat)) (buf : Buffer)
    (bound : Nat) : Option (Int × List (Nat × Nat) × List (Str × Str)) :=
  if pyTake nesting ((r.nesting.length : Int) - 1) ≠ r.nesting.dropLast then
    some ((buf.GetBound : Int), nesting, [])
  else if (bound : Int) - (r.patterns.length : Int) < (buf.baseline : Int) then
    some ((buf.baseline : Int), nesting, [])
  else
    match walkMatch buf r.patterns ((bound : Int) - (r.patterns.length : Int)).toNat [] with
    | none => none
    | some (some i, _) =>
      some (if i < buf.GetBound - 1 then (bound : Int) - (r.patterns.length : Int) + 1
            else (bound : Int) - (r.patterns.length : Int), nesting, [])
    | some (none, bs) =>
      match r.patterns.getLast? with
      | none => none
      | some pl =>
        some ((if pl.pattern = [] then 1 - (bound : Int) else -(bound : Int)),
          r.nesting,
          r.actions.map fun a => (a.channel, a.ExpandVariables bs ++ ['\n']))

/-- A placeholder pattern used as the default of list indexing in
theorem statements. -/
def dummyPattern : Pattern := ⟨[], [], none⟩

/-- A placeholder reactive-construction result used as the default when
destructing mkReactive results in closed statements. -/
def dummyBuilt : Reactive × List (Nat × Nat) × List Str := (⟨[], [], []⟩, [], [])

/-- Does the compiled pattern match the text (ignoring bindings)?  The
success of Pattern.Match depends only on the regex and the text. -/
def Pattern.accepts (p : Pattern) (text : Str) : Bool :=
  match p.ast with
  | some re => (reMatch re text).isSome
  | none => false

/-- Fixture: the directive group of a single template with sample
"Foo" on line 5 at indent 0. -/
def dirTmplFoo : Directive := Directive.tmpl ⟨⟨5, ">Foo".toList⟩, "Foo".toList⟩

/-- Fixture: the reactive compiled from the single-template group
above. -/
def reactFoo : Reactive := ((mkReactive [] [dirTmplFoo]).getD dummyBuilt).1

/-- Fixture: a single-template group with sample "Foo" on line 5 at
indent 1 (one leading space). -/
def dirTmplFooIndent : Directive :=
  Directive.tmpl ⟨⟨5, " >Foo".toList⟩, "Foo".toList⟩

/-- Fixture: the reactive compiled from the indent-1 group under an
outer nesting entry, so its nesting vector has two entries. -/
def reactFoo2 : Reactive := ((mkReactive [(0, 1)] [dirTmplFooIndent]).getD dummyBuilt).1

/-- Fixture: the directive group of a single empty template (a lone
greater-than line) on line 1 at indent 0. -/
def dirTmplEmpty : Directive := Directive.tmpl ⟨⟨1, ">".toList⟩, []⟩

/-- Fixture: the reactive compiled from the single empty template
group. -/
def reactEmpty : Reactive := ((mkReactive [] [dirTmplEmpty]).getD dummyBuilt).1

/-- Fixture: a fresh buffer fed the bytes "Foo" (no newline, so the
text is the partial tail line). -/
def bufFoo : Buffer := Buffer.AppendRawData Buffer.init "Foo".toList

/-- Fixture: a two-template group (sample "Foo", then an empty
template), as in scenario 3 of the specification. -/
def specFooEmpty : List Directive :=
  [dirTmplFoo, Directive.tmpl ⟨⟨6, ">".toList⟩, []⟩]

/-- Fixture: the reactive compiled from the two-template group. -/
def reactFooEmpty : Reactive := ((mkReactive [] specFooEmpty).getD dummyBuilt).1

/-- Fixture: a send directive whose message consists of two dollar
signs and the letter x. -/
def sendC10 : Send := ⟨⟨6, "!terminal $$x".toList⟩, "terminal".toList, "$$x".toList⟩

/-- Fixture: a group with one template and the double-dollar send. -/
def specC10 : List Directive := [dirTmplFoo, Directive.send sendC10]

/-- Fixture: the construction result for the double-dollar group. -/
def trC10 : Reactive × List (Nat × Nat) × List Str :=
  (mkReactive [] specC10).getD dummyBuilt

/-- Fixture: a fresh buffer fed one full line "Foo" and the partial
tail "Bar". -/
def bufFooBar : Buffer := Buffer.AppendRawData Buffer.init "Foo\nBar".toList

/- ## Proof-support definitions for the pattern round-trip -/

/-- The tokens produced by one character of a collapsed skip slice. -/
def tokOf (ch : Char) : List Tok :=
  if ch = ' ' then [.tWs, .tPlus] else [.tLit ch]

/-- The compiled atoms produced by one character of a collapsed skip
slice. -/
def skipAtomOf (ch : Char) : List RAtom :=
  if ch = ' ' then [.pat (.cls false [.wsc]) .plus] else [.pat (.lit ch) .one]

/-- How far beyond the skipped slice a trailing whitespace run extends:
when the slice ends in whitespace, its final one-or-more-whitespace
regex also consumes the leading whitespace of the rest of the line. -/
def wsExt (w v : Str) : Nat :=
  match w.getLast? with
  | some c => if isPySpace c then runLen isPySpace v 0 else 0
  | none => 0

/-- The list of elements of a regex sequence (the inverse of toRSeq). -/
def rseqToList : RSeq → List RAtom
  | .nil => []
  | .cons a r => a :: rseqToList r

mutual

/-- No capturing group occurs in the sequence. -/
def capFreeSeq : RSeq → Bool
  | .nil => true
  | .cons a r => capFreeAtom a && capFreeSeq r

/-- No capturing group occurs in the element. -/
def capFreeAtom : RAtom → Bool
  | .pat _ _ => true
  | .grp capturing inner => !capturing && capFreeSeq inner
  | .eol => true

end

/-- The string lexes to these tokens in every right context. -/
def LexP (s : Str) (toks : List Tok) : Prop :=
  ∀ z : Str, lex (s ++ z) = (lex z).map (toks ++ ·)

/-- The tokens parse to these atoms in every parser configuration whose
remaining input does not start with a quantifier. -/
def StepsP (toks : List Tok) (atoms : List RAtom) : Prop :=
  ∀ (b : List Tok) (cur : List RAtom) (stk : List (Bool × List RAtom)),
    headQuant b = false →
    parseLoop (toks ++ b) cur stk = parseLoop b (atoms.reverse ++ cur) stk

/-- The preferred (first) parse of the atom sequence at pos ends at
pos2 with the given captures. -/
def HeadTo (atoms : List RAtom) (s : Str) (pos pos2 : Nat) (caps : List Str) : Prop :=
  (seqParses (toRSeq atoms) s pos).head? = some (pos2, caps)

/-- The invariant of the marker loop of Pattern.__init__: the index is
within the sample and the regex built so far lexes, parses and matches
the sample from position zero up to the index, capturing the processed
marker slices. -/
def GoodSt (t : Template) (st : PatSt) (caps : List Str) : Prop :=
  st.index ≤ t.sample.length ∧
    ∃ toks atoms, LexP st.regex toks ∧ StepsP toks atoms ∧
      HeadTo atoms t.sample 0 st.index caps

/-- The current-atom register of a parser state whose bottom context
has been extended by extra already-parsed atoms: the extension lives in
the register while no group is open. -/
def extCur : List (Bool × List RAtom) → List RAtom → List RAtom → List RAtom
  | [], cur1, curE => cur1 ++ curE
  | _ :: _, cur1, _ => cur1

/-- The group stack of such a state: while a group is open, the
extension lives in the outermost saved register. -/
def extStk : List (Bool × List RAtom) → List RAtom → List (Bool × List RAtom)
  | [], _ => []
  | [(cap, outer)], curE => [(cap, outer ++ curE)]
  | f :: f2 :: fs, curE => f :: extStk (f2 :: fs) curE

/-- The stored regex of the marker contains no capturing group: its
token stream has no plain open-parenthesis token.  Marker.__init__
establishes this by passing the user regex through
RemoveRegexBindingGroups. -/
def MarkerOk (m : Marker) : Prop :=
  ∀ toks, lex m.regex = some toks → Tok.tOpen true ∉ toks

/-- Fixture: a template whose sample is "aa cd", for exercising
Pattern.__init__ with a user-regex marker and an inferred marker. -/
def tmplC6 : Template := ⟨⟨7, ">aa cd".toList⟩, "aa cd".toList⟩

/-- Fixture: a marker with the user regex a+ over the slice [0, 2) of
the sample above, and a marker with an inferred regex over [3, 5). -/
def msC6 : List Marker :=
  [⟨⟨8, " ?x a+".toList⟩, 0, 2, some ['x'], ['a', '+']⟩,
   ⟨⟨9, "    ?y".toList⟩, 3, 5, some ['y'], []⟩]

/-- Fixture: a template with sample "aa" and a single marker carrying
the user regex b+ over [0, 2), which does not match the sample (an
error is reported and the built pattern fails on its own sample). -/
def tmplC6bad : Template := ⟨⟨11, ">aa".toList⟩, "aa".toList⟩

/-- Fixture: the single failing marker for the template above. -/
def msC6bad : List Marker :=
  [⟨⟨12, " ?z b+".toList⟩, 0, 2, some ['z'], ['b', '+']⟩]

/- ## Theorems -/

theorem removeAux_id (s : Str) :
    ∀ esc : Bool, noBindingParen esc s = true → removeAux esc s = s := by
  induction s with
  | nil => intro esc _; rfl
  | cons c rest ih =>
    intro esc h
    simp only [noBindingParen, Bool.and_eq_true, decide_eq_true_eq] at h
    obtain ⟨h1, h2⟩ := h
    simp only [removeAux]
    have hc : ¬(c = '(' ∧ ¬esc = true) := by
      rcases h1 with h1 | h1
      · exact fun hh => h1 hh.1
      · exact fun hh => hh.2 h1
    rw [if_neg hc, ih _ h2]
    simp

/-- C7 (amended): RemoveRegexBindingGroups is the identity on every
regex whose open parentheses are all escaped (preceded by an odd number
of consecutive backslashes), and is therefore idempotent on such
regexes; in particular it leaves already-escaped parentheses
unchanged. -/
theorem C7_remove_binding_groups_escaped_id (s : Str)
    (h : noBindingParen false s = true) :
    RemoveRegexBindingGroups s = s ∧
      RemoveRegexBindingGroups (RemoveRegexBindingGroups s) =
        RemoveRegexBindingGroups s := by
  have hid : RemoveRegexBindingGroups s = s := removeAux_id s false h
  exact ⟨hid, congrArg RemoveRegexBindingGroups hid⟩

/-- C7 (counterexample): RemoveRegexBindingGroups is not idempotent.
On the one-character regex consisting of an open parenthesis, one
application yields an open parenthesis, question mark and colon, and a
second application rewrites the new open parenthesis again. -/
theorem C7_counterexample :
    RemoveRegexBindingGroups (RemoveRegexBindingGroups ['(']) ≠
      RemoveRegexBindingGroups ['('] := by decide

/-- C7 (witness): instantiation of the amended theorem on the escaped
regex from the repository test suite. -/
theorem C7_witness :
    noBindingParen false "a\\(b\\)".toList = true ∧
      RemoveRegexBindingGroups "a\\(b\\)".toList = "a\\(b\\)".toList :=
  ⟨by decide, (C7_remove_binding_groups_escaped_id "a\\(b\\)".toList (by decide)).1⟩

/-- C3 (amended): for a marker with no user-supplied regex whose region
ends strictly before the end of the sample, InferRegex uses the
delimiter just past the region: if the delimiter occurs inside the
marked slice it reports "delimiter appears in the marker" and yields
the empty regex; otherwise it yields the negated whitespace class when
the delimiter is whitespace, and otherwise the negated class of the
delimiter character written verbatim (the source does not regex-escape
it). -/
theorem C3_infer_regex_delimiter (t : Template) (m : Marker)
    (hreg : m.regex = []) (hfin : m.finish < t.sample.length) :
    ((sliceStr t.sample m.start m.finish).count (t.sample.getD m.finish ' ') ≠ 0 →
      (m.InferRegex t).1 = [] ∧
        "delimiter appears in the marker".toList ∈ (m.InferRegex t).2) ∧
    ((sliceStr t.sample m.start m.finish).count (t.sample.getD m.finish ' ') = 0 →
      isPySpace (t.sample.getD m.finish ' ') = true →
      (m.InferRegex t).1 = ['[', '^', '\\', 's', ']', '+']) ∧
    ((sliceStr t.sample m.start m.finish).count (t.sample.getD m.finish ' ') = 0 →
      isPySpace (t.sample.getD m.finish ' ') = false →
      (m.InferRegex t).1 = ['[', '^', t.sample.getD m.finish ' ', ']', '+']) := by
  have hne : ¬ (m.regex ≠ []) := by simp [hreg]
  have hlen : ¬ (t.sample.length = m.finish) := by omega
  have hgt : t.sample.length > m.finish := hfin
  have hfst : (m.InferRegex t).1 = (inferRegexRaw m t).1 := rfl
  refine ⟨?_, ?_, ?_⟩
  · intro hcount
    have hraw : inferRegexRaw m t = ([], ["delimiter appears in the marker".toList]) := by
      unfold inferRegexRaw
      rw [if_neg hne, if_neg hlen, if_pos hgt, if_neg hcount]
    constructor
    · rw [hfst, hraw]
    · have hsnd : (m.InferRegex t).2 =
          (inferRegexRaw m t).2 ++ inferRegexValidate (inferRegexRaw m t).1
            (t.sample.drop m.start) ((m.finish : Int) - (m.start : Int)) := rfl
      rw [hsnd, hraw]
      simp
  · intro hcount hws
    rw [hfst]
    unfold inferRegexRaw
    rw [if_neg hne, if_neg hlen, if_pos hgt, if_pos hcount]
    rw [List.getD_eq_getElem?_getD] at hws
    simp [hws]
  · intro hcount hws
    rw [hfst]
    unfold inferRegexRaw
    rw [if_neg hne, if_neg hlen, if_pos hgt, if_pos hcount]
    rw [List.getD_eq_getElem?_getD] at hws
    simp [hws]

/-- C3 (counterexample): the claim that the delimiter is regex-escaped
in the inferred class is false.  For the sample "a.b" with an unnamed
marker over the first character, the delimiter is the dot; re.escape of
the dot is backslash-dot, but the inferred regex contains the dot
verbatim. -/
theorem C3_counterexample :
    (Marker.InferRegex (mkMarker ⟨1, []⟩ 0 1 none []) ⟨⟨1, []⟩, "a.b".toList⟩).1 =
        "[^.]+".toList ∧
      (Marker.InferRegex (mkMarker ⟨1, []⟩ 0 1 none []) ⟨⟨1, []⟩, "a.b".toList⟩).1 ≠
        ['[', '^'] ++ reEscapeChar '.' ++ [']', '+'] := by
  constructor
  · rfl
  · decide

/-- C3 (witness): instantiation of the amended theorem at the sample
"a.b" with marker columns 0 to 1 (delimiter dot, not whitespace, not in
the slice). -/
theorem C3_witness :
    (Marker.InferRegex (mkMarker ⟨1, []⟩ 0 1 none []) ⟨⟨1, []⟩, "a.b".toList⟩).1 =
      ['[', '^', '.', ']', '+'] :=
  (C3_infer_regex_delimiter ⟨⟨1, []⟩, "a.b".toList⟩ (mkMarker ⟨1, []⟩ 0 1 none [])
    (by decide) (by decide)).2.2 (by decide) (by decide)

/-- C4 (amended): the activation gate of Reactive.React compares the
current nesting state truncated to one less than the length of the
reactive's nesting vector (a Python prefix slice) against the
reactive's nesting vector with its final entry removed; when the two
differ the reactive is inactive and React returns buf.GetBound()
without attempting any match, leaving the nesting state untouched and
producing no send events. -/
theorem C4_inactive_returns_bound (r : Reactive) (nesting : List (Nat × Nat))
    (buf : Buffer) (bound : Nat)
    (h : pyTake nesting ((r.nesting.length : Int) - 1) ≠ r.nesting.dropLast) :
    r.React nesting buf bound = some ((buf.GetBound : Int), nesting, []) := by
  unfold Reactive.React
  rw [if_pos h]

/-- C4 (counterexample): the claim that a reactive is active exactly
when the whole current nesting state equals its nesting vector minus
the final entry is false.  For the one-template reactive built on line
5 (nesting vector [(0, 5)]), the current nesting state [(0, 1)] differs
from the empty truncated vector, so the claim calls the reactive
inactive and predicts the return value buf.GetBound() = 2; the code
compares only the length-0 prefix, proceeds to match, and returns 1. -/
theorem C4_counterexample :
    [((0 : Nat), (1 : Nat))] ≠ reactFoo.nesting.dropLast ∧
      Reactive.React reactFoo [(0, 1)] Buffer.init 2 = some (1, [(0, 1)], []) ∧
      Reactive.React reactFoo [(0, 1)] Buffer.init 2 ≠
        some ((Buffer.init.GetBound : Int), [(0, 1)], []) :=
  ⟨by decide, by decide, by decide⟩

/-- C4 (witness): instantiation of the amended theorem: with current
nesting [(1, 9)] and the one-template reactive of nesting [(0, 5)], the
truncated prefix [(1, 9)].take 0 = [] differs from nothing, but using a
two-level reactive nesting the gate fails and React returns the bound.
Concretely we use reactFoo with a current nesting state whose truncated
prefix differs. -/
theorem C4_witness :
    pyTake [((9 : Nat), (9 : Nat)), (1, 1)] ((reactFoo2.nesting.length : Int) - 1) ≠
        reactFoo2.nesting.dropLast ∧
      Reactive.React reactFoo2 [(9, 9), (1, 1)] Buffer.init 2 =
        some ((Buffer.init.GetBound : Int), [(9, 9), (1, 1)], []) :=
  ⟨by decide, C4_inactive_returns_bound reactFoo2 [(9, 9), (1, 1)] Buffer.init 2
    (by decide)⟩

/-- C8 (counterexample): a reactive whose single pattern is empty (the
group of a lone greater-than template) matches the fresh empty buffer
immediately; React returns 1 - bound = -1, which is negative, refuting
the claim that React on an empty buffer is always non-negative.  The
construction of this reactive reports no errors. -/
theorem C8_counterexample :
    ((mkReactive [] [dirTmplEmpty]).getD dummyBuilt).2.2 = [] ∧
      Reactive.React reactEmpty [] Buffer.init Buffer.init.GetBound =
        some (-1, [(0, 1)], []) ∧
      ¬ ((-1 : Int) ≥ 0) := by decide

/-- C8 (amended): for every reactive with at least one pattern, all of
whose patterns compiled, React on a fresh empty buffer (baseline 1,
bound 2, empty partial tail) with bound = buf.GetBound() = 2 returns a
value that is at least -2: it is non-negative unless every pattern
matches the empty window, in which case it is -bound = -2 (or
1 - bound = -1 for an empty final pattern). -/
theorem C8_react_empty_buffer_lower_bound (r : Reactive) (nesting : List (Nat × Nat))
    (hne : r.patterns ≠ [])
    (hast : ∀ p ∈ r.patterns, p.ast.isSome) :
    ∃ res, Reactive.React r nesting Buffer.init Buffer.init.GetBound = some res ∧
      -2 ≤ res.1 := by
  have hb : (Buffer.init.GetBound : Int) = 2 := rfl
  have hbase : (Buffer.init.baseline : Int) = 1 := rfl
  unfold Reactive.React
  by_cases hgate :
      pyTake nesting ((r.nesting.length : Int) - 1) ≠ r.nesting.dropLast
  · rw [if_pos hgate]
    exact ⟨_, rfl, by rw [hb]; omega⟩
  · rw [if_neg hgate]
    by_cases hwin : (Buffer.init.GetBound : Int) - (r.patterns.length : Int) <
        (Buffer.init.baseline : Int)
    · rw [if_pos hwin]
      exact ⟨_, rfl, by rw [hbase]; omega⟩
    · rw [if_neg hwin]
      have hlen : r.patterns.length = 1 := by
        have h1 : 0 < r.patterns.length := List.length_pos.mpr hne
        rw [hb, hbase] at hwin
        omega
      obtain ⟨p, hp⟩ : ∃ p, r.patterns = [p] := List.length_eq_one.mp hlen
      rw [hp]
      have htn : ((Buffer.init.GetBound : Int) - (([p] : List Pattern).length : Int)).toNat
          = 1 := rfl
      rw [htn]
      have hpast : p.ast.isSome := hast p (by rw [hp]; exact List.mem_singleton_self p)
      obtain ⟨re, hre⟩ := Option.isSome_iff_exists.mp hpast
      simp only [walkMatch, Pattern.MatchB, hre]
      match hm : reMatch re (Buffer.init.GetLine 1) with
      | some pr =>
        simp only [walkMatch]
        simp only [List.getLast?_singleton]
        refine ⟨_, rfl, ?_⟩
        split <;> norm_num [Buffer.init, Buffer.GetBound]
      | none =>
        refine ⟨_, rfl, ?_⟩
        split <;> norm_num [Buffer.init, Buffer.GetBound]

end Ashier

namespace Ashier

/-- C8 (witness): instantiation of the amended theorem on the
one-template reactive with sample "Foo" and an empty nesting state. -/
theorem C8_witness :
    reactFoo.patterns ≠ [] ∧
      (∀ p ∈ reactFoo.patterns, p.ast.isSome) ∧
      ∃ res, Reactive.React reactFoo [] Buffer.init Buffer.init.GetBound = some res ∧
        -2 ≤ res.1 :=
  ⟨by decide, by decide,
    C8_react_empty_buffer_lower_bound reactFoo [] (by decide) (by decide)⟩

theorem attachAllButLast_length : ∀ ps : List Pattern,
    (attachAllButLast ps).length = ps.length
  | [] => rfl
  | [_] => rfl
  | _ :: q :: rest => by
    simp only [attachAllButLast, List.length_cons]
    have := attachAllButLast_length (q :: rest)
    simp only [List.length_cons] at this
    omega

theorem attachAllButLast_getD : ∀ (ps : List Pattern) (i : Nat), i + 1 < ps.length →
    (attachAllButLast ps).getD i dummyPattern = (ps.getD i dummyPattern).AttachEOLMarker
  | [], i, h => by simp at h
  | [_], i, h => by simp at h
  | p :: q :: rest, 0, _ => by
    simp [attachAllButLast, List.getD]
  | p :: q :: rest, i + 1, h => by
    simp only [attachAllButLast]
    have hlt : i + 1 < (q :: rest).length := by
      simp only [List.length_cons] at h ⊢
      omega
    have := attachAllButLast_getD (q :: rest) i hlt
    simpa [List.getD] using this

theorem attachAllButLast_getLast? : ∀ ps : List Pattern,
    (attachAllButLast ps).getLast? = ps.getLast?
  | [] => rfl
  | [_] => rfl
  | p :: q :: rest => by
    have hrec := attachAllButLast_getLast? (q :: rest)
    have hlen := attachAllButLast_length (q :: rest)
    obtain ⟨y, ys, hys⟩ : ∃ y ys, attachAllButLast (q :: rest) = y :: ys := by
      match hq : attachAllButLast (q :: rest) with
      | [] => rw [hq] at hlen; simp at hlen
      | y :: ys => exact ⟨y, ys, rfl⟩
    show (p.AttachEOLMarker :: attachAllButLast (q :: rest)).getLast? = _
    rw [hys, List.getLast?_cons_cons, ← hys, hrec, List.getLast?_cons_cons]

theorem mkReactive_parts (nst : List (Nat × Nat)) (spec : List Directive)
    (r : Reactive) (nst2 : List (Nat × Nat)) (errs : List Str)
    (h : mkReactive nst spec = some (r, nst2, errs)) :
    r.patterns = attachAllButLast (buildPatterns spec).1 := by
  match spec with
  | [] => exact Option.noConfusion h
  | d0 :: rest =>
    simp only [mkReactive] at h
    exact (congrArg (fun x => x.1.patterns) (Option.some.inj h)).symm

/-- C5 (confirmed): when a Reactive is constructed from a directive
group, every constructed Pattern except the last has the end-of-line
anchor appended to its regex source, and the final pattern keeps the
regex source it was constructed with. -/
theorem C5_attach_eol_all_but_last (nst : List (Nat × Nat)) (spec : List Directive)
    (r : Reactive) (nst2 : List (Nat × Nat)) (errs : List Str)
    (h : mkReactive nst spec = some (r, nst2, errs)) :
    r.patterns.length = (buildPatterns spec).1.length ∧
    (∀ i, i + 1 < (buildPatterns spec).1.length →
      (r.patterns.getD i dummyPattern).pattern =
        ((buildPatterns spec).1.getD i dummyPattern).pattern ++ ['$']) ∧
    r.patterns.getLast?.map Pattern.pattern =
      ((buildPatterns spec).1.getLast?).map Pattern.pattern := by
  have hp := mkReactive_parts nst spec r nst2 errs h
  refine ⟨?_, ?_, ?_⟩
  · rw [hp]
    exact attachAllButLast_length _
  · intro i hi
    rw [hp, attachAllButLast_getD _ i hi]
    rfl
  · rw [hp, attachAllButLast_getLast? _]

/-- C5 (witness): instantiation on the two-template group from the
repository tests (templates "Foo" and empty): the first pattern is
anchored, the second keeps its empty source. -/
theorem C5_witness :
    reactFooEmpty.patterns.length = (buildPatterns specFooEmpty).1.length ∧
      (reactFooEmpty.patterns.getD 0 dummyPattern).pattern =
        ((buildPatterns specFooEmpty).1.getD 0 dummyPattern).pattern ++ ['$'] ∧
      reactFooEmpty.patterns.getLast?.map Pattern.pattern =
        ((buildPatterns specFooEmpty).1.getLast?).map Pattern.pattern := by
  have h := C5_attach_eol_all_but_last [] specFooEmpty reactFooEmpty [(0, 5)]
    ((mkReactive [] specFooEmpty).getD dummyBuilt).2.2 (by decide)
  exact ⟨h.1, h.2.1 0 (by decide), h.2.2⟩

end Ashier

namespace Ashier

theorem walkMatch_success (buf : Buffer) :
    ∀ (ps : List Pattern) (i0 : Nat) (bs : List (Str × Str)),
      (∀ k (hk : k < ps.length), (ps.get ⟨k, hk⟩).accepts (buf.GetLine (i0 + k))) →
      ∃ bs2, walkMatch buf ps i0 bs = some (none, bs2)
  | [], _, bs, _ => ⟨bs, rfl⟩
  | p :: ps, i0, bs, h => by
    have h0 : p.accepts (buf.GetLine i0) := by
      have := h 0 (by simp)
      simpa using this
    match hast : p.ast with
    | none =>
      rw [Pattern.accepts, hast] at h0
      exact absurd h0 (by simp)
    | some re =>
      rw [Pattern.accepts, hast] at h0
      obtain ⟨pr, hpr⟩ := Option.isSome_iff_exists.mp h0
      simp only [walkMatch, Pattern.MatchB, hast, hpr]
      exact walkMatch_success buf ps (i0 + 1) _ fun k hk => by
        have hk2 : k + 1 < (p :: ps).length := by
          simp only [List.length_cons]
          omega
        have := h (k + 1) hk2
        have harith : i0 + (k + 1) = i0 + 1 + k := by omega
        rw [harith] at this
        simpa using this

theorem getLast?_eq_some_getLastD {α : Type} (l : List α) (d : α) (h : l ≠ []) :
    l.getLast? = some (l.getLastD d) := by
  rw [List.getLastD_eq_getLast?]
  match hl : l.getLast? with
  | some x => rfl
  | none =>
    rw [List.getLast?_eq_none_iff] at hl
    exact absurd hl h

/-- C1 (confirmed): when an active Reactive (its truncated nesting
prefix matches) has its full window available and all of its patterns
match the corresponding buffer lines, React executes every Send action
in order (the send events are exactly the expansions of the actions in
list order), replaces the shared nesting state with the reactive's own
nesting vector, and returns -bound when the final pattern's regex
source is non-empty and 1 - bound when it is empty. -/
theorem C1_react_success (r : Reactive) (nesting : List (Nat × Nat)) (buf : Buffer)
    (bound : Nat)
    (hactive : pyTake nesting ((r.nesting.length : Int) - 1) = r.nesting.dropLast)
    (hne : r.patterns ≠ [])
    (hwin : ¬ ((bound : Int) - (r.patterns.length : Int) < (buf.baseline : Int)))
    (hmatch : ∀ k (hk : k < r.patterns.length),
      (r.patterns.get ⟨k, hk⟩).accepts
        (buf.GetLine (((bound : Int) - (r.patterns.length : Int)).toNat + k))) :
    ∃ bs, r.React nesting buf bound =
      some ((if (r.patterns.getLastD dummyPattern).pattern = [] then 1 - (bound : Int)
             else -(bound : Int)),
        r.nesting,
        r.actions.map fun a => (a.channel, a.ExpandVariables bs ++ ['\n'])) := by
  unfold Reactive.React
  rw [if_neg (by simp [hactive]), if_neg hwin]
  obtain ⟨bs2, hw⟩ := walkMatch_success buf r.patterns
    ((bound : Int) - (r.patterns.length : Int)).toNat [] hmatch
  rw [hw]
  rw [getLast?_eq_some_getLastD r.patterns dummyPattern hne]
  exact ⟨bs2, rfl⟩

/-- C1 (witness): instantiation on the one-template reactive with
sample "Foo" against a fresh buffer fed the bytes "Foo": the partial
tail matches, the nesting state is replaced by [(0, 5)] and the result
is -bound = -2. -/
theorem C1_witness :
    ∃ bs, Reactive.React reactFoo [] bufFoo 2 =
      some ((if (reactFoo.patterns.getLastD dummyPattern).pattern = [] then
              1 - (2 : Int) else -(2 : Int)),
        reactFoo.nesting,
        reactFoo.actions.map fun a => (a.channel, a.ExpandVariables bs ++ ['\n'])) :=
  C1_react_success reactFoo [] bufFoo 2 (by decide) (by decide) (by decide)
    (by decide)


theorem patSkip_names (t : Template) (st : PatSt) (m : Marker) :
    (patSkip t st m).names = st.names := by
  unfold patSkip; split <;> rfl

theorem patStep_names (t : Template) (st : PatSt) (m : Marker) :
    (patStep t st m).names = st.names ∨
      (patStep t st m).names = st.names ++ [m.name] := by
  unfold patStep
  split
  · exact Or.inl rfl
  · split
    · right
      show (patSkip t st m).names ++ [m.name] = st.names ++ [m.name]
      rw [patSkip_names]
    · left
      show (patSkip t st m).names = st.names
      exact patSkip_names t st m

theorem foldl_patStep_names (t : Template) :
    ∀ (ms : List Marker) (st : PatSt) (nm : Option Str),
      nm ∈ (ms.foldl (patStep t) st).names →
      nm ∈ st.names ∨ ∃ m ∈ ms, nm = m.name := by
  intro ms
  induction ms with
  | nil => intro st nm h; exact Or.inl h
  | cons m rest ih =>
    intro st nm h
    rw [List.foldl_cons] at h
    rcases ih (patStep t st m) nm h with h2 | ⟨m2, hm2, he⟩
    · rcases patStep_names t st m with hn | hn
      · rw [hn] at h2; exact Or.inl h2
      · rw [hn] at h2
        rcases List.mem_append.mp h2 with h3 | h3
        · exact Or.inl h3
        · exact Or.inr ⟨m, List.mem_cons_self m rest, by simpa using h3⟩
    · exact Or.inr ⟨m2, List.mem_cons_of_mem m hm2, he⟩

theorem patFinish_names (t : Template) (st : PatSt) :
    (patFinish t st).names = st.names := by
  unfold patFinish; split <;> rfl

theorem insertByStart_mem (m x : Marker) :
    ∀ l : List Marker, x ∈ insertByStart m l → x = m ∨ x ∈ l := by
  intro l
  induction l with
  | nil =>
    intro h
    exact Or.inl (by simpa [insertByStart] using h)
  | cons a rest ih =>
    intro h
    rw [insertByStart] at h
    split at h
    · rcases List.mem_cons.mp h with h1 | h1
      · exact Or.inr (List.mem_cons.mpr (Or.inl h1))
      · rcases ih h1 with h2 | h2
        · exact Or.inl h2
        · exact Or.inr (List.mem_cons.mpr (Or.inr h2))
    · rcases List.mem_cons.mp h with h1 | h1
      · exact Or.inl h1
      · exact Or.inr h1

theorem sortByStart_mem (x : Marker) :
    ∀ ms : List Marker, x ∈ sortByStart ms → x ∈ ms := by
  intro ms
  induction ms with
  | nil => intro h; simp [sortByStart] at h
  | cons m rest ih =>
    intro h
    have h0 : x ∈ insertByStart m (sortByStart rest) := h
    rcases insertByStart_mem m x (sortByStart rest) h0 with h1 | h1
    · exact List.mem_cons.mpr (Or.inl h1)
    · exact List.mem_cons_of_mem m (ih h1)

theorem mkPattern_names (t : Template) (ms : List Marker) (nm : Option Str)
    (h : nm ∈ (mkPattern t ms).1.bound_names) : ∃ m ∈ ms, nm = m.name := by
  have he : (mkPattern t ms).1.bound_names =
      (patFinish t ((sortByStart ms).foldl (patStep t) ⟨[], 0, [], []⟩)).names := rfl
  rw [he, patFinish_names] at h
  rcases foldl_patStep_names t (sortByStart ms) ⟨[], 0, [], []⟩ nm h with h1 | ⟨m, hm, hn⟩
  · exact absurd h1 (List.not_mem_nil nm)
  · exact ⟨m, sortByStart_mem m ms hm, hn⟩

theorem attachAllButLast_names :
    ∀ (ps : List Pattern) (q : Pattern), q ∈ attachAllButLast ps →
      ∃ p ∈ ps, q.bound_names = p.bound_names := by
  intro ps
  induction ps with
  | nil => intro q h; simp [attachAllButLast] at h
  | cons p rest ih =>
    cases rest with
    | nil =>
      intro q h
      have hred : attachAllButLast [p] = [p] := rfl
      rw [hred] at h
      exact ⟨p, List.mem_cons_self p [], by rw [show q = p from by simpa using h]⟩
    | cons r rest2 =>
      intro q h
      have hred : attachAllButLast (p :: r :: rest2) =
          p.AttachEOLMarker :: attachAllButLast (r :: rest2) := rfl
      rw [hred] at h
      rcases List.mem_cons.mp h with h1 | h1
      · exact ⟨p, List.mem_cons_self p (r :: rest2), by rw [h1]; rfl⟩
      · obtain ⟨p2, hp2, he⟩ := ih q h1
        exact ⟨p2, List.mem_cons_of_mem p hp2, he⟩

theorem bpAux_names :
    ∀ (ds : List Directive) (t : Template) (ms : List Marker) (q : Pattern)
      (nm : Option Str), q ∈ (bpAux t ms ds).1 → nm ∈ q.bound_names →
      ∃ m, nm = m.name ∧ (m ∈ ms ∨ Directive.mark m ∈ ds) := by
  intro ds
  induction ds with
  | nil =>
    intro t ms q nm hq hnm
    have hred : (bpAux t ms []).1 = [(mkPattern t ms).1] := rfl
    rw [hred] at hq
    have hq2 : q = (mkPattern t ms).1 := by simpa using hq
    obtain ⟨m, hm, he⟩ := mkPattern_names t ms nm (hq2 ▸ hnm)
    exact ⟨m, he, Or.inl hm⟩
  | cons d rest ih =>
    intro t ms q nm hq hnm
    cases d with
    | mark m =>
      have hred : bpAux t ms (.mark m :: rest) = bpAux t (ms ++ [m]) rest := rfl
      rw [hred] at hq
      obtain ⟨m2, he, hOr⟩ := ih t (ms ++ [m]) q nm hq hnm
      rcases hOr with h1 | h1
      · rcases List.mem_append.mp h1 with h2 | h2
        · exact ⟨m2, he, Or.inl h2⟩
        · have h3 : m2 = m := by simpa using h2
          exact ⟨m2, he, Or.inr (List.mem_cons.mpr (Or.inl (by rw [h3])))⟩
      · exact ⟨m2, he, Or.inr (List.mem_cons_of_mem _ h1)⟩
    | tmpl t2 =>
      have hred : (bpAux t ms (.tmpl t2 :: rest)).1 =
          (mkPattern t ms).1 :: (bpAux t2 [] rest).1 := rfl
      rw [hred] at hq
      rcases List.mem_cons.mp hq with h1 | h1
      · obtain ⟨m, hm, he⟩ := mkPattern_names t ms nm (h1 ▸ hnm)
        exact ⟨m, he, Or.inl hm⟩
      · obtain ⟨m2, he, hOr⟩ := ih t2 [] q nm h1 hnm
        rcases hOr with h2 | h2
        · exact absurd h2 (List.not_mem_nil _)
        · exact ⟨m2, he, Or.inr (List.mem_cons_of_mem _ h2)⟩
    | send sd =>
      have hred : (bpAux t ms (.send sd :: rest)).1 = [(mkPattern t ms).1] := rfl
      rw [hred] at hq
      have hq2 : q = (mkPattern t ms).1 := by simpa using hq
      obtain ⟨m, hm, he⟩ := mkPattern_names t ms nm (hq2 ▸ hnm)
      exact ⟨m, he, Or.inl hm⟩

theorem buildPatterns_names (ds : List Directive) (q : Pattern) (nm : Option Str)
    (hq : q ∈ (buildPatterns ds).1) (hnm : nm ∈ q.bound_names) :
    ∃ m, nm = m.name ∧ Directive.mark m ∈ ds := by
  cases ds with
  | nil =>
    have hred : (buildPatterns []).1 = [] := rfl
    rw [hred] at hq
    exact absurd hq (List.not_mem_nil q)
  | cons d rest =>
    cases d with
    | tmpl t =>
      have hred : (buildPatterns (.tmpl t :: rest)).1 = (bpAux t [] rest).1 := rfl
      rw [hred] at hq
      obtain ⟨m, he, hOr⟩ := bpAux_names rest t [] q nm hq hnm
      rcases hOr with h1 | h1
      · exact absurd h1 (List.not_mem_nil _)
      · exact ⟨m, he, List.mem_cons_of_mem _ h1⟩
    | mark m =>
      have hred : (buildPatterns (.mark m :: rest)).1 = [] := rfl
      rw [hred] at hq
      exact absurd hq (List.not_mem_nil q)
    | send sd =>
      have hred : (buildPatterns (.send sd :: rest)).1 = [] := rfl
      rw [hred] at hq
      exact absurd hq (List.not_mem_nil q)

/-- C10 (confirmed): Send.References on the message consisting of two
dollar signs and the letter x returns the empty string and the string
x; and whenever a group whose markers never bind the empty name
contains such a send, mkReactive reports an unbound-name error whose
text is the error prefix followed by the empty name. -/
theorem C10_dollar_dollar_unbound (nst : List (Nat × Nat)) (spec : List Directive)
    (r : Reactive) (nst2 : List (Nat × Nat)) (errs : List Str)
    (h : mkReactive nst spec = some (r, nst2, errs))
    (s0 : Send) (hs0 : s0 ∈ r.actions)
    (hmsg : s0.message = "$$x".toList)
    (hm : ∀ m : Marker, Directive.mark m ∈ spec → m.name ≠ some []) :
    Send.References s0 = [[], ['x']] ∧ "unbound name: ".toList ∈ errs := by
  have href : Send.References s0 = [[], ['x']] := by
    unfold Send.References splitDollar
    rw [hmsg]
    decide
  refine ⟨href, ?_⟩
  cases spec with
  | nil => simp [mkReactive] at h
  | cons d0 rest =>
    simp only [mkReactive] at h
    have heq := Option.some.inj h
    have hract :
        (((buildPatterns (d0 :: rest)).2.1.takeWhile Directive.isSend).filterMap
          Directive.asSend) = r.actions :=
      congrArg (fun x => x.1.actions) heq
    have hE : errs =
        ((match rest.find? fun e => e.line.GetIndent ≠ d0.line.GetIndent with
          | some _ => ["indentation change in a group".toList]
          | none => ([] : List Str)) ++
         (buildPatterns (d0 :: rest)).2.2 ++
         (if (attachAllButLast (buildPatterns (d0 :: rest)).1).isEmpty then
            ["group has no templates".toList] else ([] : List Str)) ++
         (if (((buildPatterns (d0 :: rest)).2.1.takeWhile Directive.isSend).filterMap
                Directive.asSend).length < (buildPatterns (d0 :: rest)).2.1.length then
            ["template/marker after action".toList] else ([] : List Str))) ++
        ((((buildPatterns (d0 :: rest)).2.1.takeWhile Directive.isSend).filterMap
            Directive.asSend).flatMap fun s =>
          ((Send.References s).filter fun n =>
              ¬ ((attachAllButLast
                    (buildPatterns (d0 :: rest)).1).flatMap Pattern.bound_names).contains
                  (some n)).map
            fun n => "unbound name: ".toList ++ n) :=
      (congrArg (fun x => x.2.2) heq).symm
    rw [hE]
    refine List.mem_append.mpr (Or.inr ?_)
    refine List.mem_flatMap.mpr ⟨s0, hract.symm ▸ hs0, ?_⟩
    refine List.mem_map.mpr ⟨[], ?_, by simp⟩
    refine List.mem_filter.mpr ⟨?_, ?_⟩
    · rw [href]; exact List.mem_cons_self [] [['x']]
    · simp only [decide_eq_true_eq]
      intro hc
      have hmem2 : (some ([] : Str)) ∈
          (attachAllButLast (buildPatterns (d0 :: rest)).1).flatMap Pattern.bound_names := by
        simpa using hc
      obtain ⟨q, hqmem, hqn⟩ := List.mem_flatMap.mp hmem2
      obtain ⟨p, hpmem, hpe⟩ := attachAllButLast_names _ q hqmem
      obtain ⟨m, hmn, hmm⟩ := buildPatterns_names (d0 :: rest) p (some []) hpmem (hpe ▸ hqn)
      exact hm m hmm hmn.symm

/-- C10 (witness): instantiation on the concrete group of one template
(sample "Foo") followed by the send whose message is two dollar signs
and the letter x. -/
theorem C10_witness :
    Send.References sendC10 = [[], ['x']] ∧ "unbound name: ".toList ∈ trC10.2.2 :=
  C10_dollar_dollar_unbound [] specC10 trC10.1 trC10.2.1 trC10.2.2 (by decide)
    sendC10 (by decide) (by decide)
    (by intro m hmem; simp [specC10, dirTmplFoo, sendC10] at hmem)

theorem consHead_ne_nil (c : Char) (l : List Str) : consHead c l ≠ [] := by
  cases l <;> simp [consHead]

theorem splitNL_ne_nil (u : Str) : splitNL u ≠ [] := by
  cases u with
  | nil => simp [splitNL]
  | cons c rest =>
    simp only [splitNL]
    split
    · simp
    · exact consHead_ne_nil c _

theorem consHead_length (c : Char) (l : List Str) (h : l ≠ []) :
    (consHead c l).length = l.length := by
  cases l with
  | nil => exact absurd rfl h
  | cons x xs => rfl

theorem splitNL_length (u : Str) : (splitNL u).length = 1 + u.count '\n' := by
  induction u with
  | nil => rfl
  | cons c rest ih =>
    simp only [splitNL]
    by_cases hc : c = '\n'
    · rw [if_pos hc, List.length_cons, ih, List.count_cons]
      simp [hc]
      omega
    · rw [if_neg hc, consHead_length c _ (splitNL_ne_nil rest), ih, List.count_cons]
      simp [hc]

/-- C9 (confirmed): on every buffer state reachable by the buffer
operations (non-empty lines list whose tail slot holds no newline),
AppendRawData leaves the baseline unchanged, raises GetBound by exactly
the number of newline characters in the chunk, and leaves every
previously completed line (baseline up to GetBound minus two)
retrievable through GetLine with unchanged content. -/
theorem C9_append_raw_data_frame (b : Buffer) (content : Str)
    (hne : b.lines ≠ []) (htail : '\n' ∉ b.lines.getLastD []) :
    (b.AppendRawData content).baseline = b.baseline ∧
    (b.AppendRawData content).GetBound = b.GetBound + content.count '\n' ∧
    ∀ k, b.baseline ≤ k → k < b.GetBound - 1 →
      (b.AppendRawData content).GetLine k = b.GetLine k := by
  have hL : 1 ≤ b.lines.length := List.length_pos.mpr hne
  refine ⟨rfl, ?_, ?_⟩
  · have hs : (splitNL (b.lines.getLastD [] ++ content)).length =
        1 + content.count '\n' := by
      rw [splitNL_length, List.count_append,
        List.count_eq_zero.mpr (by simpa using htail)]
      omega
    simp only [Buffer.AppendRawData, Buffer.GetBound, List.length_append,
      List.length_dropLast, List.length_map, List.length_cons, List.length_nil]
    omega
  · intro k hk1 hk2
    simp only [Buffer.GetBound] at hk2
    have hi : k - b.baseline + 1 < b.lines.dropLast.length := by
      rw [List.length_dropLast]
      omega
    simp only [Buffer.AppendRawData, Buffer.GetLine]
    rw [List.getD_eq_getElem?_getD, List.getD_eq_getElem?_getD,
      List.getElem?_append_left hi, List.dropLast_eq_take, List.getElem?_take,
      if_pos (by simpa [List.dropLast_eq_take] using hi)]

/-- C9 (witness): instantiation on the buffer holding the completed
line "Foo" and the partial tail "Bar", appending a chunk with one
interior newline, at the completed line with index one. -/
theorem C9_witness :
    bufFooBar.lines ≠ [] ∧ ('\n' ∉ bufFooBar.lines.getLastD []) ∧
      (bufFooBar.AppendRawData "a\nb".toList).baseline = bufFooBar.baseline ∧
      (bufFooBar.AppendRawData "a\nb".toList).GetBound =
        bufFooBar.GetBound + "a\nb".toList.count '\n' ∧
      (bufFooBar.AppendRawData "a\nb".toList).GetLine 1 = bufFooBar.GetLine 1 := by
  have h := C9_append_raw_data_frame bufFooBar "a\nb".toList (by decide) (by decide)
  exact ⟨by decide, by decide, h.1, h.2.1, h.2.2 1 (by decide) (by decide)⟩

theorem consHeadAll_ne_nil (x : Str) (l : List Str) : consHeadAll x l ≠ [] := by
  cases l <;> simp [consHeadAll]

theorem consHeadAll_nil_left (l : List Str) (h : l ≠ []) : consHeadAll [] l = l := by
  cases l with
  | nil => exact absurd rfl h
  | cons a t => simp [consHeadAll]

theorem getLastD_cons_ne {α : Type} (x : α) (l : List α) (d : α) (h : l ≠ []) :
    (x :: l).getLastD d = l.getLastD d := by
  cases l with
  | nil => exact absurd rfl h
  | cons y t => rw [List.getLastD_cons, List.getLastD_cons, List.getLastD_cons]

theorem dropLast_cons_ne {α : Type} (x : α) (l : List α) (h : l ≠ []) :
    (x :: l).dropLast = x :: l.dropLast := by
  cases l with
  | nil => exact absurd rfl h
  | cons y t => rfl

theorem getLastD_append_ne {α : Type} (d : α) :
    ∀ (l1 l2 : List α), l2 ≠ [] → (l1 ++ l2).getLastD d = l2.getLastD d := by
  intro l1
  induction l1 with
  | nil => intro l2 _; rfl
  | cons a t ih =>
    intro l2 h2
    rw [List.cons_append, getLastD_cons_ne a (t ++ l2) d (by simp [h2]), ih l2 h2]

theorem getLastD_singleton {α : Type} (a d : α) : ([a] : List α).getLastD d = a := rfl

theorem splitNL_no_nl : ∀ w : Str, '\n' ∉ w → splitNL w = [w] := by
  intro w
  induction w with
  | nil => intro _; rfl
  | cons c rest ih =>
    intro h
    have hc : ¬ c = '\n' := fun hh => h (hh ▸ List.mem_cons_self c rest)
    simp only [splitNL]
    rw [if_neg hc, ih (fun hh => h (List.mem_cons_of_mem c hh))]
    rfl

theorem splitNL_last_no_nl : ∀ u : Str, '\n' ∉ (splitNL u).getLastD [] := by
  intro u
  induction u with
  | nil => simp [splitNL]
  | cons c rest ih =>
    simp only [splitNL]
    by_cases hc : c = '\n'
    · rw [if_pos hc, getLastD_cons_ne _ _ _ (splitNL_ne_nil rest)]
      exact ih
    · rw [if_neg hc]
      obtain ⟨h, t, hht⟩ := List.exists_cons_of_ne_nil (splitNL_ne_nil rest)
      rw [hht]
      cases t with
      | nil =>
        rw [hht] at ih
        simp only [consHead, getLastD_singleton]
        simp only [getLastD_singleton] at ih
        simp only [List.mem_cons, not_or]
        exact ⟨fun hh => hc hh.symm, ih⟩
      | cons y ts =>
        rw [hht] at ih
        simp only [consHead]
        rw [getLastD_cons_ne _ _ _ (by simp)]
        rw [getLastD_cons_ne _ _ _ (by simp)] at ih
        exact ih

theorem splitNL_append (v : Str) : ∀ u : Str,
    splitNL (u ++ v) =
      (splitNL u).dropLast ++ consHeadAll ((splitNL u).getLastD []) (splitNL v) := by
  intro u
  induction u with
  | nil =>
    simp only [List.nil_append, splitNL, List.dropLast_single, getLastD_singleton]
    rw [consHeadAll_nil_left _ (splitNL_ne_nil v)]
  | cons c rest ih =>
    by_cases hc : c = '\n'
    · rw [List.cons_append]
      simp only [splitNL]
      rw [if_pos hc, if_pos hc, ih,
        dropLast_cons_ne _ _ (splitNL_ne_nil rest),
        getLastD_cons_ne _ _ _ (splitNL_ne_nil rest), List.cons_append]
    · rw [List.cons_append]
      simp only [splitNL]
      rw [if_neg hc, if_neg hc, ih]
      obtain ⟨h, t, hht⟩ := List.exists_cons_of_ne_nil (splitNL_ne_nil rest)
      rw [hht]
      cases t with
      | nil =>
        obtain ⟨hv, tv, hvt⟩ := List.exists_cons_of_ne_nil (splitNL_ne_nil v)
        rw [hvt]
        simp [consHead, consHeadAll]
      | cons y ts =>
        simp only [consHead, List.dropLast_cons₂, List.cons_append]
        rw [getLastD_cons_ne h (y :: ts) [] (by simp),
          getLastD_cons_ne (c :: h) (y :: ts) [] (by simp)]

theorem rstripOf_replicate (p : Nat) :
    rstripOf '\r' (List.replicate p '\r') = [] := by
  unfold rstripOf
  rw [List.reverse_replicate]
  have : List.dropWhile (fun x => x = '\r') (List.replicate p '\r') = [] := by
    induction p with
    | zero => rfl
    | succ n ih => simp [List.replicate_succ, List.dropWhile_cons, ih]
  simp only [this, List.reverse_nil]

theorem rstripOf_append_cons (A h : Str) (c : Char) (hc : c ≠ '\r') :
    rstripOf '\r' (A ++ c :: h) = A ++ c :: rstripOf '\r' h := by
  unfold rstripOf
  rw [List.reverse_append, List.reverse_cons, List.append_assoc,
    List.singleton_append, List.dropWhile_append]
  by_cases he : (h.reverse.dropWhile fun x => x = '\r').isEmpty = true
  · rw [if_pos he]
    rw [List.isEmpty_iff] at he
    rw [he]
    simp [List.dropWhile_cons, hc]
  · rw [if_neg he, List.reverse_append, List.reverse_cons, List.reverse_reverse]
    simp [List.append_assoc]

theorem scAux_eq : ∀ (s : Str) (p : Nat),
    scAux p s =
      (splitNL (List.replicate p '\r' ++ s)).dropLast.map (rstripOf '\r') ++
        [(splitNL (List.replicate p '\r' ++ s)).getLastD []] := by
  intro s
  induction s with
  | nil =>
    intro p
    rw [List.append_nil,
      splitNL_no_nl _ (by simp [List.mem_replicate])]
    simp [scAux]
  | cons c rest ih =>
    intro p
    by_cases hn : c = '\n'
    · subst hn
      have hstep : scAux p ('\n' :: rest) = [] :: scAux 0 rest := by
        simp [scAux]
      have hsp : splitNL (List.replicate p '\r' ++ '\n' :: rest) =
          List.replicate p '\r' :: splitNL rest := by
        rw [splitNL_append, splitNL_no_nl _ (by simp [List.mem_replicate])]
        simp only [List.dropLast_single, getLastD_singleton, List.nil_append]
        have : splitNL ('\n' :: rest) = [] :: splitNL rest := by simp [splitNL]
        rw [this]
        simp [consHeadAll]
      rw [hstep, ih 0, hsp,
        dropLast_cons_ne _ _ (splitNL_ne_nil rest),
        getLastD_cons_ne _ _ _ (splitNL_ne_nil rest),
        List.map_cons, rstripOf_replicate]
      simp
    · by_cases hr : c = '\r'
      · subst hr
        have hstep : scAux p ('\r' :: rest) = scAux (p + 1) rest := by
          simp [scAux]
        have harg : List.replicate (p + 1) '\r' ++ rest =
            List.replicate p '\r' ++ '\r' :: rest := by
          rw [List.replicate_succ', List.append_assoc, List.singleton_append]
        rw [hstep, ih (p + 1), harg]
      · have hstep : scAux p (c :: rest) =
            consHeadAll (List.replicate p '\r' ++ [c]) (scAux 0 rest) := by
          simp [scAux, hn, hr]
        have hsp : splitNL (List.replicate p '\r' ++ c :: rest) =
            consHeadAll (List.replicate p '\r') (consHead c (splitNL rest)) := by
          rw [splitNL_append, splitNL_no_nl _ (by simp [List.mem_replicate])]
          simp only [List.dropLast_single, getLastD_singleton, List.nil_append]
          have : splitNL (c :: rest) = consHead c (splitNL rest) := by
            simp only [splitNL]; rw [if_neg hn]
          rw [this]
        rw [hstep, ih 0, hsp]
        simp only [List.replicate_zero, List.nil_append]
        obtain ⟨h, t, hht⟩ := List.exists_cons_of_ne_nil (splitNL_ne_nil rest)
        rw [hht]
        cases t with
        | nil =>
          simp [consHead, consHeadAll, rstripOf_append_cons _ _ _ hr]
        | cons y ts =>
          simp only [consHead, consHeadAll, List.dropLast_cons₂, List.map_cons,
            List.cons_append]
          rw [getLastD_cons_ne h (y :: ts) [] (by simp),
            getLastD_cons_ne (List.replicate p '\r' ++ c :: h) (y :: ts) [] (by simp),
            rstripOf_append_cons _ _ _ hr]
          simp

theorem splitCRLF_eq (s : Str) :
    splitCRLF s =
      (splitNL s).dropLast.map (rstripOf '\r') ++ [(splitNL s).getLastD []] := by
  have h := scAux_eq s 0
  simpa [splitCRLF] using h

theorem Buffer.ext2 (b1 b2 : Buffer) (h1 : b1.baseline = b2.baseline)
    (h2 : b1.lines = b2.lines) : b1 = b2 := by
  cases b1; cases b2; cases h1; cases h2; rfl

theorem AppendRawData_append (b : Buffer) (x y : Str) :
    (b.AppendRawData x).AppendRawData y = b.AppendRawData (x ++ y) := by
  have hzA : '\n' ∉ (splitNL (b.lines.getLastD [] ++ x)).getLastD [] :=
    splitNL_last_no_nl _
  have htail1 : (b.AppendRawData x).lines.getLastD [] =
      (splitNL (b.lines.getLastD [] ++ x)).getLastD [] := by
    simp only [Buffer.AppendRawData]
    rw [getLastD_append_ne _ _ _ (by simp),
      getLastD_append_ne _ _ _ (by simp)]
    rfl
  have hdrop1 : (b.AppendRawData x).lines.dropLast =
      b.lines.dropLast ++
        ((splitNL (b.lines.getLastD [] ++ x)).dropLast.map (rstripOf '\r')) := by
    simp only [Buffer.AppendRawData]
    rw [← List.append_assoc, List.dropLast_concat]
  have hB : splitNL ((splitNL (b.lines.getLastD [] ++ x)).getLastD [] ++ y) =
      consHeadAll ((splitNL (b.lines.getLastD [] ++ x)).getLastD []) (splitNL y) := by
    rw [splitNL_append, splitNL_no_nl _ hzA]
    simp only [List.dropLast_single, getLastD_singleton, List.nil_append]
  have hC : splitNL (b.lines.getLastD [] ++ (x ++ y)) =
      (splitNL (b.lines.getLastD [] ++ x)).dropLast ++
        consHeadAll ((splitNL (b.lines.getLastD [] ++ x)).getLastD []) (splitNL y) := by
    rw [← List.append_assoc, splitNL_append]
  have hBne : consHeadAll ((splitNL (b.lines.getLastD [] ++ x)).getLastD [])
      (splitNL y) ≠ [] := consHeadAll_ne_nil _ _
  refine Buffer.ext2 _ _ ?_ ?_
  · rfl
  show (b.AppendRawData x).lines.dropLast ++
      ((splitNL ((b.AppendRawData x).lines.getLastD [] ++ y)).dropLast.map (rstripOf '\r') ++
        [(splitNL ((b.AppendRawData x).lines.getLastD [] ++ y)).getLastD []]) =
    b.lines.dropLast ++
      ((splitNL (b.lines.getLastD [] ++ (x ++ y))).dropLast.map (rstripOf '\r') ++
        [(splitNL (b.lines.getLastD [] ++ (x ++ y))).getLastD []])
  rw [htail1, hdrop1, hB, hC, List.dropLast_append_of_ne_nil _ hBne,
    getLastD_append_ne _ _ _ hBne, List.map_append]
  simp only [List.append_assoc]

theorem foldl_append_raw : ∀ (frags : List Str) (b : Buffer) (x : Str),
    frags.foldl Buffer.AppendRawData (b.AppendRawData x) =
      b.AppendRawData (x ++ frags.flatten) := by
  intro frags
  induction frags with
  | nil => intro b x; simp
  | cons f rest ih =>
    intro b x
    rw [List.foldl_cons, AppendRawData_append, ih, List.flatten_cons,
      List.append_assoc]

theorem feed_init (frags : List Str) :
    frags.foldl Buffer.AppendRawData Buffer.init =
      Buffer.init.AppendRawData frags.flatten := by
  cases frags with
  | nil => decide
  | cons f rest =>
    rw [List.foldl_cons, foldl_append_raw rest Buffer.init f, List.flatten_cons]

theorem range_map_getD {α : Type} (M : List α) (d : α) :
    (List.range M.length).map (fun i => M.getD i d) = M := by
  apply List.ext_getElem
  · simp
  · intro i h1 h2
    simp [List.getD_eq_getElem?_getD, List.getElem?_eq_getElem h2]

theorem init_append_lines (s : Str) :
    (Buffer.init.AppendRawData s).lines =
      [] :: ((splitNL s).dropLast.map (rstripOf '\r') ++ [(splitNL s).getLastD []]) := by
  simp [Buffer.AppendRawData, Buffer.init]

theorem drained_append_init (s : Str) :
    (Buffer.init.AppendRawData s).drained =
      (splitNL s).dropLast.map (rstripOf '\r') := by
  have hbase : (Buffer.init.AppendRawData s).baseline = 1 := rfl
  have hbound : (Buffer.init.AppendRawData s).GetBound =
      (splitNL s).dropLast.length + 2 := by
    simp [Buffer.GetBound, init_append_lines, hbase]
  rw [Buffer.drained, hbound, hbase]
  have hn : (splitNL s).dropLast.length + 2 - 1 - 1 =
      ((splitNL s).dropLast.map (rstripOf '\r')).length := by simp
  rw [hn]
  have hcongr : ∀ i ∈ List.range ((splitNL s).dropLast.map (rstripOf '\r')).length,
      (Buffer.init.AppendRawData s).GetLine (1 + i) =
        ((splitNL s).dropLast.map (rstripOf '\r')).getD i [] := by
    intro i hi
    rw [List.mem_range] at hi
    rw [Buffer.GetLine, hbase, init_append_lines]
    have harith : 1 + i - 1 + 1 = i + 1 := by omega
    rw [harith, List.getD_cons_succ, List.getD_eq_getElem?_getD,
      List.getElem?_append_left hi, ← List.getD_eq_getElem?_getD]
  rw [List.map_congr_left hcongr, range_map_getD]

theorem tailLine_append_init (s : Str) :
    (Buffer.init.AppendRawData s).tailLine = (splitNL s).getLastD [] := by
  rw [Buffer.tailLine, init_append_lines,
    getLastD_cons_ne _ _ _ (by simp), getLastD_append_ne _ _ _ (by simp),
    getLastD_singleton]

/-- C2 (confirmed): feeding any fragmentation of a byte string into a
fresh buffer yields the completed lines and partial tail determined by
the concatenation alone (so any two fragmentations agree), and the
completed lines equal the carriage-return-star-newline split of the
concatenation without its final unterminated segment, which is kept as
the partial tail. -/
theorem C2_fragmentation_invariance (frags : List Str) :
    (frags.foldl Buffer.AppendRawData Buffer.init).drained =
      (splitCRLF frags.flatten).dropLast ∧
    (frags.foldl Buffer.AppendRawData Buffer.init).tailLine =
      (splitCRLF frags.flatten).getLastD [] := by
  rw [feed_init]
  constructor
  · rw [drained_append_init, splitCRLF_eq, List.dropLast_concat]
  · rw [tailLine_append_init, splitCRLF_eq, getLastD_append_ne _ _ _ (by simp),
      getLastD_singleton]

theorem takeClass_shrink : ∀ (n : Nat) (r : Str) (first : Bool) (pr : List CItem × Str),
    r.length ≤ n → takeClass first r = some pr → pr.2.length < r.length := by
  intro n
  induction n with
  | zero =>
    intro r first pr hle h
    cases r with
    | nil => exact Option.noConfusion h
    | cons c rest => simp only [List.length_cons] at hle; omega
  | succ k ih =>
    intro r first pr hle h
    cases r with
    | nil => exact Option.noConfusion h
    | cons c rest =>
      unfold takeClass at h
      repeat' split at h
      all_goals
        first
          | exact Option.noConfusion h
          | (cases h; simp only [List.length_cons]; omega)
          | (obtain ⟨pr0, hpr0, hmap⟩ := Option.map_eq_some'.mp h
             have hlt := ih _ false pr0 (by simp only [List.length_cons] at hle; omega) hpr0
             have hpr2 : pr.2 = pr0.2 := by rw [← hmap]; rfl
             rw [hpr2]
             simp only [List.length_cons] at hlt ⊢
             omega)

theorem nextTok_shrink (s : Str) (pr : Tok × Str) (h : nextTok s = some pr) :
    pr.2.length < s.length := by
  cases s with
  | nil => exact Option.noConfusion h
  | cons c rest =>
    simp only [nextTok] at h
    repeat' split at h
    all_goals
      first
        | exact Option.noConfusion h
        | (cases h
           simp only [List.length_cons, List.length_tail, List.length_drop]
           omega)
        | (obtain ⟨pr0, hpr0, hmap⟩ := Option.map_eq_some'.mp h
           have hlt := takeClass_shrink rest.tail.length rest.tail true pr0 le_rfl hpr0
           have hpr2 : pr.2 = pr0.2 := by rw [← hmap]
           rw [hpr2]
           simp only [List.length_cons, List.length_tail] at hlt ⊢
           omega)
        | (obtain ⟨pr0, hpr0, hmap⟩ := Option.map_eq_some'.mp h
           have hlt := takeClass_shrink rest.length rest true pr0 le_rfl hpr0
           have hpr2 : pr.2 = pr0.2 := by rw [← hmap]
           rw [hpr2]
           simp only [List.length_cons] at hlt ⊢
           omega)

theorem lexF_irrel : ∀ (f1 : Nat) (s : Str) (f2 : Nat), s.length ≤ f1 → s.length ≤ f2 →
    lexF f1 s = lexF f2 s := by
  intro f1
  induction f1 with
  | zero =>
    intro s f2 h1 h2
    cases s with
    | nil => cases f2 <;> rfl
    | cons c rest => simp at h1
  | succ k ih =>
    intro s f2 h1 h2
    cases s with
    | nil => cases f2 <;> rfl
    | cons c rest =>
      cases f2 with
      | zero => simp at h2
      | succ k2 =>
        simp only [lexF]
        cases hnt : nextTok (c :: rest) with
        | none => rfl
        | some pr =>
          have hsh := nextTok_shrink _ _ hnt
          simp only [List.length_cons] at hsh h1 h2
          show (lexF k pr.2).map (pr.1 :: ·) = (lexF k2 pr.2).map (pr.1 :: ·)
          rw [ih pr.2 k2 (by omega) (by omega)]

theorem lex_step (c : Char) (rest : Str) :
    lex (c :: rest) =
      match nextTok (c :: rest) with
      | none => none
      | some pr => (lex pr.2).map (pr.1 :: ·) := by
  show lexF (c :: rest).length (c :: rest) = _
  simp only [List.length_cons, lexF]
  cases hnt : nextTok (c :: rest) with
  | none => rfl
  | some pr =>
    have hsh := nextTok_shrink _ _ hnt
    simp only [List.length_cons] at hsh
    show (lexF rest.length pr.2).map (pr.1 :: ·) =
      (lexF pr.2.length pr.2).map (pr.1 :: ·)
    rw [lexF_irrel rest.length pr.2 pr.2.length (by omega) le_rfl]

theorem word_not_special (c : Char) (h : isWordCh c = true) :
    c ≠ '\\' ∧ c ≠ '(' ∧ c ≠ ')' ∧ c ≠ '[' ∧ c ≠ '.' ∧ c ≠ '+' ∧ c ≠ '*' ∧ c ≠ '$' ∧
      ¬(c = '|' ∨ c = '?' ∨ c = '^' ∨ c = '\x7b' ∨ c = '\x7d') := by
  refine ⟨?_, ?_, ?_, ?_, ?_, ?_, ?_, ?_, ?_⟩ <;>
    first
      | (intro hh; rw [hh] at h; exact absurd h (by decide))
      | (rintro (hh | hh | hh | hh | hh) <;> (rw [hh] at h; exact absurd h (by decide)))

theorem nextTok_word (c : Char) (h : isWordCh c = true) (z : Str) :
    nextTok (c :: z) = some (.tLit c, z) := by
  obtain ⟨h1, h2, h3, h4, h5, h6, h7, h8, h9⟩ := word_not_special c h
  simp only [nextTok]
  rw [if_neg h1, if_neg h2, if_neg h3, if_neg h4, if_neg h5, if_neg h6, if_neg h7,
    if_neg h8, if_neg h9]

theorem lex_escaped (c : Char) (z : Str) :
    lex (reEscapeChar c ++ z) = (lex z).map (Tok.tLit c :: ·) := by
  unfold reEscapeChar
  by_cases hw : isWordCh c = true
  · rw [if_pos hw]
    show lex (c :: z) = _
    rw [lex_step, nextTok_word c hw z]
  · rw [if_neg hw]
    by_cases h0 : c = '\x00'
    · rw [if_pos h0]
      subst h0
      show lex ('\\' :: '0' :: '0' :: '0' :: z) = _
      rw [lex_step]
      have hnt : nextTok ('\\' :: '0' :: '0' :: '0' :: z) = some (.tLit '\x00', z) := rfl
      rw [hnt]
    · rw [if_neg h0]
      show lex ('\\' :: c :: z) = _
      have hcs : c ≠ 's' := fun hh => hw (by rw [hh]; decide)
      have hc0 : c ≠ '0' := fun hh => hw (by rw [hh]; decide)
      have htake : (c :: z).take 3 = c :: z.take 2 := rfl
      have h000 : ¬((c :: z).take 3 = ['0', '0', '0']) := by
        rw [htake]
        intro hEq
        injection hEq with hx hy
        exact hc0 hx
      have hnt : nextTok ('\\' :: c :: z) = some (.tLit c, z) := by
        simp only [nextTok]
        rw [if_pos trivial, if_neg (by simp [hcs]), if_neg h000, if_neg (by simp),
          if_neg (by simp only [List.headD_cons]; exact hw)]
        rfl
      rw [lex_step, hnt]

theorem lex_ws_plus (z : Str) :
    lex ('\\' :: 's' :: '+' :: z) =
      (lex z).map (fun ts => Tok.tWs :: Tok.tPlus :: ts) := by
  rw [lex_step]
  have h1 : nextTok ('\\' :: 's' :: '+' :: z) = some (.tWs, '+' :: z) := rfl
  rw [h1]
  show (lex ('+' :: z)).map (Tok.tWs :: ·) = _
  rw [lex_step]
  have h2 : nextTok ('+' :: z) = some (.tPlus, z) := rfl
  rw [h2]
  show ((lex z).map (Tok.tPlus :: ·)).map (Tok.tWs :: ·) = _
  rw [Option.map_map]
  rfl

theorem lex_skip (cw : Str) : ∀ z : Str,
    lex (cw.flatMap
        (fun ch => if ch = ' ' then ['\\', 's', '+'] else reEscapeChar ch) ++ z) =
      (lex z).map (cw.flatMap tokOf ++ ·) := by
  induction cw with
  | nil =>
    intro z
    simp only [List.flatMap_nil, List.nil_append]
    cases lex z <;> rfl
  | cons ch cw2 ih =>
    intro z
    rw [List.flatMap_cons, List.flatMap_cons, List.append_assoc]
    by_cases hsp : ch = ' '
    · subst hsp
      rw [if_pos rfl]
      show lex ('\\' :: 's' :: '+' ::
        (cw2.flatMap (fun ch => if ch = ' ' then ['\\', 's', '+'] else reEscapeChar ch) ++ z)) = _
      rw [lex_ws_plus, ih z, Option.map_map]
      rfl
    · rw [if_neg hsp]
      have hstep := lex_escaped ch
        ((cw2.flatMap fun ch => if ch = ' ' then ['\\', 's', '+'] else reEscapeChar ch) ++ z)
      rw [hstep, ih z, Option.map_map]
      have htk : tokOf ch = [Tok.tLit ch] := by unfold tokOf; rw [if_neg hsp]
      rw [htk]
      rfl

theorem takeClass_close (z : Str) : takeClass false (']' :: z) = some ([], z) := by
  rw [takeClass.eq_def]
  simp

theorem takeClass_wsc (first : Bool) (r : Str) :
    takeClass first ('\\' :: 's' :: r) = (takeClass false r).map (consIt .wsc) := by
  rw [takeClass.eq_def]
  simp

theorem lex_grp_dot (z : Str) :
    lex ('(' :: '.' :: '+' :: ')' :: z) =
      (lex z).map
        (fun ts => Tok.tOpen true :: Tok.tDot :: Tok.tPlus :: Tok.tClose :: ts) := by
  rw [lex_step]
  have h1 : nextTok ('(' :: '.' :: '+' :: ')' :: z) =
      some (.tOpen true, '.' :: '+' :: ')' :: z) := rfl
  rw [h1]
  show (lex ('.' :: '+' :: ')' :: z)).map (Tok.tOpen true :: ·) = _
  rw [lex_step]
  have h2 : nextTok ('.' :: '+' :: ')' :: z) = some (.tDot, '+' :: ')' :: z) := rfl
  rw [h2]
  show ((lex ('+' :: ')' :: z)).map (Tok.tDot :: ·)).map (Tok.tOpen true :: ·) = _
  rw [lex_step]
  have h3 : nextTok ('+' :: ')' :: z) = some (.tPlus, ')' :: z) := rfl
  rw [h3]
  show (((lex (')' :: z)).map (Tok.tPlus :: ·)).map (Tok.tDot :: ·)).map
    (Tok.tOpen true :: ·) = _
  rw [lex_step]
  have h4 : nextTok (')' :: z) = some (.tClose, z) := rfl
  rw [h4]
  show ((((lex z).map (Tok.tClose :: ·)).map (Tok.tPlus :: ·)).map (Tok.tDot :: ·)).map
    (Tok.tOpen true :: ·) = _
  rw [Option.map_map, Option.map_map, Option.map_map]
  rfl

theorem lex_grp_ns (z : Str) :
    lex ('(' :: '[' :: '^' :: '\\' :: 's' :: ']' :: '+' :: ')' :: z) =
      (lex z).map
        (fun ts => Tok.tOpen true :: Tok.tClass true [.wsc] :: Tok.tPlus ::
          Tok.tClose :: ts) := by
  rw [lex_step]
  have h1 : nextTok ('(' :: '[' :: '^' :: '\\' :: 's' :: ']' :: '+' :: ')' :: z) =
      some (.tOpen true, '[' :: '^' :: '\\' :: 's' :: ']' :: '+' :: ')' :: z) := rfl
  rw [h1]
  show (lex ('[' :: '^' :: '\\' :: 's' :: ']' :: '+' :: ')' :: z)).map
    (Tok.tOpen true :: ·) = _
  rw [lex_step]
  have htc : takeClass true ('\\' :: 's' :: ']' :: '+' :: ')' :: z) =
      some ([CItem.wsc], '+' :: ')' :: z) := by
    rw [takeClass_wsc, takeClass_close]
    rfl
  have h2 : nextTok ('[' :: '^' :: '\\' :: 's' :: ']' :: '+' :: ')' :: z) =
      some (.tClass true [.wsc], '+' :: ')' :: z) := by
    simp only [nextTok]
    rw [if_neg (by simp), if_neg (by simp), if_neg (by simp), if_pos (by simp),
      if_pos (by simp)]
    show (takeClass true ('\\' :: 's' :: ']' :: '+' :: ')' :: z)).map
      (fun pr => (Tok.tClass true pr.1, pr.2)) =
      some (.tClass true [.wsc], '+' :: ')' :: z)
    rw [htc]
    rfl
  rw [h2]
  show ((lex ('+' :: ')' :: z)).map (Tok.tClass true [.wsc] :: ·)).map
    (Tok.tOpen true :: ·) = _
  rw [lex_step]
  have h3 : nextTok ('+' :: ')' :: z) = some (.tPlus, ')' :: z) := rfl
  rw [h3]
  show (((lex (')' :: z)).map (Tok.tPlus :: ·)).map (Tok.tClass true [.wsc] :: ·)).map
    (Tok.tOpen true :: ·) = _
  rw [lex_step]
  have h4 : nextTok (')' :: z) = some (.tClose, z) := rfl
  rw [h4]
  show ((((lex z).map (Tok.tClose :: ·)).map (Tok.tPlus :: ·)).map
    (Tok.tClass true [.wsc] :: ·)).map (Tok.tOpen true :: ·) = _
  rw [Option.map_map, Option.map_map, Option.map_map]
  rfl

theorem takeClass_d (d : Char) (hd : d ≠ '\\') (z : Str) :
    takeClass true (d :: ']' :: z) = some ([CItem.ch d], z) := by
  by_cases h1 : d = ']'
  · subst h1
    rw [takeClass.eq_def]
    simp only [if_pos rfl, if_pos trivial]
    rw [takeClass_close]
    rfl
  · rw [takeClass.eq_def]
    simp only []
    rw [if_neg h1, if_neg hd]
    by_cases h2 : d = '-'
    · rw [if_pos h2, if_pos (Or.inl trivial), takeClass_close, h2]
      rfl
    · rw [if_neg h2, takeClass_close]
      rfl

theorem lex_grp_nd (d : Char) (hd : d ≠ '\\') (z : Str) :
    lex ('(' :: '[' :: '^' :: d :: ']' :: '+' :: ')' :: z) =
      (lex z).map
        (fun ts => Tok.tOpen true :: Tok.tClass true [.ch d] :: Tok.tPlus ::
          Tok.tClose :: ts) := by
  rw [lex_step]
  have h1 : nextTok ('(' :: '[' :: '^' :: d :: ']' :: '+' :: ')' :: z) =
      some (.tOpen true, '[' :: '^' :: d :: ']' :: '+' :: ')' :: z) := by
    simp only [nextTok]
    rw [if_neg (by simp), if_pos (by simp),
      show List.take 2 ('[' :: '^' :: d :: ']' :: '+' :: ')' :: z) = ['[', '^'] from rfl,
      if_neg (by simp),
      show ('[' :: '^' :: d :: ']' :: '+' :: ')' :: z).head? = some '[' from rfl,
      if_neg (by simp)]
  rw [h1]
  show (lex ('[' :: '^' :: d :: ']' :: '+' :: ')' :: z)).map (Tok.tOpen true :: ·) = _
  rw [lex_step]
  have h2 : nextTok ('[' :: '^' :: d :: ']' :: '+' :: ')' :: z) =
      some (.tClass true [.ch d], '+' :: ')' :: z) := by
    simp only [nextTok]
    rw [if_neg (by simp), if_neg (by simp), if_neg (by simp), if_pos (by simp),
      if_pos (by simp)]
    show (takeClass true (d :: ']' :: '+' :: ')' :: z)).map
      (fun pr => (Tok.tClass true pr.1, pr.2)) =
      some (.tClass true [.ch d], '+' :: ')' :: z)
    rw [takeClass_d d hd ('+' :: ')' :: z)]
    rfl
  rw [h2]
  show ((lex ('+' :: ')' :: z)).map (Tok.tClass true [.ch d] :: ·)).map
    (Tok.tOpen true :: ·) = _
  rw [lex_step]
  have h3 : nextTok ('+' :: ')' :: z) = some (.tPlus, ')' :: z) := rfl
  rw [h3]
  show (((lex (')' :: z)).map (Tok.tPlus :: ·)).map (Tok.tClass true [.ch d] :: ·)).map
    (Tok.tOpen true :: ·) = _
  rw [lex_step]
  have h4 : nextTok (')' :: z) = some (.tClose, z) := rfl
  rw [h4]
  show ((((lex z).map (Tok.tClose :: ·)).map (Tok.tPlus :: ·)).map
    (Tok.tClass true [.ch d] :: ·)).map (Tok.tOpen true :: ·) = _
  rw [Option.map_map, Option.map_map, Option.map_map]
  rfl

theorem StepsP_nil : StepsP [] [] := by
  intro b cur stk _
  rfl

theorem StepsP_append (t1 t2 : List Tok) (a1 a2 : List RAtom)
    (h1 : StepsP t1 a1) (h2 : StepsP t2 a2)
    (hq : ∀ b, headQuant b = false → headQuant (t2 ++ b) = false) :
    StepsP (t1 ++ t2) (a1 ++ a2) := by
  intro b cur stk hb
  rw [List.append_assoc, h1 (t2 ++ b) cur stk (hq b hb), h2 b _ stk hb,
    List.reverse_append, List.append_assoc]

theorem steps_lit (c : Char) : StepsP [Tok.tLit c] [.pat (.lit c) .one] := by
  intro b cur stk hb
  show parseLoop (Tok.tLit c :: b) cur stk = parseLoop b (.pat (.lit c) .one :: cur) stk
  cases b with
  | nil => rfl
  | cons hd tl => cases hd <;> first | rfl | simp [headQuant] at hb

theorem steps_ws_plus : StepsP [Tok.tWs, Tok.tPlus] [.pat (.cls false [.wsc]) .plus] := by
  intro b cur stk _
  rfl

theorem steps_dot_plus : StepsP [Tok.tDot, Tok.tPlus] [.pat .dot .plus] := by
  intro b cur stk _
  rfl

theorem steps_cls_plus (neg : Bool) (items : List CItem) :
    StepsP [Tok.tClass neg items, Tok.tPlus] [.pat (.cls neg items) .plus] := by
  intro b cur stk _
  rfl

theorem steps_grp (toksI : List Tok) (atomsI : List RAtom) (hI : StepsP toksI atomsI) :
    StepsP (Tok.tOpen true :: toksI ++ [Tok.tClose]) [.grp true (toRSeq atomsI)] := by
  intro b cur stk hb
  have h0 : (Tok.tOpen true :: toksI ++ [Tok.tClose]) ++ b =
      Tok.tOpen true :: (toksI ++ (Tok.tClose :: b)) := by simp
  rw [h0]
  have h1 : parseLoop (Tok.tOpen true :: (toksI ++ (Tok.tClose :: b))) cur stk =
      parseLoop (toksI ++ (Tok.tClose :: b)) [] ((true, cur) :: stk) := rfl
  rw [h1, hI (Tok.tClose :: b) [] ((true, cur) :: stk) rfl]
  have h2 : parseLoop (Tok.tClose :: b) (atomsI.reverse ++ []) ((true, cur) :: stk) =
      if headQuant b = true then none
      else parseLoop b (.grp true (toRSeq (atomsI.reverse ++ []).reverse) :: cur) stk := rfl
  rw [h2, hb]
  simp

theorem LexP_nil : LexP [] [] := by
  intro z
  show lex z = (lex z).map ([] ++ ·)
  cases lex z <;> rfl

theorem LexP_append (s1 s2 : Str) (t1 t2 : List Tok)
    (h1 : LexP s1 t1) (h2 : LexP s2 t2) : LexP (s1 ++ s2) (t1 ++ t2) := by
  intro z
  rw [List.append_assoc, h1 (s2 ++ z), h2 z, Option.map_map]
  congr 1
  funext ts
  show t1 ++ (t2 ++ ts) = (t1 ++ t2) ++ ts
  rw [List.append_assoc]

theorem headQuant_tokOf_append (cw : Str) (b : List Tok) (hb : headQuant b = false) :
    headQuant (cw.flatMap tokOf ++ b) = false := by
  cases cw with
  | nil => simpa using hb
  | cons ch cw2 =>
    rw [List.flatMap_cons]
    unfold tokOf
    by_cases h : ch = ' '
    · rw [if_pos h]; rfl
    · rw [if_neg h]; rfl

theorem reCompile_of (s : Str) (toks : List Tok) (atoms : List RAtom)
    (hl : LexP s toks) (hs : StepsP toks atoms) :
    reCompile s = some (toRSeq atoms) := by
  unfold reCompile
  have h1 : lex s = some toks := by
    have h0 := hl []
    rw [List.append_nil] at h0
    have hlz : lex ([] : Str) = some [] := rfl
    rw [hlz] at h0
    simpa using h0
  rw [h1]
  show parseLoop toks [] [] = some (toRSeq atoms)
  have h2 := hs [] [] [] rfl
  rw [List.append_nil] at h2
  rw [h2]
  have h3 : parseLoop ([] : List Tok) (atoms.reverse ++ []) [] =
      some (toRSeq (atoms.reverse ++ []).reverse) := rfl
  rw [h3]
  simp

theorem flatMap_single {α β : Type} (l : List α) (f : α → β) :
    (l.flatMap fun x => [f x]) = l.map f := by
  induction l with
  | nil => rfl
  | cons x t ih => rw [List.flatMap_cons, List.map_cons, ih]; rfl

theorem seqParses_append (ys : List RAtom) (s : Str) :
    ∀ (xs : List RAtom) (pos : Nat),
    seqParses (toRSeq (xs ++ ys)) s pos =
      (seqParses (toRSeq xs) s pos).flatMap fun pr =>
        (seqParses (toRSeq ys) s pr.1).map fun qr => (qr.1, pr.2 ++ qr.2) := by
  intro xs
  induction xs with
  | nil =>
    intro pos
    show seqParses (toRSeq ys) s pos =
      ([((pos, []) : Nat × List Str)].flatMap fun pr =>
        (seqParses (toRSeq ys) s pr.1).map fun qr => (qr.1, pr.2 ++ qr.2))
    simp
  | cons a xs ih =>
    intro pos
    have h1 : seqParses (toRSeq ((a :: xs) ++ ys)) s pos =
        (atomParses a s pos).flatMap fun pr =>
          (seqParses (toRSeq (xs ++ ys)) s pr.1).map fun qr => (qr.1, pr.2 ++ qr.2) := rfl
    have h2 : seqParses (toRSeq (a :: xs)) s pos =
        (atomParses a s pos).flatMap fun pr =>
          (seqParses (toRSeq xs) s pr.1).map fun qr => (qr.1, pr.2 ++ qr.2) := rfl
    rw [h1, h2]
    simp only [ih]
    rw [List.flatMap_assoc]
    congr 1
    funext pr
    rw [List.flatMap_map, List.map_flatMap]
    congr 1
    funext qr
    rw [List.map_map]
    congr 1
    funext rr
    show (rr.1, pr.2 ++ (qr.2 ++ rr.2)) = (rr.1, (pr.2 ++ qr.2) ++ rr.2)
    rw [List.append_assoc]

theorem head?_flatMap {α β : Type} (l : List α) (f : α → List β) (a : α) (b : β)
    (hl : l.head? = some a) (hf : (f a).head? = some b) :
    (l.flatMap f).head? = some b := by
  cases l with
  | nil => exact Option.noConfusion hl
  | cons x t =>
    have hx : x = a := by simpa using hl
    subst hx
    rw [List.flatMap_cons]
    cases hfa : f x with
    | nil => rw [hfa] at hf; exact Option.noConfusion hf
    | cons y ys =>
      rw [hfa] at hf
      simpa using hf

theorem HeadTo_nil (s : Str) (pos : Nat) : HeadTo [] s pos pos [] := rfl

theorem HeadTo_append (xs ys : List RAtom) (s : Str) (pos p1 p2 : Nat)
    (c1 c2 : List Str) (h1 : HeadTo xs s pos p1 c1) (h2 : HeadTo ys s p1 p2 c2) :
    HeadTo (xs ++ ys) s pos p2 (c1 ++ c2) := by
  unfold HeadTo at h1 h2 ⊢
  rw [seqParses_append]
  have hin : ((seqParses (toRSeq ys) s p1).map fun qr => (qr.1, c1 ++ qr.2)).head? =
      some (p2, c1 ++ c2) := by
    rw [List.head?_map, h2]
    rfl
  exact head?_flatMap _ _ (p1, c1) (p2, c1 ++ c2) h1 hin

theorem seqParses_single_pat (a : PAtom) (q : Quant) (s : Str) (pos : Nat) :
    seqParses (toRSeq [.pat a q]) s pos =
      (quantEnds (pmatch a) q s pos).map fun e => (e, []) := by
  have h1 : seqParses (toRSeq [.pat a q]) s pos =
      (atomParses (.pat a q) s pos).flatMap fun pr => [(pr.1, pr.2 ++ [])] := rfl
  have h2 : atomParses (.pat a q) s pos =
      (quantEnds (pmatch a) q s pos).map fun e => (e, ([] : List Str)) := rfl
  rw [h1, h2, List.flatMap_map]
  exact flatMap_single _ (fun e => (e, []))

theorem quantEnds_shift (p : Char → Bool) (q : Quant) (s : Str) (pos : Nat) :
    quantEnds p q s pos = (quantEnds p q (s.drop pos) 0).map (fun e => pos + e) := by
  have hget : s.get? pos = (s.drop pos).get? 0 := by
    rw [List.get?_eq_getElem?, List.get?_eq_getElem?, List.getElem?_drop]
    simp
  have hrun : runLen p (s.drop pos) 0 = runLen p s pos := rfl
  cases q with
  | one =>
    simp only [quantEnds]
    rw [hget]
    cases (s.drop pos).get? 0 with
    | none => rfl
    | some c =>
      show (if p c = true then [pos + 1] else []) =
        (if p c = true then [0 + 1] else []).map (fun e => pos + e)
      split <;> simp
  | plus =>
    simp only [quantEnds, hrun, List.map_map]
    congr 1
    funext k
    show pos + k + 1 = pos + (0 + k + 1)
    omega
  | star =>
    simp only [quantEnds, hrun, List.map_map]
    congr 1
    funext k
    show pos + k = pos + (0 + k)
    omega

theorem quantEnds_plus_head (p : Char → Bool) (s : Str) (pos : Nat)
    (h : 1 ≤ runLen p s pos) :
    (quantEnds p .plus s pos).head? = some (pos + runLen p s pos) := by
  obtain ⟨k, hk⟩ : ∃ k, runLen p s pos = k + 1 := ⟨runLen p s pos - 1, by omega⟩
  simp only [quantEnds]
  rw [hk, List.range_succ, List.reverse_append]
  simp
  omega

theorem quantEnds_one_head (p : Char → Bool) (s : Str) (pos : Nat) (c : Char)
    (hc : s.get? pos = some c) (hp : p c = true) :
    (quantEnds p .one s pos).head? = some (pos + 1) := by
  simp only [quantEnds]
  rw [hc]
  show (if p c = true then [pos + 1] else []).head? = some (pos + 1)
  rw [if_pos hp]
  rfl

theorem markerHeadTo (A : PAtom) (q : Quant) (s : Str) (pos L : Nat)
    (h : (quantEnds (pmatch A) q s pos).head? = some (pos + L)) :
    HeadTo [.grp true (toRSeq [.pat A q])] s pos (pos + L)
      [sliceStr s pos (pos + L)] := by
  unfold HeadTo
  have h1 : seqParses (toRSeq [.grp true (toRSeq [.pat A q])]) s pos =
      (atomParses (.grp true (toRSeq [.pat A q])) s pos).flatMap fun pr =>
        [(pr.1, pr.2 ++ [])] := rfl
  have h2 : atomParses (.grp true (toRSeq [.pat A q])) s pos =
      (seqParses (toRSeq [.pat A q]) s pos).map fun pr =>
        (pr.1, [sliceStr s pos pr.1] ++ pr.2) := rfl
  rw [h1, h2, seqParses_single_pat]
  refine head?_flatMap _ _ (pos + L, [sliceStr s pos (pos + L)]) _ ?_ ?_
  · rw [List.head?_map, List.head?_map, h]
    rfl
  · rfl

theorem takeWhile_all_append (p : Char → Bool) :
    ∀ (r rest : Str), (∀ c ∈ r, p c = true) →
      (r ++ rest).takeWhile p = r ++ rest.takeWhile p := by
  intro r
  induction r with
  | nil => intro rest _; rfl
  | cons a t ih =>
    intro rest hall
    rw [List.cons_append, List.takeWhile_cons,
      if_pos (hall a (List.mem_cons_self a t)), ih rest fun c hc =>
        hall c (List.mem_cons_of_mem a hc), List.cons_append]

theorem dropWhile_head_false (p : Char → Bool) :
    ∀ (l : Str) (c : Char) (t : Str), l.dropWhile p = c :: t → p c = false := by
  intro l
  induction l with
  | nil => intro c t h; exact absurd h (by simp)
  | cons a r ih =>
    intro c t h
    rw [List.dropWhile_cons] at h
    by_cases ha : p a = true
    · rw [if_pos ha] at h
      exact ih c t h
    · rw [if_neg ha] at h
      injection h with h1 h2
      rw [← h1]
      simpa using ha

theorem getLast?_append_ne {α : Type} :
    ∀ (l1 l2 : List α), l2 ≠ [] → (l1 ++ l2).getLast? = l2.getLast? := by
  intro l1 l2 h2
  obtain ⟨x, t, hxt⟩ := List.exists_cons_of_ne_nil h2
  subst hxt
  rw [List.getLast?_append_cons]

theorem collapseWsAux_true (u : Str) :
    collapseWsAux true u = collapseWsAux false (u.dropWhile isPySpace) := by
  induction u with
  | nil => rfl
  | cons c r ih =>
    by_cases hc : isPySpace c = true
    · have h1 : collapseWsAux true (c :: r) = collapseWsAux true r := by
        simp only [collapseWsAux]
        rw [if_pos hc]
        rfl
      rw [h1, ih, List.dropWhile_cons, if_pos hc]
    · have h1 : collapseWsAux true (c :: r) = c :: collapseWsAux false r := by
        simp only [collapseWsAux]
        rw [if_neg hc]
      have h2 : (c :: r).dropWhile isPySpace = c :: r := by
        rw [List.dropWhile_cons, if_neg hc]
      rw [h1, h2]
      simp only [collapseWsAux]
      rw [if_neg hc]

theorem collapseWs_cons_nonws (c : Char) (w : Str) (hc : isPySpace c = false) :
    collapseWs (c :: w) = c :: collapseWs w := by
  show collapseWsAux false (c :: w) = c :: collapseWsAux false w
  simp only [collapseWsAux]
  rw [if_neg (by simp [hc])]

theorem collapseWs_cons_ws (c : Char) (w : Str) (hc : isPySpace c = true) :
    collapseWs (c :: w) = ' ' :: collapseWs ((c :: w).dropWhile isPySpace) := by
  show collapseWsAux false (c :: w) = _
  simp only [collapseWsAux]
  rw [if_pos hc, List.dropWhile_cons, if_pos hc]
  show ' ' :: collapseWsAux true w = ' ' :: collapseWsAux false (w.dropWhile isPySpace)
  rw [collapseWsAux_true]

theorem pmatch_wsc : pmatch (.cls false [.wsc]) = isPySpace := by
  funext x
  simp [pmatch, citemMatch]

theorem wsExt_cons_nonws (c : Char) (w v : Str) (hc : isPySpace c = false) :
    wsExt (c :: w) v = wsExt w v := by
  cases w with
  | nil => simp [wsExt, hc]
  | cons d t =>
    unfold wsExt
    rw [List.getLast?_cons_cons]

theorem wsExt_append_ne (r w2 v : Str) (h2 : w2 ≠ []) :
    wsExt (r ++ w2) v = wsExt w2 v := by
  unfold wsExt
  rw [getLast?_append_ne r w2 h2]

theorem get?_of_drop (s : Str) (pos : Nat) (c : Char) (rest : Str)
    (h : s.drop pos = c :: rest) : s.get? pos = some c := by
  rw [List.get?_eq_getElem?]
  have h0 : (s.drop pos)[0]? = s[pos + 0]? := List.getElem?_drop s pos 0
  rw [h] at h0
  simpa using h0.symm

theorem drop_shift (s : Str) (pos k : Nat) (w v : Str) (hk : k = w.length)
    (h : s.drop pos = w ++ v) : s.drop (pos + k) = v := by
  rw [← List.drop_drop k pos s, h, hk, List.drop_left]

theorem HeadTo_pat (a : PAtom) (q : Quant) (s : Str) (pos e : Nat)
    (h : (quantEnds (pmatch a) q s pos).head? = some e) :
    HeadTo [.pat a q] s pos e [] := by
  unfold HeadTo
  rw [seqParses_single_pat, List.head?_map, h]
  rfl

theorem skipConsumes : ∀ (n : Nat) (w : Str), w.length ≤ n →
    ∀ (v s : Str) (pos : Nat), s.drop pos = w ++ v →
    HeadTo ((collapseWs w).flatMap skipAtomOf) s pos
      (pos + w.length + wsExt w v) [] := by
  intro n
  induction n with
  | zero =>
    intro w hw v s pos _
    have hwnil : w = [] := List.eq_nil_of_length_eq_zero (by omega)
    subst hwnil
    simpa [collapseWs, collapseWsAux, wsExt] using HeadTo_nil s pos
  | succ k ih =>
    intro w hw v s pos hdrop
    cases w with
    | nil => simpa [collapseWs, collapseWsAux, wsExt] using HeadTo_nil s pos
    | cons c w2 =>
      by_cases hsp : isPySpace c = true
      · have hall : ∀ x ∈ (c :: w2).takeWhile isPySpace, isPySpace x = true :=
          fun x hx => List.mem_takeWhile_imp hx
        have hsplit : (c :: w2).takeWhile isPySpace ++ (c :: w2).dropWhile isPySpace =
            c :: w2 := List.takeWhile_append_dropWhile isPySpace (c :: w2)
        have hcol := collapseWs_cons_ws c w2 hsp
        have hato : (collapseWs (c :: w2)).flatMap skipAtomOf =
            [RAtom.pat (.cls false [.wsc]) .plus] ++
              (collapseWs ((c :: w2).dropWhile isPySpace)).flatMap skipAtomOf := by
          rw [hcol, List.flatMap_cons]
          rfl
        have hrlen : 1 ≤ ((c :: w2).takeWhile isPySpace).length := by
          rw [List.takeWhile_cons, if_pos hsp]
          simp
        cases hw2e : (c :: w2).dropWhile isPySpace with
        | nil =>
          have hreq : (c :: w2).takeWhile isPySpace = c :: w2 := by
            have h0 := hsplit
            rw [hw2e, List.append_nil] at h0
            exact h0
          have hallw : ∀ x ∈ (c :: w2), isPySpace x = true := by
            intro x hx
            rw [← hreq] at hx
            exact hall x hx
          have hrun : runLen isPySpace s pos = (c :: w2).length + runLen isPySpace v 0 := by
            unfold runLen
            rw [hdrop, takeWhile_all_append isPySpace (c :: w2) v hallw,
              List.length_append]
            rfl
          have hplus : (quantEnds (pmatch (.cls false [.wsc])) .plus s pos).head? =
              some (pos + ((c :: w2).length + runLen isPySpace v 0)) := by
            rw [pmatch_wsc,
              quantEnds_plus_head isPySpace s pos
                (by rw [hrun]; simp only [List.length_cons]; omega), hrun]
          have h1 : HeadTo [RAtom.pat (.cls false [.wsc]) .plus] s pos
              (pos + ((c :: w2).length + runLen isPySpace v 0)) [] :=
            HeadTo_pat _ _ _ _ _ hplus
          rw [hato, hw2e]
          have happ := HeadTo_append _ _ s pos _ _ [] [] h1
            (HeadTo_nil s (pos + ((c :: w2).length + runLen isPySpace v 0)))
          have hwse : wsExt (c :: w2) v = runLen isPySpace v 0 := by
            have hx1 : (c :: w2).getLast? = some ((c :: w2).getLast (by simp)) :=
              List.getLast?_eq_getLast _ _
            unfold wsExt
            rw [hx1]
            show (if isPySpace ((c :: w2).getLast (by simp)) = true then
              runLen isPySpace v 0 else 0) = runLen isPySpace v 0
            rw [if_pos (hallw _ (List.getLast_mem _))]
          rw [show pos + (c :: w2).length + wsExt (c :: w2) v =
            pos + ((c :: w2).length + runLen isPySpace v 0) from by rw [hwse]; omega]
          exact happ
        | cons d w2t =>
          have hdns : isPySpace d = false :=
            dropWhile_head_false isPySpace (c :: w2) d w2t hw2e
          have htD : List.takeWhile isPySpace (d :: (w2t ++ v)) = [] := by
            rw [List.takeWhile_cons,
              if_neg (by simp only [Bool.not_eq_true]; exact hdns)]
          have hrun : runLen isPySpace s pos =
              ((c :: w2).takeWhile isPySpace).length := by
            unfold runLen
            rw [hdrop,
              show (c :: w2) ++ v = ((c :: w2).takeWhile isPySpace ++
                (c :: w2).dropWhile isPySpace) ++ v from by rw [hsplit],
              List.append_assoc, takeWhile_all_append isPySpace _ _ hall, hw2e,
              List.cons_append, htD]
            simp
          have hplus : (quantEnds (pmatch (.cls false [.wsc])) .plus s pos).head? =
              some (pos + ((c :: w2).takeWhile isPySpace).length) := by
            rw [pmatch_wsc,
              quantEnds_plus_head isPySpace s pos (by rw [hrun]; exact hrlen), hrun]
          have h1 := HeadTo_pat _ _ _ _ _ hplus
          have hdropR : s.drop (pos + ((c :: w2).takeWhile isPySpace).length) =
              (c :: w2).dropWhile isPySpace ++ v := by
            apply drop_shift s pos _ ((c :: w2).takeWhile isPySpace) _ rfl
            rw [hdrop,
              show (c :: w2) ++ v = (c :: w2).takeWhile isPySpace ++
                ((c :: w2).dropWhile isPySpace ++ v) from by
                  rw [← List.append_assoc, hsplit]]
          have hlen_split : ((c :: w2).takeWhile isPySpace).length +
              ((c :: w2).dropWhile isPySpace).length = (c :: w2).length := by
            rw [← List.length_append, hsplit]
          have hlen2 : ((c :: w2).dropWhile isPySpace).length ≤ k := by
            simp only [List.length_cons] at hlen_split hw
            omega
          have hIH := ih ((c :: w2).dropWhile isPySpace) hlen2 v s _ hdropR
          have happ := HeadTo_append _ _ s pos _ _ [] [] h1 hIH
          rw [hato]
          have hw2ne : (c :: w2).dropWhile isPySpace ≠ [] := by rw [hw2e]; simp
          have hwse : wsExt (c :: w2) v =
              wsExt ((c :: w2).dropWhile isPySpace) v := by
            conv_lhs => rw [show (c :: w2) = (c :: w2).takeWhile isPySpace ++
              (c :: w2).dropWhile isPySpace from hsplit.symm]
            exact wsExt_append_ne _ _ v hw2ne
          rw [show pos + (c :: w2).length + wsExt (c :: w2) v =
            pos + ((c :: w2).takeWhile isPySpace).length +
              ((c :: w2).dropWhile isPySpace).length +
              wsExt ((c :: w2).dropWhile isPySpace) v from by rw [hwse]; omega]
          exact happ
      · have hspf : isPySpace c = false := by
          cases hx : isPySpace c with
          | false => rfl
          | true => exact absurd hx hsp
        have hcne : c ≠ ' ' := fun hh => hsp (by rw [hh]; decide)
        have hcol := collapseWs_cons_nonws c w2 hspf
        have hato : (collapseWs (c :: w2)).flatMap skipAtomOf =
            [RAtom.pat (.lit c) .one] ++ (collapseWs w2).flatMap skipAtomOf := by
          rw [hcol, List.flatMap_cons]
          congr 1
          unfold skipAtomOf
          rw [if_neg hcne]
        have hget : s.get? pos = some c := get?_of_drop s pos c (w2 ++ v) hdrop
        have h1 : HeadTo [RAtom.pat (.lit c) .one] s pos (pos + 1) [] := by
          apply HeadTo_pat
          exact quantEnds_one_head _ s pos c hget (by simp [pmatch])
        have hdrop2 : s.drop (pos + 1) = w2 ++ v :=
          drop_shift s pos 1 [c] (w2 ++ v) rfl hdrop
        have hIH := ih w2 (by simp only [List.length_cons] at hw; omega) v s (pos + 1)
          hdrop2
        have happ := HeadTo_append _ _ s pos (pos + 1) _ [] [] h1 hIH
        rw [hato]
        rw [show pos + (c :: w2).length + wsExt (c :: w2) v =
          pos + 1 + w2.length + wsExt w2 v from by
            rw [wsExt_cons_nonws c w2 v hspf]
            simp only [List.length_cons]
            omega]
        exact happ

theorem patSkip_errs (t : Template) (st : PatSt) (m : Marker) :
    ∃ es, (patSkip t st m).errs = st.errs ++ es := by
  unfold patSkip
  split
  · exact ⟨_, rfl⟩
  · exact ⟨[], (List.append_nil _).symm⟩

theorem patStep_errs (t : Template) (st : PatSt) (m : Marker) :
    ∃ es, (patStep t st m).errs = st.errs ++ es := by
  obtain ⟨es1, hs⟩ := patSkip_errs t st m
  unfold patStep
  split
  · exact ⟨_, rfl⟩
  · split
    · exact ⟨es1 ++ (m.InferRegex t).2, by
        show (patSkip t st m).errs ++ _ = _
        rw [hs, List.append_assoc]⟩
    · exact ⟨es1 ++ ["overlap with another marker".toList], by
        show (patSkip t st m).errs ++ _ = _
        rw [hs, List.append_assoc]⟩

theorem foldl_patStep_errs_nil (t : Template) : ∀ (L : List Marker) (st : PatSt),
    (L.foldl (patStep t) st).errs = [] → st.errs = [] := by
  intro L
  induction L with
  | nil => intro st h; exact h
  | cons m rest ih =>
    intro st h
    rw [List.foldl_cons] at h
    have h2 := ih (patStep t st m) h
    obtain ⟨es, he⟩ := patStep_errs t st m
    rw [he] at h2
    exact (List.append_eq_nil.mp h2).1

theorem validate_nil (r u : Str) (want : Int) (hr : r ≠ [])
    (h : inferRegexValidate r u want = []) :
    ∃ re pr, reCompile r = some re ∧ reMatch re u = some pr ∧
      ((pr.1 : Int) = want) := by
  unfold inferRegexValidate at h
  rw [if_pos hr] at h
  split at h
  · rename_i re heq
    split at h
    · rename_i pr heq2
      split at h
      · exact absurd h (by simp)
      · rename_i hcond
        exact ⟨re, pr, heq, heq2, not_not.mp hcond⟩
    · exact absurd h (by simp)
  · exact absurd h (by simp)

theorem steps_skip : ∀ cw : Str, StepsP (cw.flatMap tokOf) (cw.flatMap skipAtomOf) := by
  intro cw
  induction cw with
  | nil => exact StepsP_nil
  | cons ch cw2 ih =>
    rw [List.flatMap_cons, List.flatMap_cons]
    by_cases h : ch = ' '
    · rw [show tokOf ch = [Tok.tWs, Tok.tPlus] from by unfold tokOf; rw [if_pos h],
        show skipAtomOf ch = [RAtom.pat (.cls false [.wsc]) .plus] from by
          unfold skipAtomOf; rw [if_pos h]]
      exact StepsP_append _ _ _ _ steps_ws_plus ih (headQuant_tokOf_append cw2)
    · rw [show tokOf ch = [Tok.tLit ch] from by unfold tokOf; rw [if_neg h],
        show skipAtomOf ch = [RAtom.pat (.lit ch) .one] from by
          unfold skipAtomOf; rw [if_neg h]]
      exact StepsP_append _ _ _ _ (steps_lit ch) ih (headQuant_tokOf_append cw2)

theorem wsExt_nil_right (w : Str) : wsExt w [] = 0 := by
  unfold wsExt
  cases w.getLast? with
  | none => rfl
  | some c =>
    show (if isPySpace c = true then runLen isPySpace [] 0 else 0) = 0
    split <;> rfl

theorem slice_decomp (s : Str) (a b : Nat) (hab : a ≤ b) (_ : b ≤ s.length) :
    s.drop a = sliceStr s a b ++ s.drop b := by
  unfold sliceStr
  have h1 := List.take_append_drop (b - a) (s.drop a)
  have h2 : (s.drop a).drop (b - a) = s.drop b := by
    rw [List.drop_drop, show a + (b - a) = b from by omega]
  rw [h2] at h1
  exact h1.symm

theorem slice_length (s : Str) (a b : Nat) (hab : a ≤ b) (hb : b ≤ s.length) :
    (sliceStr s a b).length = b - a := by
  unfold sliceStr
  rw [List.length_take, List.length_drop]
  omega

theorem inferSkip_exact (t : Template) (start finish : Nat)
    (hsf : start ≤ finish) (hfl : finish ≤ t.sample.length)
    (herr : (t.InferSkip start finish).2 = []) :
    HeadTo ((collapseWs (sliceStr t.sample start finish)).flatMap skipAtomOf)
      t.sample start finish [] ∧
    LexP (t.InferSkip start finish).1
      ((collapseWs (sliceStr t.sample start finish)).flatMap tokOf) ∧
    StepsP ((collapseWs (sliceStr t.sample start finish)).flatMap tokOf)
      ((collapseWs (sliceStr t.sample start finish)).flatMap skipAtomOf) := by
  have hdrop : t.sample.drop start = sliceStr t.sample start finish ++
      t.sample.drop finish := slice_decomp t.sample start finish hsf hfl
  have hwlen : (sliceStr t.sample start finish).length = finish - start :=
    slice_length t.sample start finish hsf hfl
  have hlexp : LexP (t.InferSkip start finish).1
      ((collapseWs (sliceStr t.sample start finish)).flatMap tokOf) :=
    fun z => lex_skip (collapseWs (sliceStr t.sample start finish)) z
  have hsteps := steps_skip (collapseWs (sliceStr t.sample start finish))
  have hcomp : reCompile (t.InferSkip start finish).1 =
      some (toRSeq ((collapseWs (sliceStr t.sample start finish)).flatMap skipAtomOf)) :=
    reCompile_of _ _ _ hlexp hsteps
  have hmat0 : HeadTo ((collapseWs (sliceStr t.sample start finish)).flatMap skipAtomOf)
      (t.sample.drop start) 0
      (0 + (sliceStr t.sample start finish).length +
        wsExt (sliceStr t.sample start finish) (t.sample.drop finish)) [] :=
    skipConsumes (sliceStr t.sample start finish).length _ le_rfl _ _ 0 hdrop
  have hwse : wsExt (sliceStr t.sample start finish) (t.sample.drop finish) = 0 := by
    have hre : reMatch
        (toRSeq ((collapseWs (sliceStr t.sample start finish)).flatMap skipAtomOf))
        (t.sample.drop start) =
        some (0 + (sliceStr t.sample start finish).length +
          wsExt (sliceStr t.sample start finish) (t.sample.drop finish), []) := hmat0
    have hv : (t.InferSkip start finish).2 =
        (if 0 + (sliceStr t.sample start finish).length +
            wsExt (sliceStr t.sample start finish) (t.sample.drop finish) >
            finish - start then
          ["invalid boundary at column ".toList ++ Nat.toDigits 10 finish]
        else []) := by
      show (match reCompile (t.InferSkip start finish).1 with
        | some re =>
          match reMatch re (t.sample.drop start) with
          | some pr =>
            if pr.1 > finish - start then
              ["invalid boundary at column ".toList ++ Nat.toDigits 10 finish]
            else []
          | none => []
        | none => []) = _
      rw [hcomp]
      show (match reMatch (toRSeq ((collapseWs (sliceStr t.sample start finish)).flatMap
          skipAtomOf)) (t.sample.drop start) with
        | some pr =>
          if pr.1 > finish - start then
            ["invalid boundary at column ".toList ++ Nat.toDigits 10 finish]
          else []
        | none => []) = _
      rw [hre]
    have hif := hv.symm.trans herr
    split at hif
    · exact absurd hif (by simp)
    · rename_i hcond
      rw [hwlen] at hcond
      omega
  refine ⟨?_, hlexp, hsteps⟩
  have hmat : HeadTo ((collapseWs (sliceStr t.sample start finish)).flatMap skipAtomOf)
      t.sample start
      (start + (sliceStr t.sample start finish).length +
        wsExt (sliceStr t.sample start finish) (t.sample.drop finish)) [] :=
    skipConsumes (sliceStr t.sample start finish).length _ le_rfl _ _ start
      (by rw [hdrop])
  rw [show start + (sliceStr t.sample start finish).length +
      wsExt (sliceStr t.sample start finish) (t.sample.drop finish) = finish from by
    rw [hwlen, hwse]; omega] at hmat
  exact hmat

theorem lex_cls_nd (d : Char) (hd : d ≠ '\\') (z : Str) :
    lex ('[' :: '^' :: d :: ']' :: '+' :: z) =
      (lex z).map (fun ts => Tok.tClass true [.ch d] :: Tok.tPlus :: ts) := by
  rw [lex_step]
  have h2 : nextTok ('[' :: '^' :: d :: ']' :: '+' :: z) =
      some (.tClass true [.ch d], '+' :: z) := by
    simp only [nextTok]
    rw [if_neg (by simp), if_neg (by simp), if_neg (by simp), if_pos (by simp),
      if_pos (by simp)]
    show (takeClass true (d :: ']' :: '+' :: z)).map
      (fun pr => (Tok.tClass true pr.1, pr.2)) = some (.tClass true [.ch d], '+' :: z)
    rw [takeClass_d d hd ('+' :: z)]
    rfl
  rw [h2]
  show (lex ('+' :: z)).map (Tok.tClass true [.ch d] :: ·) = _
  rw [lex_step]
  have h3 : nextTok ('+' :: z) = some (.tPlus, z) := rfl
  rw [h3]
  show ((lex z).map (Tok.tPlus :: ·)).map (Tok.tClass true [.ch d] :: ·) = _
  rw [Option.map_map]
  rfl

theorem reCompile_dotplus : reCompile ['.', '+'] = some (toRSeq [.pat .dot .plus]) := rfl

theorem reCompile_nsplus :
    reCompile ['[', '^', '\\', 's', ']', '+'] =
      some (toRSeq [.pat (.cls true [.wsc]) .plus]) := by decide

theorem reCompile_backslash_class : reCompile ['[', '^', '\\', ']', '+'] = none := by
  decide

theorem reCompile_ndplus (d : Char) (hd : d ≠ '\\') :
    reCompile ['[', '^', d, ']', '+'] =
      some (toRSeq [.pat (.cls true [.ch d]) .plus]) :=
  reCompile_of _ [Tok.tClass true [.ch d], Tok.tPlus] _
    (fun z => lex_cls_nd d hd z) (steps_cls_plus true [.ch d])

theorem reMatch_single_pat (a : PAtom) (q : Quant) (u : Str) (pr : Nat × List Str)
    (h : reMatch (toRSeq [.pat a q]) u = some pr) :
    ∃ e, (quantEnds (pmatch a) q u 0).head? = some e ∧ pr = (e, []) := by
  unfold reMatch at h
  rw [seqParses_single_pat, List.head?_map] at h
  obtain ⟨e, he1, he2⟩ := Option.map_eq_some'.mp h
  exact ⟨e, he1, he2.symm⟩

theorem quantEnds_head_shift (p : Char → Bool) (q : Quant) (s : Str) (pos e : Nat)
    (h : (quantEnds p q (s.drop pos) 0).head? = some e) :
    (quantEnds p q s pos).head? = some (pos + e) := by
  rw [quantEnds_shift, List.head?_map, h]
  rfl

theorem marker_piece_of (t : Template) (m : Marker) (A : PAtom)
    (piece : Str) (toksI : List Tok)
    (hpc : (m.InferRegex t).1 = piece)
    (hcomp : reCompile piece = some (toRSeq [.pat A .plus]))
    (hlexw : ∀ z, lex (('(' :: piece ++ [')']) ++ z) =
      (lex z).map ((Tok.tOpen true :: toksI ++ [Tok.tClose]) ++ ·))
    (hstepsI : StepsP toksI [.pat A .plus])
    (hpne : piece ≠ [])
    (hval : inferRegexValidate piece (t.sample.drop m.start)
      ((m.finish : Int) - (m.start : Int)) = []) :
    m.start ≤ m.finish ∧
    ∃ toks atoms, toks.head? = some (Tok.tOpen true) ∧
      LexP ('(' :: (m.InferRegex t).1 ++ [')']) toks ∧ StepsP toks atoms ∧
      HeadTo atoms t.sample m.start m.finish
        [sliceStr t.sample m.start m.finish] := by
  obtain ⟨re, pr, hc, hmt, hvint⟩ := validate_nil piece _ _ hpne hval
  rw [hcomp] at hc
  have hre : re = toRSeq [.pat A .plus] := (Option.some.inj hc).symm
  subst hre
  obtain ⟨e, hq, hpr⟩ := reMatch_single_pat A .plus _ pr hmt
  subst hpr
  have hvint2 : (e : Int) = (m.finish : Int) - (m.start : Int) := hvint
  have hsf : m.start ≤ m.finish := by omega
  have he : m.start + e = m.finish := by omega
  refine ⟨hsf, Tok.tOpen true :: toksI ++ [Tok.tClose],
    [RAtom.grp true (toRSeq [.pat A .plus])], rfl, ?_, ?_, ?_⟩
  · intro z
    rw [hpc]
    exact hlexw z
  · exact steps_grp toksI [.pat A .plus] hstepsI
  · have hq2 := quantEnds_head_shift _ _ t.sample m.start e hq
    have hmk := markerHeadTo A .plus t.sample m.start e hq2
    rw [he] at hmk
    exact hmk

theorem marker_piece (t : Template) (m : Marker) (hreg : m.regex = [])
    (hfl : m.finish ≤ t.sample.length)
    (herr : (m.InferRegex t).2 = []) :
    m.start ≤ m.finish ∧
    ∃ toks atoms, toks.head? = some (Tok.tOpen true) ∧
      LexP ('(' :: (m.InferRegex t).1 ++ [')']) toks ∧ StepsP toks atoms ∧
      HeadTo atoms t.sample m.start m.finish
        [sliceStr t.sample m.start m.finish] := by
  have h0 : (m.InferRegex t).2 = (inferRegexRaw m t).2 ++
      inferRegexValidate (inferRegexRaw m t).1 (t.sample.drop m.start)
        ((m.finish : Int) - (m.start : Int)) := rfl
  obtain ⟨hraw, hval⟩ := List.append_eq_nil.mp (h0.symm.trans herr)
  have hne : ¬(m.regex ≠ []) := by simp [hreg]
  by_cases hA : t.sample.length = m.finish
  · have hpcraw : (inferRegexRaw m t).1 = ['.', '+'] := by
      unfold inferRegexRaw
      rw [if_neg hne, if_pos hA]
    have hpc : (m.InferRegex t).1 = ['.', '+'] := hpcraw
    rw [hpcraw] at hval
    exact marker_piece_of t m .dot ['.', '+'] [Tok.tDot, Tok.tPlus] hpc
      reCompile_dotplus (fun z => lex_grp_dot z) steps_dot_plus (by simp) hval
  · by_cases hB : t.sample.length > m.finish
    · by_cases hcnt : (sliceStr t.sample m.start m.finish).count
        (t.sample.getD m.finish ' ') = 0
      · by_cases hws : isPySpace (t.sample.getD m.finish ' ') = true
        · have hpcraw : (inferRegexRaw m t).1 = ['[', '^', '\\', 's', ']', '+'] := by
            unfold inferRegexRaw
            rw [if_neg hne, if_neg hA, if_pos hB]
            show (if (sliceStr t.sample m.start m.finish).count
                (t.sample.getD m.finish ' ') = 0 then
              (['[', '^'] ++ (if isPySpace (t.sample.getD m.finish ' ') then
                ['\\', 's'] else [t.sample.getD m.finish ' ']) ++ [']', '+'],
                ([] : List Str))
              else ([], ["delimiter appears in the marker".toList])).1 = _
            rw [if_pos hcnt, if_pos hws]
            rfl
          have hpc : (m.InferRegex t).1 = ['[', '^', '\\', 's', ']', '+'] := hpcraw
          rw [hpcraw] at hval
          exact marker_piece_of t m (.cls true [.wsc]) ['[', '^', '\\', 's', ']', '+']
            [Tok.tClass true [.wsc], Tok.tPlus] hpc reCompile_nsplus
            (fun z => lex_grp_ns z) (steps_cls_plus true [.wsc]) (by simp) hval
        · by_cases hd : t.sample.getD m.finish ' ' = '\\'
          · have hpcraw : (inferRegexRaw m t).1 = ['[', '^', '\\', ']', '+'] := by
              unfold inferRegexRaw
              rw [if_neg hne, if_neg hA, if_pos hB]
              show (if (sliceStr t.sample m.start m.finish).count
                  (t.sample.getD m.finish ' ') = 0 then
                (['[', '^'] ++ (if isPySpace (t.sample.getD m.finish ' ') then
                  ['\\', 's'] else [t.sample.getD m.finish ' ']) ++ [']', '+'],
                  ([] : List Str))
                else ([], ["delimiter appears in the marker".toList])).1 = _
              rw [if_pos hcnt, if_neg hws, hd]
              rfl
            rw [hpcraw] at hval
            obtain ⟨re, pr, hc, _, _⟩ := validate_nil _ _ _ (by simp) hval
            rw [reCompile_backslash_class] at hc
            exact Option.noConfusion hc
          · have hpcraw : (inferRegexRaw m t).1 =
                ['[', '^', t.sample.getD m.finish ' ', ']', '+'] := by
              unfold inferRegexRaw
              rw [if_neg hne, if_neg hA, if_pos hB]
              show (if (sliceStr t.sample m.start m.finish).count
                  (t.sample.getD m.finish ' ') = 0 then
                (['[', '^'] ++ (if isPySpace (t.sample.getD m.finish ' ') then
                  ['\\', 's'] else [t.sample.getD m.finish ' ']) ++ [']', '+'],
                  ([] : List Str))
                else ([], ["delimiter appears in the marker".toList])).1 = _
              rw [if_pos hcnt, if_neg hws]
              rfl
            have hpc : (m.InferRegex t).1 =
                ['[', '^', t.sample.getD m.finish ' ', ']', '+'] := hpcraw
            rw [hpcraw] at hval
            exact marker_piece_of t m (.cls true [.ch (t.sample.getD m.finish ' ')])
              ['[', '^', t.sample.getD m.finish ' ', ']', '+']
              [Tok.tClass true [.ch (t.sample.getD m.finish ' ')], Tok.tPlus] hpc
              (reCompile_ndplus _ hd) (fun z => lex_grp_nd _ hd z)
              (steps_cls_plus true [.ch (t.sample.getD m.finish ' ')]) (by simp) hval
      · have hraw2 : (inferRegexRaw m t).2 =
            ["delimiter appears in the marker".toList] := by
          unfold inferRegexRaw
          rw [if_neg hne, if_neg hA, if_pos hB]
          show (if (sliceStr t.sample m.start m.finish).count
              (t.sample.getD m.finish ' ') = 0 then
            (['[', '^'] ++ (if isPySpace (t.sample.getD m.finish ' ') then
              ['\\', 's'] else [t.sample.getD m.finish ' ']) ++ [']', '+'],
              ([] : List Str))
            else ([], ["delimiter appears in the marker".toList])).2 = _
          rw [if_neg hcnt]
        rw [hraw2] at hraw
        exact absurd hraw (by simp)
    · exact absurd hfl (by omega)

theorem headQuant_head_open (toks : List Tok) (h : toks.head? = some (Tok.tOpen true)) :
    ∀ b : List Tok, headQuant b = false → headQuant (toks ++ b) = false := by
  intro b _
  cases toks with
  | nil => exact Option.noConfusion h
  | cons x t =>
    have hx : x = Tok.tOpen true := by simpa using h
    subst hx
    rfl

theorem rseqToList_toRSeq (l : List RAtom) : rseqToList (toRSeq l) = l := by
  induction l with
  | nil => rfl
  | cons a r ih =>
    show a :: rseqToList (toRSeq r) = a :: r
    rw [ih]

theorem parse_sim_nil (cur1 : List RAtom) (stk1 : List (Bool × List RAtom)) (out : RSeq)
    (h : parseLoop [] cur1 stk1 = some out) (b : List Tok)
    (ext : List (Bool × List RAtom)) :
    parseLoop ([] ++ b) cur1 (stk1 ++ ext) =
      parseLoop b ((rseqToList out).reverse) ext := by
  cases stk1 with
  | nil =>
    have hout : out = toRSeq cur1.reverse := (Option.some.inj h).symm
    subst hout
    show parseLoop b cur1 ext =
      parseLoop b ((rseqToList (toRSeq cur1.reverse)).reverse) ext
    rw [rseqToList_toRSeq, List.reverse_reverse]
  | cons fr stk2 => exact Option.noConfusion h

theorem parse_sim : ∀ (n : Nat) (toks : List Tok), toks.length ≤ n →
    ∀ (cur1 : List RAtom) (stk1 : List (Bool × List RAtom)) (out : RSeq),
    parseLoop toks cur1 stk1 = some out →
    ∀ (b : List Tok) (ext : List (Bool × List RAtom)), headQuant b = false →
      parseLoop (toks ++ b) cur1 (stk1 ++ ext) =
        parseLoop b ((rseqToList out).reverse) ext := by
  intro n
  induction n with
  | zero =>
    intro toks hlen cur1 stk1 out h b ext hb
    have htn : toks = [] := List.eq_nil_of_length_eq_zero (by omega)
    subst htn
    exact parse_sim_nil cur1 stk1 out h b ext
  | succ k ih =>
    intro toks hlen cur1 stk1 out h b ext hb
    cases toks with
    | nil => exact parse_sim_nil cur1 stk1 out h b ext
    | cons t rest =>
      cases t with
      | tLit c =>
        cases rest with
        | nil =>
          have h2 : parseLoop ([] : List Tok) (.pat (.lit c) .one :: cur1) stk1 =
              some out := h
          cases b with
          | nil => exact ih [] (by simp) _ _ _ h2 [] ext hb
          | cons tb bt =>
            cases tb <;> first
              | exact ih [] (by simp) _ _ _ h2 _ ext hb
              | simp [headQuant] at hb
        | cons t2 rest2 =>
          cases t2 <;> first
            | exact ih rest2 (by simp only [List.length_cons] at hlen ⊢; omega)
                _ _ _ h b ext hb
            | exact ih (_ :: rest2) (by simp only [List.length_cons] at hlen ⊢; omega)
                _ _ _ h b ext hb
      | tWs =>
        cases rest with
        | nil =>
          have h2 : parseLoop ([] : List Tok)
              (.pat (.cls false [.wsc]) .one :: cur1) stk1 = some out := h
          cases b with
          | nil => exact ih [] (by simp) _ _ _ h2 [] ext hb
          | cons tb bt =>
            cases tb <;> first
              | exact ih [] (by simp) _ _ _ h2 _ ext hb
              | simp [headQuant] at hb
        | cons t2 rest2 =>
          cases t2 <;> first
            | exact ih rest2 (by simp only [List.length_cons] at hlen ⊢; omega)
                _ _ _ h b ext hb
            | exact ih (_ :: rest2) (by simp only [List.length_cons] at hlen ⊢; omega)
                _ _ _ h b ext hb
      | tClass neg items =>
        cases rest with
        | nil =>
          have h2 : parseLoop ([] : List Tok)
              (.pat (.cls neg items) .one :: cur1) stk1 = some out := h
          cases b with
          | nil => exact ih [] (by simp) _ _ _ h2 [] ext hb
          | cons tb bt =>
            cases tb <;> first
              | exact ih [] (by simp) _ _ _ h2 _ ext hb
              | simp [headQuant] at hb
        | cons t2 rest2 =>
          cases t2 <;> first
            | exact ih rest2 (by simp only [List.length_cons] at hlen ⊢; omega)
                _ _ _ h b ext hb
            | exact ih (_ :: rest2) (by simp only [List.length_cons] at hlen ⊢; omega)
                _ _ _ h b ext hb
      | tDot =>
        cases rest with
        | nil =>
          have h2 : parseLoop ([] : List Tok) (.pat .dot .one :: cur1) stk1 =
              some out := h
          cases b with
          | nil => exact ih [] (by simp) _ _ _ h2 [] ext hb
          | cons tb bt =>
            cases tb <;> first
              | exact ih [] (by simp) _ _ _ h2 _ ext hb
              | simp [headQuant] at hb
        | cons t2 rest2 =>
          cases t2 <;> first
            | exact ih rest2 (by simp only [List.length_cons] at hlen ⊢; omega)
                _ _ _ h b ext hb
            | exact ih (_ :: rest2) (by simp only [List.length_cons] at hlen ⊢; omega)
                _ _ _ h b ext hb
      | tOpen capturing =>
        have h2 : parseLoop rest [] ((capturing, cur1) :: stk1) = some out := h
        exact ih rest (by simp only [List.length_cons] at hlen; omega) _ _ _ h2 b ext hb
      | tClose =>
        cases stk1 with
        | nil => exact Option.noConfusion h
        | cons fr stk2 =>
          obtain ⟨cap, outer⟩ := fr
          have h2 : (if headQuant rest = true then none
              else parseLoop rest (.grp cap (toRSeq cur1.reverse) :: outer) stk2) =
              some out := h
          by_cases hq : headQuant rest = true
          · rw [if_pos hq] at h2
            exact Option.noConfusion h2
          · rw [if_neg hq] at h2
            have hqf : headQuant rest = false := by
              cases hx : headQuant rest with
              | false => rfl
              | true => exact absurd hx hq
            have hq2 : headQuant (rest ++ b) = false := by
              cases rest with
              | nil => exact hb
              | cons tr rr => cases tr <;> first | rfl | simp [headQuant] at hqf
            show (if headQuant (rest ++ b) = true then none
              else parseLoop (rest ++ b) (.grp cap (toRSeq cur1.reverse) :: outer)
                (stk2 ++ ext)) = parseLoop b ((rseqToList out).reverse) ext
            rw [hq2, if_neg (by simp)]
            exact ih rest (by simp only [List.length_cons] at hlen; omega)
              _ _ _ h2 b ext hb
      | tEol =>
        have h2 : (if headQuant rest = true then none
            else parseLoop rest (.eol :: cur1) stk1) = some out := h
        by_cases hq : headQuant rest = true
        · rw [if_pos hq] at h2
          exact Option.noConfusion h2
        · rw [if_neg hq] at h2
          have hqf : headQuant rest = false := by
            cases hx : headQuant rest with
            | false => rfl
            | true => exact absurd hx hq
          have hq2 : headQuant (rest ++ b) = false := by
            cases rest with
            | nil => exact hb
            | cons tr rr => cases tr <;> first | rfl | simp [headQuant] at hqf
          show (if headQuant (rest ++ b) = true then none
            else parseLoop (rest ++ b) (.eol :: cur1) (stk1 ++ ext)) =
            parseLoop b ((rseqToList out).reverse) ext
          rw [hq2, if_neg (by simp)]
          exact ih rest (by simp only [List.length_cons] at hlen; omega)
            _ _ _ h2 b ext hb
      | tPlus => exact Option.noConfusion h
      | tStar => exact Option.noConfusion h

theorem takeClass_cons (first : Bool) (c : Char) (rest : Str) :
    takeClass first (c :: rest) =
      if c = ']' then
        if first then (takeClass false rest).map (consIt (.ch ']')) else some ([], rest)
      else if c = '\\' then
        match rest with
        | [] => none
        | d :: rest2 =>
          if d = 's' then (takeClass false rest2).map (consIt .wsc)
          else if isWordCh d then none
          else (takeClass false rest2).map (consIt (.ch d))
      else if c = '-' then
        if first ∨ rest.head? = some ']' then
          (takeClass false rest).map (consIt (.ch '-'))
        else none
      else (takeClass false rest).map (consIt (.ch c)) := by
  rw [takeClass.eq_def]
  rfl

theorem takeClass_stable : ∀ (n : Nat) (r : Str), r.length ≤ n →
    ∀ (first : Bool) (pr : List CItem × Str), takeClass first r = some pr →
    ∀ z : Str, takeClass first (r ++ z) = some (pr.1, pr.2 ++ z) := by
  intro n
  induction n with
  | zero =>
    intro r hlen first pr h z
    cases r with
    | nil => exact Option.noConfusion h
    | cons c rest => simp only [List.length_cons] at hlen; omega
  | succ k ih =>
    intro r hlen first pr h z
    cases r with
    | nil => exact Option.noConfusion h
    | cons c rest =>
      have hbnd : rest.length ≤ k := by
        simp only [List.length_cons] at hlen
        omega
      rw [takeClass_cons] at h
      rw [List.cons_append, takeClass_cons]
      by_cases h1 : c = ']'
      · rw [if_pos h1] at h ⊢
        by_cases h2 : first = true
        · rw [if_pos h2] at h ⊢
          obtain ⟨pr0, hpr0, hmap⟩ := Option.map_eq_some'.mp h
          rw [ih rest hbnd false pr0 hpr0 z, ← hmap]
          rfl
        · rw [if_neg h2] at h ⊢
          cases h
          rfl
      · rw [if_neg h1] at h ⊢
        by_cases h2 : c = '\\'
        · rw [if_pos h2] at h ⊢
          cases rest with
          | nil => exact Option.noConfusion h
          | cons d rest2 =>
            have h' : (if d = 's' then (takeClass false rest2).map (consIt .wsc)
                else if isWordCh d then none
                else (takeClass false rest2).map (consIt (.ch d))) = some pr := h
            rw [List.cons_append]
            show (if d = 's' then (takeClass false (rest2 ++ z)).map (consIt .wsc)
              else if isWordCh d then none
              else (takeClass false (rest2 ++ z)).map (consIt (.ch d))) =
              some (pr.1, pr.2 ++ z)
            have hbnd2 : rest2.length ≤ k := by
              simp only [List.length_cons] at hbnd
              omega
            by_cases h3 : d = 's'
            · rw [if_pos h3] at h' ⊢
              obtain ⟨pr0, hpr0, hmap⟩ := Option.map_eq_some'.mp h'
              rw [ih rest2 hbnd2 false pr0 hpr0 z, ← hmap]
              rfl
            · rw [if_neg h3] at h' ⊢
              by_cases h4 : isWordCh d = true
              · rw [if_pos h4] at h'
                exact Option.noConfusion h'
              · rw [if_neg h4] at h' ⊢
                obtain ⟨pr0, hpr0, hmap⟩ := Option.map_eq_some'.mp h'
                rw [ih rest2 hbnd2 false pr0 hpr0 z, ← hmap]
                rfl
        · rw [if_neg h2] at h ⊢
          by_cases h3 : c = '-'
          · rw [if_pos h3] at h ⊢
            by_cases h4 : first = true ∨ rest.head? = some ']'
            · rw [if_pos h4] at h
              have h5 : first = true ∨ (rest ++ z).head? = some ']' := by
                rcases h4 with h4 | h4
                · exact Or.inl h4
                · cases rest with
                  | nil => exact absurd h4 (by simp)
                  | cons x xs => exact Or.inr (by simpa using h4)
              rw [if_pos h5]
              obtain ⟨pr0, hpr0, hmap⟩ := Option.map_eq_some'.mp h
              rw [ih rest hbnd false pr0 hpr0 z, ← hmap]
              rfl
            · rw [if_neg h4] at h
              exact Option.noConfusion h
          · rw [if_neg h3] at h ⊢
            obtain ⟨pr0, hpr0, hmap⟩ := Option.map_eq_some'.mp h
            rw [ih rest hbnd false pr0 hpr0 z, ← hmap]
            rfl

theorem nextTok_stable (s : Str) (pr : Tok × Str) (h : nextTok s = some pr)
    (z : Str) (hz : ¬ z.head? = some '?') :
    nextTok (s ++ z) = some (pr.1, pr.2 ++ z) := by
  cases s with
  | nil => exact Option.noConfusion h
  | cons c rest =>
    rw [List.cons_append]
    simp only [nextTok] at h ⊢
    by_cases h1 : c = '\\'
    · rw [if_pos h1] at h ⊢
      by_cases h2 : rest.head? = some 's'
      · cases rest with
        | nil => simp at h2
        | cons x xs =>
          have hx : x = 's' := by simpa using h2
          rw [if_pos h2] at h
          cases h
          have h2' : (x :: (xs ++ z)).head? = some 's' := by simp [hx]
          simp only [List.cons_append]
          rw [if_pos h2']
          rfl
      · rw [if_neg h2] at h
        by_cases h3 : rest.take 3 = ['0', '0', '0']
        · rw [if_pos h3] at h
          cases h
          cases rest with
          | nil => simp at h3
          | cons x xs =>
            cases xs with
            | nil => simp at h3
            | cons y ys =>
              cases ys with
              | nil => simp at h3
              | cons w ws =>
                have hxyz : x = '0' ∧ y = '0' ∧ w = '0' := by
                  simpa using h3
                obtain ⟨hx, hy, hw⟩ := hxyz
                subst hx
                subst hy
                subst hw
                simp only [List.cons_append]
                rw [if_neg (by simp : ¬ (('0':Char) :: ('0' :: '0' :: (ws ++ z))).head? = some 's')]
                rw [if_pos (by simp [List.take_succ_cons] :
                  (('0':Char) :: ('0' :: '0' :: (ws ++ z))).take 3 = ['0', '0', '0'])]
                rfl
        · rw [if_neg h3] at h
          cases rest with
          | nil => simp at h
          | cons x xs =>
            rw [if_neg (by simp : ¬ (x :: xs) = [])] at h
            by_cases h5 : isWordCh ((x :: xs).headD ' ') = true
            · rw [if_pos h5] at h
              exact Option.noConfusion h
            · rw [if_neg h5] at h
              cases h
              have hxw : ¬ isWordCh x = true := by simpa using h5
              have hxs : ¬ x = 's' := by simpa using h2
              simp only [List.cons_append]
              rw [if_neg (show ¬ (x :: (xs ++ z)).head? = some 's' by simp [hxs])]
              rw [if_neg (show ¬ (x :: (xs ++ z)).take 3 = ['0', '0', '0'] by
                intro hc
                simp [List.take_succ_cons] at hc
                rw [hc.1] at hxw
                exact hxw (by decide))]
              rw [if_neg (by simp : ¬ (x :: (xs ++ z)) = [])]
              rw [if_neg (show ¬ isWordCh ((x :: (xs ++ z)).headD ' ') = true by
                simpa using hxw)]
              rfl
    · rw [if_neg h1] at h ⊢
      by_cases h6 : c = '('
      · rw [if_pos h6] at h ⊢
        by_cases h7 : rest.take 2 = ['?', ':']
        · rw [if_pos h7] at h
          cases h
          cases rest with
          | nil => simp at h7
          | cons x xs =>
            cases xs with
            | nil => simp at h7
            | cons y ys =>
              have hxy : x = '?' ∧ y = ':' := by simpa using h7
              obtain ⟨hx, hy⟩ := hxy
              subst hx
              subst hy
              simp only [List.cons_append]
              rw [if_pos (by simp [List.take_succ_cons] :
                (('?':Char) :: (':' :: (ys ++ z))).take 2 = ['?', ':'])]
              rfl
        · rw [if_neg h7] at h
          by_cases h8 : rest.head? = some '?'
          · rw [if_pos h8] at h
            exact Option.noConfusion h
          · rw [if_neg h8] at h
            cases h
            cases rest with
            | nil =>
              simp only [List.nil_append]
              rw [if_neg (show ¬ z.take 2 = ['?', ':'] by
                intro hc
                cases z with
                | nil => simp at hc
                | cons w ws =>
                  apply hz
                  simp [List.take_succ_cons] at hc
                  simp [hc.1])]
              rw [if_neg hz]
            | cons x xs =>
              have hx : ¬ x = '?' := by simpa using h8
              simp only [List.cons_append]
              rw [if_neg (show ¬ (x :: (xs ++ z)).take 2 = ['?', ':'] by
                intro hc
                simp [List.take_succ_cons] at hc
                exact hx hc.1)]
              rw [if_neg (show ¬ (x :: (xs ++ z)).head? = some '?' by simp [hx])]
      · rw [if_neg h6] at h ⊢
        by_cases h9 : c = ')'
        · rw [if_pos h9] at h ⊢
          cases h
          rfl
        · rw [if_neg h9] at h ⊢
          by_cases hA : c = '['
          · rw [if_pos hA] at h ⊢
            by_cases hB : rest.head? = some '^'
            · cases rest with
              | nil => simp at hB
              | cons x xs =>
                have hx : x = '^' := by simpa using hB
                rw [if_pos hB] at h
                simp only [List.tail_cons] at h
                obtain ⟨pr0, hpr0, hmap⟩ := Option.map_eq_some'.mp h
                have hst := takeClass_stable xs.length xs le_rfl true pr0 hpr0 z
                have hB' : (x :: (xs ++ z)).head? = some '^' := by simp [hx]
                simp only [List.cons_append]
                rw [if_pos hB']
                simp only [List.tail_cons]
                rw [hst, ← hmap]
                rfl
            · rw [if_neg hB] at h
              obtain ⟨pr0, hpr0, hmap⟩ := Option.map_eq_some'.mp h
              cases rest with
              | nil =>
                have hcontra : (none : Option (List CItem × Str)) = some pr0 := hpr0
                exact Option.noConfusion hcontra
              | cons x xs =>
                have hx : ¬ x = '^' := by simpa using hB
                have hst := takeClass_stable (x :: xs).length (x :: xs) le_rfl true pr0 hpr0 z
                simp only [List.cons_append] at hst ⊢
                rw [if_neg (show ¬ (x :: (xs ++ z)).head? = some '^' by simp [hx])]
                rw [hst, ← hmap]
                rfl
          · rw [if_neg hA] at h ⊢
            by_cases hC : c = '.'
            · rw [if_pos hC] at h ⊢
              cases h
              rfl
            · rw [if_neg hC] at h ⊢
              by_cases hD : c = '+'
              · rw [if_pos hD] at h ⊢
                cases h
                rfl
              · rw [if_neg hD] at h ⊢
                by_cases hE : c = '*'
                · rw [if_pos hE] at h ⊢
                  cases h
                  rfl
                · rw [if_neg hE] at h ⊢
                  by_cases hF : c = '$'
                  · rw [if_pos hF] at h ⊢
                    cases h
                    rfl
                  · rw [if_neg hF] at h ⊢
                    by_cases hG : c = '|' ∨ c = '?' ∨ c = '^' ∨ c = '\x7b' ∨ c = '\x7d'
                    · rw [if_pos hG] at h
                      exact Option.noConfusion h
                    · rw [if_neg hG] at h ⊢
                      cases h
                      rfl

theorem lex_stable : ∀ (n : Nat) (s : Str), s.length ≤ n →
    ∀ toks, lex s = some toks → ∀ z, ¬ z.head? = some '?' →
    lex (s ++ z) = (lex z).map (toks ++ ·) := by
  intro n
  induction n with
  | zero =>
    intro s hlen toks h z hz
    have hs : s = [] := List.eq_nil_of_length_eq_zero (Nat.le_zero.mp hlen)
    subst hs
    have htoks : toks = [] := by
      have h' : some ([] : List Tok) = some toks := h
      exact (Option.some.inj h').symm
    subst htoks
    show lex z = (lex z).map ([] ++ ·)
    cases lex z with
    | none => rfl
    | some ts => simp
  | succ k ih =>
    intro s hlen toks h z hz
    cases s with
    | nil =>
      have htoks : toks = [] := by
        have h' : some ([] : List Tok) = some toks := h
        exact (Option.some.inj h').symm
      subst htoks
      show lex z = (lex z).map ([] ++ ·)
      cases lex z with
      | none => rfl
      | some ts => simp
    | cons c rest =>
      rw [lex_step] at h
      cases hnt : nextTok (c :: rest) with
      | none =>
        rw [hnt] at h
        exact Option.noConfusion h
      | some pr =>
        rw [hnt] at h
        have h' : (lex pr.2).map (pr.1 :: ·) = some toks := h
        obtain ⟨toks2, htoks2, hmap⟩ := Option.map_eq_some'.mp h'
        have hshr := nextTok_shrink _ _ hnt
        have hstep := nextTok_stable (c :: rest) pr hnt z hz
        simp only [List.cons_append] at hstep
        rw [show (c :: rest) ++ z = c :: (rest ++ z) from rfl, lex_step, hstep]
        show (lex (pr.2 ++ z)).map (pr.1 :: ·) = (lex z).map (toks ++ ·)
        have hbnd : pr.2.length ≤ k := by
          simp only [List.length_cons] at hlen hshr
          omega
        rw [ih pr.2 hbnd toks2 htoks2 z hz, Option.map_map, ← hmap]
        rfl

theorem toRSeq_rseqToList : ∀ re : RSeq, toRSeq (rseqToList re) = re
  | .nil => rfl
  | .cons a r => by
    show RSeq.cons a (toRSeq (rseqToList r)) = RSeq.cons a r
    rw [toRSeq_rseqToList r]

theorem extCur_cons (stk1 : List (Bool × List RAtom)) (a : RAtom)
    (cur1 curE : List RAtom) :
    extCur stk1 (a :: cur1) curE = a :: extCur stk1 cur1 curE := by
  cases stk1 <;> simp [extCur]

theorem extStk_push (cap : Bool) (cur1 : List RAtom)
    (stk1 : List (Bool × List RAtom)) (curE : List RAtom) :
    extStk ((cap, cur1) :: stk1) curE =
      (cap, extCur stk1 cur1 curE) :: extStk stk1 curE := by
  cases stk1 <;> simp [extStk, extCur]

theorem parse_sim2_nil (cur1 : List RAtom) (stk1 : List (Bool × List RAtom))
    (out : RSeq) (h : parseLoop [] cur1 stk1 = some out) (b : List Tok)
    (curE : List RAtom) (ext : List (Bool × List RAtom)) :
    parseLoop ([] ++ b) (extCur stk1 cur1 curE) (extStk stk1 curE ++ ext) =
      parseLoop b ((rseqToList out).reverse ++ curE) ext := by
  cases stk1 with
  | cons f fs => exact Option.noConfusion h
  | nil =>
    have h' : some (toRSeq cur1.reverse) = some out := h
    have hout : out = toRSeq cur1.reverse := (Option.some.inj h').symm
    subst hout
    show parseLoop b (cur1 ++ curE) ext =
      parseLoop b ((rseqToList (toRSeq cur1.reverse)).reverse ++ curE) ext
    rw [rseqToList_toRSeq, List.reverse_reverse]

theorem parse_sim2 : ∀ (n : Nat) (toks : List Tok), toks.length ≤ n →
    ∀ (cur1 : List RAtom) (stk1 : List (Bool × List RAtom)) (out : RSeq),
    parseLoop toks cur1 stk1 = some out →
    ∀ (b : List Tok) (curE : List RAtom) (ext : List (Bool × List RAtom)),
    headQuant b = false →
      parseLoop (toks ++ b) (extCur stk1 cur1 curE) (extStk stk1 curE ++ ext) =
        parseLoop b ((rseqToList out).reverse ++ curE) ext := by
  intro n
  induction n with
  | zero =>
    intro toks hlen cur1 stk1 out h b curE ext hb
    have htn : toks = [] := List.eq_nil_of_length_eq_zero (by omega)
    subst htn
    exact parse_sim2_nil cur1 stk1 out h b curE ext
  | succ k ih =>
    intro toks hlen cur1 stk1 out h b curE ext hb
    cases toks with
    | nil => exact parse_sim2_nil cur1 stk1 out h b curE ext
    | cons t rest =>
      cases t with
      | tLit c =>
        cases rest with
        | nil =>
          have h2 : parseLoop ([] : List Tok) (.pat (.lit c) .one :: cur1) stk1 =
              some out := h
          cases b with
          | nil =>
            have h3 := ih [] (by simp) _ _ _ h2 [] curE ext hb
            rw [extCur_cons] at h3
            exact h3
          | cons tb bt =>
            cases tb <;> first
              | (have h3 := ih [] (by simp) _ _ _ h2 _ curE ext hb
                 rw [extCur_cons] at h3
                 exact h3)
              | simp [headQuant] at hb
        | cons t2 rest2 =>
          cases t2 <;> first
            | (have h3 := ih rest2 (by simp only [List.length_cons] at hlen ⊢; omega)
                  _ _ _ h b curE ext hb
               rw [extCur_cons] at h3
               exact h3)
            | (have h3 := ih (_ :: rest2)
                  (by simp only [List.length_cons] at hlen ⊢; omega)
                  _ _ _ h b curE ext hb
               rw [extCur_cons] at h3
               exact h3)
      | tWs =>
        cases rest with
        | nil =>
          have h2 : parseLoop ([] : List Tok) (.pat (.cls false [.wsc]) .one :: cur1) stk1 =
              some out := h
          cases b with
          | nil =>
            have h3 := ih [] (by simp) _ _ _ h2 [] curE ext hb
            rw [extCur_cons] at h3
            exact h3
          | cons tb bt =>
            cases tb <;> first
              | (have h3 := ih [] (by simp) _ _ _ h2 _ curE ext hb
                 rw [extCur_cons] at h3
                 exact h3)
              | simp [headQuant] at hb
        | cons t2 rest2 =>
          cases t2 <;> first
            | (have h3 := ih rest2 (by simp only [List.length_cons] at hlen ⊢; omega)
                  _ _ _ h b curE ext hb
               rw [extCur_cons] at h3
               exact h3)
            | (have h3 := ih (_ :: rest2)
                  (by simp only [List.length_cons] at hlen ⊢; omega)
                  _ _ _ h b curE ext hb
               rw [extCur_cons] at h3
               exact h3)
      | tClass neg items =>
        cases rest with
        | nil =>
          have h2 : parseLoop ([] : List Tok) (.pat (.cls neg items) .one :: cur1) stk1 =
              some out := h
          cases b with
          | nil =>
            have h3 := ih [] (by simp) _ _ _ h2 [] curE ext hb
            rw [extCur_cons] at h3
            exact h3
          | cons tb bt =>
            cases tb <;> first
              | (have h3 := ih [] (by simp) _ _ _ h2 _ curE ext hb
                 rw [extCur_cons] at h3
                 exact h3)
              | simp [headQuant] at hb
        | cons t2 rest2 =>
          cases t2 <;> first
            | (have h3 := ih rest2 (by simp only [List.length_cons] at hlen ⊢; omega)
                  _ _ _ h b curE ext hb
               rw [extCur_cons] at h3
               exact h3)
            | (have h3 := ih (_ :: rest2)
                  (by simp only [List.length_cons] at hlen ⊢; omega)
                  _ _ _ h b curE ext hb
               rw [extCur_cons] at h3
               exact h3)
      | tDot =>
        cases rest with
        | nil =>
          have h2 : parseLoop ([] : List Tok) (.pat .dot .one :: cur1) stk1 =
              some out := h
          cases b with
          | nil =>
            have h3 := ih [] (by simp) _ _ _ h2 [] curE ext hb
            rw [extCur_cons] at h3
            exact h3
          | cons tb bt =>
            cases tb <;> first
              | (have h3 := ih [] (by simp) _ _ _ h2 _ curE ext hb
                 rw [extCur_cons] at h3
                 exact h3)
              | simp [headQuant] at hb
        | cons t2 rest2 =>
          cases t2 <;> first
            | (have h3 := ih rest2 (by simp only [List.length_cons] at hlen ⊢; omega)
                  _ _ _ h b curE ext hb
               rw [extCur_cons] at h3
               exact h3)
            | (have h3 := ih (_ :: rest2)
                  (by simp only [List.length_cons] at hlen ⊢; omega)
                  _ _ _ h b curE ext hb
               rw [extCur_cons] at h3
               exact h3)
      | tOpen capturing =>
        have h2 : parseLoop rest [] ((capturing, cur1) :: stk1) = some out := h
        have h3 := ih rest (by simp only [List.length_cons] at hlen; omega)
          _ _ _ h2 b curE ext hb
        rw [extStk_push] at h3
        exact h3
      | tClose =>
        cases stk1 with
        | nil => exact Option.noConfusion h
        | cons fr stk2 =>
          obtain ⟨cap, outer⟩ := fr
          have h2 : (if headQuant rest = true then none
              else parseLoop rest (.grp cap (toRSeq cur1.reverse) :: outer) stk2) =
              some out := h
          by_cases hq : headQuant rest = true
          · rw [if_pos hq] at h2
            exact Option.noConfusion h2
          · rw [if_neg hq] at h2
            have hqf : headQuant rest = false := by
              cases hx : headQuant rest with
              | false => rfl
              | true => exact absurd hx hq
            have hq2 : headQuant (rest ++ b) = false := by
              cases rest with
              | nil => exact hb
              | cons tr rr => cases tr <;> first | rfl | simp [headQuant] at hqf
            rw [show extCur ((cap, outer) :: stk2) cur1 curE = cur1 from rfl,
              extStk_push]
            show (if headQuant (rest ++ b) = true then none
              else parseLoop (rest ++ b)
                (.grp cap (toRSeq cur1.reverse) :: extCur stk2 outer curE)
                (extStk stk2 curE ++ ext)) =
              parseLoop b ((rseqToList out).reverse ++ curE) ext
            rw [hq2, if_neg (by simp)]
            have h3 := ih rest (by simp only [List.length_cons] at hlen; omega)
              _ _ _ h2 b curE ext hb
            rw [extCur_cons] at h3
            exact h3
      | tEol =>
        have h2 : (if headQuant rest = true then none
            else parseLoop rest (.eol :: cur1) stk1) = some out := h
        by_cases hq : headQuant rest = true
        · rw [if_pos hq] at h2
          exact Option.noConfusion h2
        · rw [if_neg hq] at h2
          have hqf : headQuant rest = false := by
            cases hx : headQuant rest with
            | false => rfl
            | true => exact absurd hx hq
          have hq2 : headQuant (rest ++ b) = false := by
            cases rest with
            | nil => exact hb
            | cons tr rr => cases tr <;> first | rfl | simp [headQuant] at hqf
          show (if headQuant (rest ++ b) = true then none
            else parseLoop (rest ++ b) (.eol :: extCur stk1 cur1 curE)
              (extStk stk1 curE ++ ext)) =
            parseLoop b ((rseqToList out).reverse ++ curE) ext
          rw [hq2, if_neg (by simp)]
          have h3 := ih rest (by simp only [List.length_cons] at hlen; omega)
            _ _ _ h2 b curE ext hb
          rw [extCur_cons] at h3
          exact h3
      | tPlus => exact Option.noConfusion h
      | tStar => exact Option.noConfusion h

theorem sliceStr_shift (s : Str) (k a b : Nat) :
    sliceStr s (k + a) (k + b) = sliceStr (s.drop k) a b := by
  unfold sliceStr
  rw [← List.drop_drop]
  congr 1
  omega

theorem atEol_shift (s : Str) (k pos : Nat) (hk : k ≤ s.length) :
    atEol s (k + pos) = atEol (s.drop k) pos := by
  unfold atEol
  have hget : (s.drop k).get? pos = s.get? (k + pos) := by
    rw [List.get?_eq_getElem?, List.get?_eq_getElem?, List.getElem?_drop]
  rw [decide_eq_decide, List.length_drop, hget]
  constructor
  · rintro (h1 | ⟨h1, h2⟩)
    · left
      omega
    · right
      exact ⟨by omega, h2⟩
  · rintro (h1 | ⟨h1, h2⟩)
    · left
      omega
    · right
      exact ⟨by omega, h2⟩

theorem quantEnds_shift2 (p : Char → Bool) (q : Quant) (s : Str) (k pos : Nat) :
    quantEnds p q s (k + pos) = (quantEnds p q (s.drop k) pos).map (fun e => k + e) := by
  rw [quantEnds_shift p q s (k + pos), quantEnds_shift p q (s.drop k) pos,
    List.drop_drop, List.map_map]
  congr 1
  funext e
  show k + pos + e = k + (pos + e)
  omega

mutual

theorem seqParses_shift : ∀ (re : RSeq) (s : Str) (k : Nat), k ≤ s.length →
    ∀ (pos : Nat), seqParses re s (k + pos) =
      (seqParses re (s.drop k) pos).map (fun pr => (k + pr.1, pr.2))
  | .nil, s, k, hk, pos => by
    show [(k + pos, ([] : List Str))] =
      [((pos : Nat), ([] : List Str))].map (fun pr => (k + pr.1, pr.2))
    rfl
  | .cons a rest, s, k, hk, pos => by
    show (atomParses a s (k + pos)).flatMap
        (fun pr => (seqParses rest s pr.1).map fun qr => (qr.1, pr.2 ++ qr.2)) =
      ((atomParses a (s.drop k) pos).flatMap
        (fun pr => (seqParses rest (s.drop k) pr.1).map
          fun qr => (qr.1, pr.2 ++ qr.2))).map (fun pr => (k + pr.1, pr.2))
    rw [atomParses_shift a s k hk pos, List.flatMap_map, List.map_flatMap]
    congr 1
    funext pr
    show (seqParses rest s (k + pr.1)).map (fun qr => (qr.1, pr.2 ++ qr.2)) =
      ((seqParses rest (s.drop k) pr.1).map fun qr => (qr.1, pr.2 ++ qr.2)).map
        (fun pr => (k + pr.1, pr.2))
    rw [seqParses_shift rest s k hk pr.1, List.map_map, List.map_map]
    congr 1

theorem atomParses_shift : ∀ (a : RAtom) (s : Str) (k : Nat), k ≤ s.length →
    ∀ (pos : Nat), atomParses a s (k + pos) =
      (atomParses a (s.drop k) pos).map (fun pr => (k + pr.1, pr.2))
  | .pat p q, s, k, hk, pos => by
    show (quantEnds (pmatch p) q s (k + pos)).map (fun e => (e, ([] : List Str))) =
      ((quantEnds (pmatch p) q (s.drop k) pos).map
        (fun e => (e, ([] : List Str)))).map (fun pr => (k + pr.1, pr.2))
    rw [quantEnds_shift2 (pmatch p) q s k pos, List.map_map, List.map_map]
    congr 1
  | .grp capturing inner, s, k, hk, pos => by
    show (seqParses inner s (k + pos)).map
        (fun pr => (pr.1, (if capturing then [sliceStr s (k + pos) pr.1] else []) ++
          pr.2)) =
      ((seqParses inner (s.drop k) pos).map
        (fun pr => (pr.1, (if capturing then [sliceStr (s.drop k) pos pr.1] else []) ++
          pr.2))).map (fun pr => (k + pr.1, pr.2))
    rw [seqParses_shift inner s k hk pos, List.map_map, List.map_map]
    congr 1
    funext pr
    show ((k + pr.1 : Nat),
        (if capturing then [sliceStr s (k + pos) (k + pr.1)] else []) ++ pr.2) =
      ((k + pr.1 : Nat),
        (if capturing then [sliceStr (s.drop k) pos pr.1] else []) ++ pr.2)
    rw [sliceStr_shift]
  | .eol, s, k, hk, pos => by
    show (if atEol s (k + pos) then [(k + pos, ([] : List Str))] else []) =
      (if atEol (s.drop k) pos then [((pos : Nat), ([] : List Str))] else []).map
        (fun pr => (k + pr.1, pr.2))
    rw [atEol_shift s k pos hk]
    split
    · rfl
    · rfl

end

mutual

theorem capsNil_seq : ∀ (re : RSeq), capFreeSeq re = true →
    ∀ (s : Str) (pos : Nat) (pr : Nat × List Str), pr ∈ seqParses re s pos →
    pr.2 = []
  | .nil => by
    intro h s pos pr hm
    have hm' : pr ∈ [(pos, ([] : List Str))] := hm
    rw [List.mem_singleton] at hm'
    rw [hm']
  | .cons a rest => by
    intro h s pos pr hm
    rw [show capFreeSeq (.cons a rest) = (capFreeAtom a && capFreeSeq rest)
      from rfl, Bool.and_eq_true] at h
    have hm' : pr ∈ (atomParses a s pos).flatMap
        (fun pr => (seqParses rest s pr.1).map fun qr => (qr.1, pr.2 ++ qr.2)) := hm
    rw [List.mem_flatMap] at hm'
    obtain ⟨pr1, hpr1, hmm⟩ := hm'
    rw [List.mem_map] at hmm
    obtain ⟨qr, hqr, heq⟩ := hmm
    have e1 : pr1.2 = [] := capsNil_atom a h.1 s pos pr1 hpr1
    have e2 : qr.2 = [] := capsNil_seq rest h.2 s pr1.1 qr hqr
    rw [← heq]
    show pr1.2 ++ qr.2 = []
    rw [e1, e2]
    rfl

theorem capsNil_atom : ∀ (a : RAtom), capFreeAtom a = true →
    ∀ (s : Str) (pos : Nat) (pr : Nat × List Str), pr ∈ atomParses a s pos →
    pr.2 = []
  | .pat p q => by
    intro h s pos pr hm
    have hm' : pr ∈ (quantEnds (pmatch p) q s pos).map
        (fun e => (e, ([] : List Str))) := hm
    rw [List.mem_map] at hm'
    obtain ⟨e, he, heq⟩ := hm'
    rw [← heq]
  | .grp capturing inner => by
    intro h s pos pr hm
    rw [show capFreeAtom (.grp capturing inner) = (!capturing && capFreeSeq inner)
      from rfl, Bool.and_eq_true] at h
    have hcap : capturing = false := by
      cases capturing
      · rfl
      · exact absurd h.1 (by simp)
    subst hcap
    have hm' : pr ∈ (seqParses inner s pos).map
        (fun w => (w.1, (if false then [sliceStr s pos w.1] else []) ++ w.2)) := hm
    rw [List.mem_map] at hm'
    obtain ⟨qr, hqr, heq⟩ := hm'
    have e := capsNil_seq inner h.2 s pos qr hqr
    rw [← heq]
    show (if false then [sliceStr s pos qr.1] else []) ++ qr.2 = []
    rw [e]
    rfl
  | .eol => by
    intro h s pos pr hm
    have hm' : pr ∈ (if atEol s pos then [(pos, ([] : List Str))] else []) := hm
    by_cases he : atEol s pos = true
    · rw [if_pos he, List.mem_singleton] at hm'
      rw [hm']
    · rw [if_neg he] at hm'
      exact absurd hm' (List.not_mem_nil pr)

end

theorem capFreeSeq_toRSeq (l : List RAtom) (h : ∀ a ∈ l, capFreeAtom a = true) :
    capFreeSeq (toRSeq l) = true := by
  induction l with
  | nil => rfl
  | cons a r ih =>
    show (capFreeAtom a && capFreeSeq (toRSeq r)) = true
    rw [Bool.and_eq_true]
    exact ⟨h a (List.mem_cons_self a r),
      ih fun x hx => h x (List.mem_cons_of_mem a hx)⟩

theorem capFree_parse : ∀ (n : Nat) (toks : List Tok), toks.length ≤ n →
    (∀ t ∈ toks, ¬ t = Tok.tOpen true) →
    ∀ (cur : List RAtom) (stk : List (Bool × List RAtom)) (out : RSeq),
    (∀ a ∈ cur, capFreeAtom a = true) →
    (∀ fr ∈ stk, fr.1 = false ∧ ∀ a ∈ fr.2, capFreeAtom a = true) →
    parseLoop toks cur stk = some out → capFreeSeq out = true := by
  intro n
  induction n with
  | zero =>
    intro toks hlen ht cur stk out hcur hstk h
    have htn : toks = [] := List.eq_nil_of_length_eq_zero (by omega)
    subst htn
    cases stk with
    | cons f fs => exact Option.noConfusion h
    | nil =>
      have h' : some (toRSeq cur.reverse) = some out := h
      rw [← Option.some.inj h']
      exact capFreeSeq_toRSeq _ fun a ha => hcur a (List.mem_reverse.mp ha)
  | succ k ih =>
    intro toks hlen ht cur stk out hcur hstk h
    cases toks with
    | nil =>
      cases stk with
      | cons f fs => exact Option.noConfusion h
      | nil =>
        have h' : some (toRSeq cur.reverse) = some out := h
        rw [← Option.some.inj h']
        exact capFreeSeq_toRSeq _ fun a ha => hcur a (List.mem_reverse.mp ha)
    | cons t rest =>
      have hbnd : rest.length ≤ k := by
        simp only [List.length_cons] at hlen
        omega
      have htrest : ∀ x ∈ rest, ¬ x = Tok.tOpen true :=
        fun x hx => ht x (List.mem_cons_of_mem t hx)
      cases t with
      | tLit c =>
        cases rest with
        | nil =>
          exact ih [] (by simp) (by simp) _ _ _
            (fun a ha => by
              rcases List.mem_cons.mp ha with h1 | h1
              · rw [h1]; rfl
              · exact hcur a h1) hstk h
        | cons t2 rest2 =>
          cases t2 <;> first
            | exact ih rest2 (by simp only [List.length_cons] at hbnd ⊢; omega)
                (fun x hx => htrest x (List.mem_cons_of_mem _ hx)) _ _ _
                (fun a ha => by
                  rcases List.mem_cons.mp ha with h1 | h1
                  · rw [h1]; rfl
                  · exact hcur a h1) hstk h
            | exact ih (_ :: rest2) (by simp only [List.length_cons] at hbnd ⊢; omega)
                htrest _ _ _
                (fun a ha => by
                  rcases List.mem_cons.mp ha with h1 | h1
                  · rw [h1]; rfl
                  · exact hcur a h1) hstk h
      | tWs =>
        cases rest with
        | nil =>
          exact ih [] (by simp) (by simp) _ _ _
            (fun a ha => by
              rcases List.mem_cons.mp ha with h1 | h1
              · rw [h1]; rfl
              · exact hcur a h1) hstk h
        | cons t2 rest2 =>
          cases t2 <;> first
            | exact ih rest2 (by simp only [List.length_cons] at hbnd ⊢; omega)
                (fun x hx => htrest x (List.mem_cons_of_mem _ hx)) _ _ _
                (fun a ha => by
                  rcases List.mem_cons.mp ha with h1 | h1
                  · rw [h1]; rfl
                  · exact hcur a h1) hstk h
            | exact ih (_ :: rest2) (by simp only [List.length_cons] at hbnd ⊢; omega)
                htrest _ _ _
                (fun a ha => by
                  rcases List.mem_cons.mp ha with h1 | h1
                  · rw [h1]; rfl
                  · exact hcur a h1) hstk h
      | tClass neg items =>
        cases rest with
        | nil =>
          exact ih [] (by simp) (by simp) _ _ _
            (fun a ha => by
              rcases List.mem_cons.mp ha with h1 | h1
              · rw [h1]; rfl
              · exact hcur a h1) hstk h
        | cons t2 rest2 =>
          cases t2 <;> first
            | exact ih rest2 (by simp only [List.length_cons] at hbnd ⊢; omega)
                (fun x hx => htrest x (List.mem_cons_of_mem _ hx)) _ _ _
                (fun a ha => by
                  rcases List.mem_cons.mp ha with h1 | h1
                  · rw [h1]; rfl
                  · exact hcur a h1) hstk h
            | exact ih (_ :: rest2) (by simp only [List.length_cons] at hbnd ⊢; omega)
                htrest _ _ _
                (fun a ha => by
                  rcases List.mem_cons.mp ha with h1 | h1
                  · rw [h1]; rfl
                  · exact hcur a h1) hstk h
      | tDot =>
        cases rest with
        | nil =>
          exact ih [] (by simp) (by simp) _ _ _
            (fun a ha => by
              rcases List.mem_cons.mp ha with h1 | h1
              · rw [h1]; rfl
              · exact hcur a h1) hstk h
        | cons t2 rest2 =>
          cases t2 <;> first
            | exact ih rest2 (by simp only [List.length_cons] at hbnd ⊢; omega)
                (fun x hx => htrest x (List.mem_cons_of_mem _ hx)) _ _ _
                (fun a ha => by
                  rcases List.mem_cons.mp ha with h1 | h1
                  · rw [h1]; rfl
                  · exact hcur a h1) hstk h
            | exact ih (_ :: rest2) (by simp only [List.length_cons] at hbnd ⊢; omega)
                htrest _ _ _
                (fun a ha => by
                  rcases List.mem_cons.mp ha with h1 | h1
                  · rw [h1]; rfl
                  · exact hcur a h1) hstk h
      | tOpen capturing =>
        have hcap : capturing = false := by
          cases capturing
          · rfl
          · exact absurd rfl (ht (Tok.tOpen true) (List.mem_cons_self _ _))
        subst hcap
        have h2 : parseLoop rest [] ((false, cur) :: stk) = some out := h
        exact ih rest hbnd htrest _ _ _ (by simp)
          (fun fr hfr => by
            rcases List.mem_cons.mp hfr with h1 | h1
            · rw [h1]
              exact ⟨rfl, hcur⟩
            · exact hstk fr h1) h2
      | tClose =>
        cases stk with
        | nil => exact Option.noConfusion h
        | cons fr stk2 =>
          obtain ⟨cap, outer⟩ := fr
          have h2 : (if headQuant rest = true then none
              else parseLoop rest (.grp cap (toRSeq cur.reverse) :: outer) stk2) =
              some out := h
          by_cases hq : headQuant rest = true
          · rw [if_pos hq] at h2
            exact Option.noConfusion h2
          · rw [if_neg hq] at h2
            obtain ⟨hcap, houter⟩ := hstk (cap, outer) (List.mem_cons_self _ _)
            have hcap' : cap = false := hcap
            subst hcap'
            exact ih rest hbnd htrest _ _ _
              (fun a ha => by
                rcases List.mem_cons.mp ha with h1 | h1
                · rw [h1]
                  show (!false && capFreeSeq (toRSeq cur.reverse)) = true
                  rw [Bool.and_eq_true]
                  exact ⟨rfl, capFreeSeq_toRSeq _
                    fun x hx => hcur x (List.mem_reverse.mp hx)⟩
                · exact houter a h1)
              (fun fr hfr => hstk fr (List.mem_cons_of_mem _ hfr)) h2
      | tEol =>
        have h2 : (if headQuant rest = true then none
            else parseLoop rest (.eol :: cur) stk) = some out := h
        by_cases hq : headQuant rest = true
        · rw [if_pos hq] at h2
          exact Option.noConfusion h2
        · rw [if_neg hq] at h2
          exact ih rest hbnd htrest _ _ _
            (fun a ha => by
              rcases List.mem_cons.mp ha with h1 | h1
              · rw [h1]; rfl
              · exact hcur a h1) hstk h2
      | tPlus => exact Option.noConfusion h
      | tStar => exact Option.noConfusion h

theorem steps_compiled (toksI : List Tok) (re : RSeq)
    (h : parseLoop toksI [] [] = some re) : StepsP toksI (rseqToList re) := by
  intro b cur stk hb
  exact parse_sim2 toksI.length toksI le_rfl [] [] re h b cur stk hb

theorem lex_user_piece (r : Str) (toksI : List Tok) (hne : r ≠ [])
    (hlex : lex r = some toksI) :
    LexP ('(' :: r ++ [')']) (Tok.tOpen true :: toksI ++ [Tok.tClose]) := by
  intro z
  obtain ⟨c0, r0, rfl⟩ := List.exists_cons_of_ne_nil hne
  have hc0 : ¬ c0 = '?' := by
    intro hc
    subst hc
    rw [lex_step] at hlex
    have hnone : nextTok ('?' :: r0) = none := by simp [nextTok]
    rw [hnone] at hlex
    exact Option.noConfusion hlex
  have hshape : ('(' :: (c0 :: r0) ++ [')']) ++ z =
      '(' :: (c0 :: (r0 ++ (')' :: z))) := by simp
  rw [hshape, lex_step]
  have hnt : nextTok ('(' :: (c0 :: (r0 ++ (')' :: z)))) =
      some (Tok.tOpen true, c0 :: (r0 ++ (')' :: z))) := by
    simp only [nextTok]
    rw [if_neg (show ¬ (c0 :: (r0 ++ (')' :: z))).take 2 = ['?', ':'] by
      intro hcon
      simp [List.take_succ_cons] at hcon
      exact hc0 hcon.1)]
    rw [if_neg (show ¬ (c0 :: (r0 ++ (')' :: z))).head? = some '?' by simp [hc0])]
    rw [if_neg (show ¬ ('(' : Char) = '\\' by decide), if_pos trivial]
  rw [hnt]
  show (lex (c0 :: (r0 ++ (')' :: z)))).map (Tok.tOpen true :: ·) =
    (lex z).map ((Tok.tOpen true :: toksI ++ [Tok.tClose]) ++ ·)
  have hstable := lex_stable (c0 :: r0).length (c0 :: r0) le_rfl toksI hlex
    (')' :: z) (by simp)
  simp only [List.cons_append] at hstable
  rw [hstable]
  have hntc : nextTok (')' :: z) = some (Tok.tClose, z) := rfl
  rw [lex_step, hntc]
  show (((lex z).map (Tok.tClose :: ·)).map (toksI ++ ·)).map (Tok.tOpen true :: ·) =
    (lex z).map ((Tok.tOpen true :: toksI ++ [Tok.tClose]) ++ ·)
  cases lex z with
  | none => rfl
  | some ts => simp

theorem grp_headTo (re : RSeq) (s : Str) (pos L : Nat) (hpos : pos ≤ s.length)
    (h : (seqParses re (s.drop pos) 0).head? = some (L, [])) :
    HeadTo [.grp true re] s pos (pos + L) [sliceStr s pos (pos + L)] := by
  unfold HeadTo
  have h1 : (seqParses re s pos).head? = some (pos + L, []) := by
    have hsh := seqParses_shift re s pos hpos 0
    rw [Nat.add_zero] at hsh
    rw [hsh, List.head?_map, h]
    rfl
  have h2 : (atomParses (.grp true re) s pos).head? =
      some (pos + L, [sliceStr s pos (pos + L)]) := by
    show ((seqParses re s pos).map
      (fun w => (w.1, (if true then [sliceStr s pos w.1] else []) ++ w.2))).head? = _
    rw [List.head?_map, h1]
    rfl
  show ((atomParses (.grp true re) s pos).flatMap
    (fun pr => (seqParses .nil s pr.1).map fun qr => (qr.1, pr.2 ++ qr.2))).head? =
    some (pos + L, [sliceStr s pos (pos + L)])
  exact head?_flatMap _ _ (pos + L, [sliceStr s pos (pos + L)])
    (pos + L, [sliceStr s pos (pos + L)]) h2 rfl

theorem marker_piece_user (t : Template) (m : Marker) (hreg : ¬ m.regex = [])
    (hfl : m.finish ≤ t.sample.length)
    (herr : (m.InferRegex t).2 = [])
    (hnc : ∀ toks, lex m.regex = some toks → Tok.tOpen true ∉ toks) :
    m.start ≤ m.finish ∧
    ∃ toks atoms, toks.head? = some (Tok.tOpen true) ∧
      LexP ('(' :: (m.InferRegex t).1 ++ [')']) toks ∧ StepsP toks atoms ∧
      HeadTo atoms t.sample m.start m.finish
        [sliceStr t.sample m.start m.finish] := by
  have hraw : inferRegexRaw m t = (m.regex, []) := by
    unfold inferRegexRaw
    rw [if_pos hreg]
  have h0 : (m.InferRegex t).2 = (inferRegexRaw m t).2 ++
      inferRegexValidate (inferRegexRaw m t).1 (t.sample.drop m.start)
        ((m.finish : Int) - (m.start : Int)) := rfl
  rw [hraw] at h0
  have hval : inferRegexValidate m.regex (t.sample.drop m.start)
      ((m.finish : Int) - (m.start : Int)) = [] := by
    have h1 := h0.symm.trans herr
    simpa using h1
  obtain ⟨re, pr, hre, hmatch, hint⟩ := validate_nil _ _ _ hreg hval
  have hsf : m.start ≤ m.finish := by omega
  have hpc1 : (m.InferRegex t).1 = m.regex := by
    show (inferRegexRaw m t).1 = m.regex
    rw [hraw]
  unfold reCompile at hre
  cases hlx : lex m.regex with
  | none =>
    rw [hlx] at hre
    exact Option.noConfusion hre
  | some toksI =>
    rw [hlx] at hre
    have hpl : parseLoop toksI [] [] = some re := hre
    refine ⟨hsf, Tok.tOpen true :: toksI ++ [Tok.tClose], [.grp true re], rfl,
      ?_, ?_, ?_⟩
    · rw [hpc1]
      exact lex_user_piece m.regex toksI hreg hlx
    · have hst := steps_grp toksI (rseqToList re) (steps_compiled toksI re hpl)
      rw [toRSeq_rseqToList re] at hst
      exact hst
    · have hcf : capFreeSeq re = true := by
        refine capFree_parse toksI.length toksI le_rfl ?_ [] [] re (by simp)
          (by simp) hpl
        intro x hx hxe
        exact hnc toksI hlx (hxe ▸ hx)
      have hpr2 : pr.2 = [] :=
        capsNil_seq re hcf _ 0 pr (List.mem_of_mem_head? hmatch)
      have hms : m.start ≤ t.sample.length := le_trans hsf hfl
      have hmatch' : (seqParses re (t.sample.drop m.start) 0).head? =
          some (pr.1, []) := by
        rw [← hpr2]
        exact hmatch
      have hht := grp_headTo re t.sample m.start pr.1 hms hmatch'
      rw [show m.start + pr.1 = m.finish by omega] at hht
      exact hht

theorem fold_good (t : Template) : ∀ (L : List Marker) (st : PatSt) (caps : List Str),
    (∀ m ∈ L, MarkerOk m) →
    GoodSt t st caps →
    (L.foldl (patStep t) st).errs = [] →
    GoodSt t (L.foldl (patStep t) st)
      (caps ++ L.map fun m => sliceStr t.sample m.start m.finish) := by
  intro L
  induction L with
  | nil => intro st caps _ hg _; simpa using hg
  | cons m rest ih =>
    intro st caps hregs hg herrs
    rw [List.foldl_cons] at herrs ⊢
    have hstep_errs_nil : (patStep t st m).errs = [] :=
      foldl_patStep_errs_nil t rest _ herrs
    have hst_errs_nil : st.errs = [] := by
      obtain ⟨es, he⟩ := patStep_errs t st m
      rw [he] at hstep_errs_nil
      exact (List.append_eq_nil.mp hstep_errs_nil).1
    have hfl : m.finish ≤ t.sample.length := by
      by_contra hgt
      push_neg at hgt
      have hx : (patStep t st m).errs =
          st.errs ++ ["marker extends beyond template".toList] := by
        unfold patStep
        rw [if_pos hgt]
      rw [hx, hst_errs_nil] at hstep_errs_nil
      simp at hstep_errs_nil
    have hnb : ¬(m.finish > t.sample.length) := by omega
    have hgate : (patSkip t st m).index = m.start := by
      by_contra hgate
      have hx : (patStep t st m).errs =
          (patSkip t st m).errs ++ ["overlap with another marker".toList] := by
        unfold patStep
        rw [if_neg hnb, if_neg hgate]
      obtain ⟨es1, hsk⟩ := patSkip_errs t st m
      rw [hx, hsk, hst_errs_nil] at hstep_errs_nil
      simp at hstep_errs_nil
    have heq_errs : (patStep t st m).errs =
        (patSkip t st m).errs ++ (m.InferRegex t).2 := by
      unfold patStep
      rw [if_neg hnb, if_pos hgate]
    have heq_regex : (patStep t st m).regex =
        (patSkip t st m).regex ++ ['('] ++ (m.InferRegex t).1 ++ [')'] := by
      unfold patStep
      rw [if_neg hnb, if_pos hgate]
    have heq_index : (patStep t st m).index = m.finish := by
      unfold patStep
      rw [if_neg hnb, if_pos hgate]
    have hmerr : (m.InferRegex t).2 = [] := by
      rw [heq_errs] at hstep_errs_nil
      exact (List.append_eq_nil.mp hstep_errs_nil).2
    have hskerr_nil : (patSkip t st m).errs = [] := by
      rw [heq_errs] at hstep_errs_nil
      exact (List.append_eq_nil.mp hstep_errs_nil).1
    have hdisp : m.start ≤ m.finish ∧
        ∃ toks atoms, toks.head? = some (Tok.tOpen true) ∧
          LexP ('(' :: (m.InferRegex t).1 ++ [')']) toks ∧ StepsP toks atoms ∧
          HeadTo atoms t.sample m.start m.finish
            [sliceStr t.sample m.start m.finish] := by
      by_cases hmreg : m.regex = []
      · exact marker_piece t m hmreg hfl hmerr
      · exact marker_piece_user t m hmreg hfl hmerr
          (hregs m (List.mem_cons_self m rest))
    obtain ⟨hsf, toksM, atomsM, htoksM_head, hlexM, hstepsM, hheadM⟩ := hdisp
    obtain ⟨hidx_le, toks0, atoms0, hlex0, hsteps0, hhead0⟩ := hg
    have hrecurse : GoodSt t (patStep t st m)
        (caps ++ [sliceStr t.sample m.start m.finish]) → GoodSt t
        ((rest.foldl (patStep t) (patStep t st m)))
        (caps ++ (m :: rest).map fun m => sliceStr t.sample m.start m.finish) := by
      intro hgood2
      have hrec := ih (patStep t st m) (caps ++ [sliceStr t.sample m.start m.finish])
        (fun m2 hm2 => hregs m2 (List.mem_cons_of_mem m hm2)) hgood2 herrs
      rw [List.map_cons]
      rw [show caps ++ (sliceStr t.sample m.start m.finish ::
        rest.map fun m => sliceStr t.sample m.start m.finish) =
        (caps ++ [sliceStr t.sample m.start m.finish]) ++
          rest.map fun m => sliceStr t.sample m.start m.finish from by simp]
      exact hrec
    apply hrecurse
    by_cases hlt : st.index < m.start
    · have hskR : (patSkip t st m).regex =
          st.regex ++ (t.InferSkip st.index m.start).1 := by
        unfold patSkip
        rw [if_pos hlt]
      have hskE : (patSkip t st m).errs =
          st.errs ++ (t.InferSkip st.index m.start).2 := by
        unfold patSkip
        rw [if_pos hlt]
      have hskerr : (t.InferSkip st.index m.start).2 = [] := by
        rw [hskE, hst_errs_nil] at hskerr_nil
        simpa using hskerr_nil
      have hms_le : m.start ≤ t.sample.length := le_trans hsf hfl
      obtain ⟨hheadS, hlexS, hstepsS⟩ :=
        inferSkip_exact t st.index m.start (le_of_lt hlt) hms_le hskerr
      refine ⟨by rw [heq_index]; exact hfl,
        toks0 ++ (collapseWs (sliceStr t.sample st.index m.start)).flatMap tokOf ++ toksM,
        atoms0 ++ (collapseWs (sliceStr t.sample st.index m.start)).flatMap skipAtomOf ++
          atomsM, ?_, ?_, ?_⟩
      · have hr : (patStep t st m).regex =
            st.regex ++ (t.InferSkip st.index m.start).1 ++
              ('(' :: (m.InferRegex t).1 ++ [')']) := by
          rw [heq_regex, hskR]
          simp [List.append_assoc]
        rw [hr]
        exact LexP_append _ _ _ _ (LexP_append _ _ _ _ hlex0 hlexS) hlexM
      · exact StepsP_append _ _ _ _
          (StepsP_append _ _ _ _ hsteps0 hstepsS (headQuant_tokOf_append _))
          hstepsM (headQuant_head_open toksM htoksM_head)
      · rw [heq_index]
        have h01 := HeadTo_append _ _ t.sample 0 st.index m.start caps []
          hhead0 hheadS
        have h012 := HeadTo_append _ _ t.sample 0 m.start m.finish (caps ++ [])
          [sliceStr t.sample m.start m.finish] h01 hheadM
        simpa using h012
    · have hskid : patSkip t st m = st := by
        unfold patSkip
        rw [if_neg hlt]
      have hst_eq : st.index = m.start := by rw [← hgate, hskid]
      refine ⟨by rw [heq_index]; exact hfl, toks0 ++ toksM, atoms0 ++ atomsM,
        ?_, ?_, ?_⟩
      · have hr : (patStep t st m).regex =
            st.regex ++ ('(' :: (m.InferRegex t).1 ++ [')']) := by
          rw [heq_regex, hskid]
          simp [List.append_assoc]
        rw [hr]
        exact LexP_append _ _ _ _ hlex0 hlexM
      · exact StepsP_append _ _ _ _ hsteps0 hstepsM
          (headQuant_head_open toksM htoksM_head)
      · rw [heq_index]
        rw [hst_eq] at hhead0
        exact HeadTo_append _ _ t.sample 0 m.start m.finish caps
          [sliceStr t.sample m.start m.finish] hhead0 hheadM

theorem takeClass_remove : ∀ (n : Nat) (r : Str), r.length ≤ n →
    ∀ (first : Bool) (pr : List CItem × Str),
    takeClass first (removeAux false r) = some pr →
    ∃ r2, pr.2 = removeAux false r2 := by
  intro n
  induction n with
  | zero =>
    intro r hlen first pr h
    have hr : r = [] := List.eq_nil_of_length_eq_zero (by omega)
    subst hr
    exact Option.noConfusion h
  | succ k ih =>
    intro r hlen first pr h
    cases r with
    | nil => exact Option.noConfusion h
    | cons c r1 =>
      have hbnd : r1.length ≤ k := by
        simp only [List.length_cons] at hlen
        omega
      by_cases hc : c = '('
      · have hw : removeAux false (c :: r1) = '(' :: '?' :: ':' :: removeAux false r1 := by
          subst hc
          rfl
        rw [hw, takeClass_cons] at h
        rw [if_neg (by decide), if_neg (by decide), if_neg (by decide)] at h
        obtain ⟨p1, hp1, hm1⟩ := Option.map_eq_some'.mp h
        rw [takeClass_cons] at hp1
        rw [if_neg (by decide), if_neg (by decide), if_neg (by decide)] at hp1
        obtain ⟨p2, hp2, hm2⟩ := Option.map_eq_some'.mp hp1
        rw [takeClass_cons] at hp2
        rw [if_neg (by decide), if_neg (by decide), if_neg (by decide)] at hp2
        obtain ⟨p3, hp3, hm3⟩ := Option.map_eq_some'.mp hp2
        obtain ⟨r3, hr3⟩ := ih r1 hbnd false p3 hp3
        refine ⟨r3, ?_⟩
        rw [← hm1, ← hm2, ← hm3]
        exact hr3
      · by_cases hbs : c = '\\'
        · subst hbs
          have hw : removeAux false ('\\' :: r1) = '\\' :: removeAux true r1 := rfl
          rw [hw, takeClass_cons] at h
          rw [if_neg (by decide), if_pos rfl] at h
          cases r1 with
          | nil => exact Option.noConfusion h
          | cons d r2 =>
            have hflag : (if d = '\\' then !true else false) = false := by
              rw [Bool.not_true, ite_self]
            have hw2 : removeAux true (d :: r2) = d :: removeAux false r2 := by
              show (if d = '(' ∧ ¬true then ['(', '?', ':'] else [d]) ++
                removeAux (if d = '\\' then !true else false) r2 =
                d :: removeAux false r2
              rw [if_neg (by simp), hflag]
              rfl
            rw [hw2] at h
            have h' : (if d = 's' then
                (takeClass false (removeAux false r2)).map (consIt .wsc)
                else if isWordCh d then none
                else (takeClass false (removeAux false r2)).map (consIt (.ch d))) =
                some pr := h
            have hbnd2 : r2.length ≤ k := by
              simp only [List.length_cons] at hbnd
              omega
            by_cases hd : d = 's'
            · rw [if_pos hd] at h'
              obtain ⟨p1, hp1, hm1⟩ := Option.map_eq_some'.mp h'
              obtain ⟨r3, hr3⟩ := ih r2 hbnd2 false p1 hp1
              refine ⟨r3, ?_⟩
              rw [← hm1]
              exact hr3
            · rw [if_neg hd] at h'
              by_cases hwd : isWordCh d = true
              · rw [if_pos hwd] at h'
                exact Option.noConfusion h'
              · rw [if_neg hwd] at h'
                obtain ⟨p1, hp1, hm1⟩ := Option.map_eq_some'.mp h'
                obtain ⟨r3, hr3⟩ := ih r2 hbnd2 false p1 hp1
                refine ⟨r3, ?_⟩
                rw [← hm1]
                exact hr3
        · have hw : removeAux false (c :: r1) = c :: removeAux false r1 := by
            show (if c = '(' ∧ ¬false then ['(', '?', ':'] else [c]) ++
              removeAux (if c = '\\' then !false else false) r1 =
              c :: removeAux false r1
            rw [if_neg (by simp [hc]), if_neg hbs]
            rfl
          rw [hw, takeClass_cons] at h
          by_cases hcl : c = ']'
          · rw [if_pos hcl] at h
            by_cases hf : first = true
            · rw [if_pos hf] at h
              obtain ⟨p1, hp1, hm1⟩ := Option.map_eq_some'.mp h
              obtain ⟨r3, hr3⟩ := ih r1 hbnd false p1 hp1
              refine ⟨r3, ?_⟩
              rw [← hm1]
              exact hr3
            · rw [if_neg hf] at h
              refine ⟨r1, ?_⟩
              rw [← Option.some.inj h]
          · rw [if_neg hcl, if_neg hbs] at h
            by_cases hdash : c = '-'
            · rw [if_pos hdash] at h
              by_cases hcond : first = true ∨ (removeAux false r1).head? = some ']'
              · rw [if_pos hcond] at h
                obtain ⟨p1, hp1, hm1⟩ := Option.map_eq_some'.mp h
                obtain ⟨r3, hr3⟩ := ih r1 hbnd false p1 hp1
                refine ⟨r3, ?_⟩
                rw [← hm1]
                exact hr3
              · rw [if_neg hcond] at h
                exact Option.noConfusion h
            · rw [if_neg hdash] at h
              obtain ⟨p1, hp1, hm1⟩ := Option.map_eq_some'.mp h
              obtain ⟨r3, hr3⟩ := ih r1 hbnd false p1 hp1
              refine ⟨r3, ?_⟩
              rw [← hm1]
              exact hr3

theorem removeAux_true_cons (d : Char) (r2 : Str) :
    removeAux true (d :: r2) = d :: removeAux false r2 := by
  show (if d = '(' ∧ ¬true then ['(', '?', ':'] else [d]) ++
    removeAux (if d = '\\' then !true else false) r2 = d :: removeAux false r2
  rw [if_neg (by simp), show (if d = '\\' then !true else false) = false from by
    rw [Bool.not_true, ite_self]]
  rfl

theorem removeAux_false_cons_ne (c : Char) (r1 : Str) (hc : ¬ c = '(')
    (hbs : ¬ c = '\\') :
    removeAux false (c :: r1) = c :: removeAux false r1 := by
  show (if c = '(' ∧ ¬false then ['(', '?', ':'] else [c]) ++
    removeAux (if c = '\\' then !false else false) r1 = c :: removeAux false r1
  rw [if_neg (by simp [hc]), if_neg hbs]
  rfl

theorem removeAux_false_eq_cons (r : Str) (x : Char) (w : Str)
    (h : removeAux false r = x :: w) :
    (x = '(' ∧ ∃ r1, r = '(' :: r1 ∧ w = '?' :: ':' :: removeAux false r1) ∨
    (x = '\\' ∧ ∃ r1, r = '\\' :: r1 ∧ w = removeAux true r1) ∨
    (¬ x = '(' ∧ ¬ x = '\\' ∧ ∃ r1, r = x :: r1 ∧ w = removeAux false r1) := by
  cases r with
  | nil => exact List.noConfusion h
  | cons c r1 =>
    by_cases hc : c = '('
    · subst hc
      have hw : removeAux false ('(' :: r1) = '(' :: '?' :: ':' :: removeAux false r1 :=
        rfl
      rw [hw] at h
      obtain ⟨hx, hwd⟩ := List.cons.inj h
      exact Or.inl ⟨hx.symm, r1, rfl, hwd.symm⟩
    · by_cases hbs : c = '\\'
      · subst hbs
        have hw : removeAux false ('\\' :: r1) = '\\' :: removeAux true r1 := rfl
        rw [hw] at h
        obtain ⟨hx, hwd⟩ := List.cons.inj h
        exact Or.inr (Or.inl ⟨hx.symm, r1, rfl, hwd.symm⟩)
      · rw [removeAux_false_cons_ne c r1 hc hbs] at h
        obtain ⟨hx, hwd⟩ := List.cons.inj h
        subst hx
        exact Or.inr (Or.inr ⟨hc, hbs, r1, rfl, hwd.symm⟩)

theorem nextTok_remove (rx : Str) (pr : Tok × Str)
    (h : nextTok (removeAux false rx) = some pr) :
    ¬ pr.1 = Tok.tOpen true ∧ ∃ rx2, pr.2 = removeAux false rx2 := by
  cases rx with
  | nil => exact Option.noConfusion h
  | cons c r1 =>
    by_cases hc : c = '('
    · subst hc
      have hw : removeAux false ('(' :: r1) =
          '(' :: '?' :: ':' :: removeAux false r1 := rfl
      rw [hw] at h
      have hnt : nextTok ('(' :: '?' :: ':' :: removeAux false r1) =
          some (Tok.tOpen false, removeAux false r1) := by
        simp only [nextTok]
        rw [if_pos (show List.take 2 ('?' :: ':' :: removeAux false r1) = ['?', ':']
          by simp)]
        rw [if_neg (show ¬('(' : Char) = '\\' by decide), if_pos trivial]
        rfl
      rw [hnt] at h
      have hpr := Option.some.inj h
      refine ⟨?_, r1, ?_⟩
      · rw [← hpr]
        simp
      · rw [← hpr]
    · by_cases hbs : c = '\\'
      · subst hbs
        have hw : removeAux false ('\\' :: r1) = '\\' :: removeAux true r1 := rfl
        rw [hw] at h
        cases r1 with
        | nil =>
          rw [show nextTok ('\\' :: removeAux true ([] : Str)) = none from rfl] at h
          exact Option.noConfusion h
        | cons d r2 =>
          rw [removeAux_true_cons] at h
          simp only [nextTok] at h
          rw [if_pos trivial] at h
          by_cases hd : d = 's'
          · rw [if_pos (show (d :: removeAux false r2).head? = some 's'
              by simp [hd])] at h
            have hpr := Option.some.inj h
            refine ⟨?_, r2, ?_⟩
            · rw [← hpr]
              simp
            · rw [← hpr]
              rfl
          · rw [if_neg (show ¬ (d :: removeAux false r2).head? = some 's'
              by simp [hd])] at h
            by_cases h3 : (d :: removeAux false r2).take 3 = ['0', '0', '0']
            · rw [if_pos h3] at h
              have h3' : d = '0' ∧ (removeAux false r2).take 2 = ['0', '0'] := by
                simpa [List.take_succ_cons] using h3
              obtain ⟨hd0, ht2⟩ := h3'
              cases hR2 : removeAux false r2 with
              | nil =>
                rw [hR2] at ht2
                simp at ht2
              | cons x w1 =>
                rw [hR2] at ht2
                have hx2 : x = '0' ∧ w1.take 1 = ['0'] := by
                  simpa [List.take_succ_cons] using ht2
                obtain ⟨hx0, ht1⟩ := hx2
                subst hx0
                rcases removeAux_false_eq_cons r2 '0' w1 hR2 with
                  ⟨hcon, _⟩ | ⟨hcon, _⟩ | ⟨_, _, r3, hr3, hw1⟩
                · exact absurd hcon (by decide)
                · exact absurd hcon (by decide)
                · cases hR3 : removeAux false r3 with
                  | nil =>
                    rw [hw1, hR3] at ht1
                    simp at ht1
                  | cons y w2 =>
                    have hy0 : y = '0' := by
                      rw [hw1, hR3] at ht1
                      simpa [List.take_succ_cons] using ht1
                    subst hy0
                    rcases removeAux_false_eq_cons r3 '0' w2 hR3 with
                      ⟨hcon, _⟩ | ⟨hcon, _⟩ | ⟨_, _, r4, hr4, hw2⟩
                    · exact absurd hcon (by decide)
                    · exact absurd hcon (by decide)
                    · have hpr := Option.some.inj h
                      refine ⟨?_, r4, ?_⟩
                      · rw [← hpr]
                        simp
                      · rw [← hpr]
                        show (d :: removeAux false r2).drop 3 = removeAux false r4
                        rw [hR2, hw1, hR3, hw2]
                        rfl
            · rw [if_neg h3] at h
              rw [if_neg (show ¬ (d :: removeAux false r2) = [] by simp)] at h
              by_cases hwd : isWordCh ((d :: removeAux false r2).headD ' ') = true
              · rw [if_pos hwd] at h
                exact Option.noConfusion h
              · rw [if_neg hwd] at h
                have hpr := Option.some.inj h
                refine ⟨?_, r2, ?_⟩
                · rw [← hpr]
                  simp
                · rw [← hpr]
                  rfl
      · rw [removeAux_false_cons_ne c r1 hc hbs] at h
        simp only [nextTok] at h
        rw [if_neg hbs, if_neg hc] at h
        by_cases hcp : c = ')'
        · rw [if_pos hcp] at h
          have hpr := Option.some.inj h
          exact ⟨by rw [← hpr]; simp, r1, by rw [← hpr]⟩
        · rw [if_neg hcp] at h
          by_cases hbr : c = '['
          · rw [if_pos hbr] at h
            by_cases hcar : (removeAux false r1).head? = some '^'
            · rw [if_pos hcar] at h
              cases hR1 : removeAux false r1 with
              | nil =>
                rw [hR1] at hcar
                simp at hcar
              | cons x w =>
                have hx : x = '^' := by
                  rw [hR1] at hcar
                  simpa using hcar
                subst hx
                rcases removeAux_false_eq_cons r1 '^' w hR1 with
                  ⟨hcon, _⟩ | ⟨hcon, _⟩ | ⟨_, _, r2, hr2, hwq⟩
                · exact absurd hcon (by decide)
                · exact absurd hcon (by decide)
                · rw [hR1] at h
                  simp only [List.tail_cons] at h
                  rw [hwq] at h
                  obtain ⟨p1, hp1, hm1⟩ := Option.map_eq_some'.mp h
                  obtain ⟨r3, hr3⟩ := takeClass_remove r2.length r2 le_rfl true p1 hp1
                  refine ⟨?_, r3, ?_⟩
                  · rw [← hm1]
                    simp
                  · rw [← hm1]
                    exact hr3
            · rw [if_neg hcar] at h
              obtain ⟨p1, hp1, hm1⟩ := Option.map_eq_some'.mp h
              obtain ⟨r3, hr3⟩ := takeClass_remove r1.length r1 le_rfl true p1 hp1
              refine ⟨?_, r3, ?_⟩
              · rw [← hm1]
                simp
              · rw [← hm1]
                exact hr3
          · rw [if_neg hbr] at h
            by_cases hdot : c = '.'
            · rw [if_pos hdot] at h
              have hpr := Option.some.inj h
              exact ⟨by rw [← hpr]; simp, r1, by rw [← hpr]⟩
            · rw [if_neg hdot] at h
              by_cases hplus : c = '+'
              · rw [if_pos hplus] at h
                have hpr := Option.some.inj h
                exact ⟨by rw [← hpr]; simp, r1, by rw [← hpr]⟩
              · rw [if_neg hplus] at h
                by_cases hstar : c = '*'
                · rw [if_pos hstar] at h
                  have hpr := Option.some.inj h
                  exact ⟨by rw [← hpr]; simp, r1, by rw [← hpr]⟩
                · rw [if_neg hstar] at h
                  by_cases heol : c = '$'
                  · rw [if_pos heol] at h
                    have hpr := Option.some.inj h
                    exact ⟨by rw [← hpr]; simp, r1, by rw [← hpr]⟩
                  · rw [if_neg heol] at h
                    by_cases hor : c = '|' ∨ c = '?' ∨ c = '^' ∨ c = '\x7b' ∨
                        c = '\x7d'
                    · rw [if_pos hor] at h
                      exact Option.noConfusion h
                    · rw [if_neg hor] at h
                      have hpr := Option.some.inj h
                      exact ⟨by rw [← hpr]; simp, r1, by rw [← hpr]⟩

theorem lex_remove : ∀ (n : Nat) (w : Str), w.length ≤ n → ∀ (rx : Str),
    w = removeAux false rx → ∀ toks, lex w = some toks →
    Tok.tOpen true ∉ toks := by
  intro n
  induction n with
  | zero =>
    intro w hlen rx hw toks h
    have hwn : w = [] := List.eq_nil_of_length_eq_zero (by omega)
    subst hwn
    have h' : some ([] : List Tok) = some toks := h
    rw [← Option.some.inj h']
    exact List.not_mem_nil _
  | succ k ih =>
    intro w hlen rx hw toks h
    cases w with
    | nil =>
      have h' : some ([] : List Tok) = some toks := h
      rw [← Option.some.inj h']
      exact List.not_mem_nil _
    | cons c rest =>
      rw [lex_step] at h
      cases hnt : nextTok (c :: rest) with
      | none =>
        rw [hnt] at h
        exact Option.noConfusion h
      | some pr =>
        rw [hnt] at h
        have h' : (lex pr.2).map (pr.1 :: ·) = some toks := h
        obtain ⟨toks2, htoks2, hmap⟩ := Option.map_eq_some'.mp h'
        have hshr := nextTok_shrink _ _ hnt
        rw [hw] at hnt
        obtain ⟨hnotopen, rx2, hpr2⟩ := nextTok_remove rx pr hnt
        have hbnd : pr.2.length ≤ k := by
          simp only [List.length_cons] at hlen hshr
          omega
        have hmem := ih pr.2 hbnd rx2 hpr2 toks2 htoks2
        rw [← hmap]
        intro hin
        rcases List.mem_cons.mp hin with h1 | h1
        · exact hnotopen h1.symm
        · exact hmem h1

theorem mkMarker_ok (line : Line) (a b : Nat) (nm : Option Str) (rx : Str) :
    MarkerOk (mkMarker line a b nm rx) := by
  intro toks hlex htok
  exact lex_remove (removeAux false rx).length (removeAux false rx) le_rfl rx rfl
    toks hlex htok

/-- C6: for every Pattern built from a template and a list of markers
constructed by Marker.__init__, if Pattern.__init__ reports no error
then the compiled regex matches the template's own sample string, and
the captured groups are exactly the sample slices sample[start:finish]
of the markers taken in ascending start order. -/
theorem C6_pattern_matches_sample (t : Template) (ms : List Marker)
    (herrs : (mkPattern t ms).2 = [])
    (hmk : ∀ m ∈ ms, ∃ line a b nm rx, m = mkMarker line a b nm rx) :
    ∃ ast, (mkPattern t ms).1.ast = some ast ∧
      reMatch ast t.sample =
        some (t.sample.length,
          (sortByStart ms).map fun m => sliceStr t.sample m.start m.finish) := by
  have hok : ∀ m ∈ ms, MarkerOk m := by
    intro m hm
    obtain ⟨line, a, b, nm, rx, rfl⟩ := hmk m hm
    exact mkMarker_ok line a b nm rx
  have herrs' : (patFinish t
      ((sortByStart ms).foldl (patStep t) ⟨[], 0, [], []⟩)).errs = [] := herrs
  have hg0 : GoodSt t ⟨[], 0, [], []⟩ [] :=
    ⟨Nat.zero_le _, [], [], LexP_nil, StepsP_nil, HeadTo_nil t.sample 0⟩
  have hokS : ∀ m ∈ sortByStart ms, MarkerOk m :=
    fun m hm => hok m (sortByStart_mem m ms hm)
  obtain ⟨stN, hstN⟩ : ∃ stN : PatSt,
      (sortByStart ms).foldl (patStep t) ⟨[], 0, [], []⟩ = stN := ⟨_, rfl⟩
  rw [hstN] at herrs'
  by_cases hidx : stN.index < t.sample.length
  · have hfe : (patFinish t stN).errs =
        stN.errs ++ (t.InferSkip stN.index t.sample.length).2 := by
      unfold patFinish
      rw [if_pos hidx]
    rw [hfe] at herrs'
    obtain ⟨h1, h2⟩ := List.append_eq_nil.mp herrs'
    have hgN := fold_good t (sortByStart ms) ⟨[], 0, [], []⟩ [] hokS hg0
      (by rw [hstN]; exact h1)
    rw [hstN] at hgN
    obtain ⟨hNle, toks, atoms, hlexN, hstepsN, hheadN⟩ := hgN
    obtain ⟨hheadS, hlexS, hstepsS⟩ :=
      inferSkip_exact t stN.index t.sample.length (le_of_lt hidx) le_rfl h2
    have hfr : (patFinish t stN).regex =
        stN.regex ++ (t.InferSkip stN.index t.sample.length).1 := by
      unfold patFinish
      rw [if_pos hidx]
    have hlexF : LexP (patFinish t stN).regex
        (toks ++ (collapseWs (sliceStr t.sample stN.index t.sample.length)).flatMap
          tokOf) := by
      rw [hfr]
      exact LexP_append _ _ _ _ hlexN hlexS
    have hstepsF := StepsP_append _ _ _ _ hstepsN hstepsS (headQuant_tokOf_append _)
    have hcomp := reCompile_of _ _ _ hlexF hstepsF
    have hhead := HeadTo_append _ _ t.sample 0 stN.index t.sample.length
      ([] ++ (sortByStart ms).map fun m => sliceStr t.sample m.start m.finish)
      [] hheadN hheadS
    refine ⟨toRSeq (atoms ++
      (collapseWs (sliceStr t.sample stN.index t.sample.length)).flatMap skipAtomOf),
      ?_, ?_⟩
    · show reCompile (patFinish t
        ((sortByStart ms).foldl (patStep t) ⟨[], 0, [], []⟩)).regex = some _
      rw [hstN]
      exact hcomp
    · unfold HeadTo at hhead
      show (seqParses (toRSeq (atoms ++
        (collapseWs (sliceStr t.sample stN.index t.sample.length)).flatMap
          skipAtomOf)) t.sample 0).head? = _
      simpa using hhead
  · have hfeq : patFinish t stN = stN := by
      unfold patFinish
      rw [if_neg hidx]
    rw [hfeq] at herrs'
    have hgN := fold_good t (sortByStart ms) ⟨[], 0, [], []⟩ [] hokS hg0
      (by rw [hstN]; exact herrs')
    rw [hstN] at hgN
    obtain ⟨hNle, toks, atoms, hlexN, hstepsN, hheadN⟩ := hgN
    have hNeq : stN.index = t.sample.length := by omega
    have hcomp := reCompile_of _ _ _ hlexN hstepsN
    refine ⟨toRSeq atoms, ?_, ?_⟩
    · show reCompile (patFinish t
        ((sortByStart ms).foldl (patStep t) ⟨[], 0, [], []⟩)).regex = some _
      rw [hstN, hfeq]
      exact hcomp
    · unfold HeadTo at hheadN
      rw [hNeq] at hheadN
      show (seqParses (toRSeq atoms) t.sample 0).head? = _
      simpa using hheadN

/-- Witness for C6 at the fixture template and markers: the hypotheses
hold by evaluation, and the theorem yields the full-sample match with
the two slices captured. -/
theorem C6_witness :
    ∃ ast, (mkPattern tmplC6 msC6).1.ast = some ast ∧
      reMatch ast tmplC6.sample =
        some (tmplC6.sample.length,
          (sortByStart msC6).map fun m => sliceStr tmplC6.sample m.start m.finish) :=
  C6_pattern_matches_sample tmplC6 msC6 (by rfl)
    (by
      intro m hm
      simp only [msC6, List.mem_cons, List.not_mem_nil, or_false] at hm
      rcases hm with rfl | rfl
      · exact ⟨⟨8, " ?x a+".toList⟩, 0, 2, some ['x'], ['a', '+'], rfl⟩
      · exact ⟨⟨9, "    ?y".toList⟩, 3, 5, some ['y'], [], rfl⟩)

/-- Counterexample to the unconditional reading of C6: a Pattern can be
constructed (from Marker.__init__-built markers) whose regex does not
match the template's own sample — Pattern.__init__ reports "regex does
not match marker" but still builds the pattern, and matching fails. -/
theorem C6_counterexample :
    (∀ m ∈ msC6bad, ∃ line a b nm rx, m = mkMarker line a b nm rx) ∧
    (∃ ast, (mkPattern tmplC6bad msC6bad).1.ast = some ast ∧
      reMatch ast tmplC6bad.sample = none) := by
  constructor
  · intro m hm
    simp only [msC6bad, List.mem_cons, List.not_mem_nil, or_false] at hm
    rw [hm]
    exact ⟨⟨12, " ?z b+".toList⟩, 0, 2, some ['z'], ['b', '+'], rfl⟩
  · exact ⟨RSeq.cons (.grp true (RSeq.cons (.pat (.lit 'b') .plus) .nil)) .nil,
      rfl, rfl⟩

end Ashier
